import Mathlib

/-!
Shallow embedding of the SpecTree document engine (src/domain of the
repository) and proofs about it.

Modelling conventions:
* Python floats (sort keys, the 1e-6 gap tolerance) are modelled as exact
  rationals `ℚ`.  All sort-key arithmetic performed by the code
  (midpoints, plus or minus 10, comparisons against 1e-6) is exact on the inputs our
  theorems quantify over, so `ℚ` is a faithful model of the control flow.
* Python in-place mutation is modelled by explicit state passing.  A raised
  exception is modelled by `Except` whose error also carries the
  partially-mutated state, mirroring the fact that a Python exception leaves
  already-performed mutations in place.
* `list.sort` (via `sorted_children`) is Python's stable sort; we model it
  with `List.insertionSort`, which is stable, and the in-place aspect by
  persisting the sorted list into the rebuilt tree.
* Object identity: commands keep references to nodes they inserted and later
  remove them with `list.remove`, which in Python compares dataclasses
  structurally.  We model the remembered reference by its value at the end
  of `apply`; this is faithful whenever the node is not mutated between
  `apply` and `rollback`, which holds in every situation our theorems cover.
-/

namespace SpecTree

/-- Python exception classes raised by the domain code: `ValueError`
(InvalidOperation), `IndexError` (IndexOutOfRange) and `TransformError`
(a `ValueError` subclass). -/
inductive PyErr : Type where
  | valueError : PyErr
  | indexError : PyErr
  | transformError : PyErr
deriving DecidableEq, Repr

/-- DEFAULT_SORT_STEP = 10.0 from src/domain/model.py. -/
def DEFAULT_SORT_STEP : ℚ := 10

/-- MIN_SORT_GAP = 1e-6 from src/domain/model.py. -/
def MIN_SORT_GAP : ℚ := 1 / 1000000

/-- CONTENT_TYPES from src/domain/model.py. -/
def CONTENT_TYPES : List String := ["md", "typ", "adoc"]

/-- The Node dataclass of src/domain/model.py: title, content_type, content,
sensors, actuators, image, printable, sort_key, children. -/
inductive Node : Type where
  | mk (title content_type content sensors actuators image : String)
      (printable : Bool) (sort_key : ℚ) (children : List Node) : Node

def Node.title : Node → String
  | .mk t _ _ _ _ _ _ _ _ => t

def Node.content_type : Node → String
  | .mk _ ct _ _ _ _ _ _ _ => ct

def Node.content : Node → String
  | .mk _ _ c _ _ _ _ _ _ => c

def Node.sensors : Node → String
  | .mk _ _ _ s _ _ _ _ _ => s

def Node.actuators : Node → String
  | .mk _ _ _ _ a _ _ _ _ => a

def Node.image : Node → String
  | .mk _ _ _ _ _ i _ _ _ => i

def Node.printable : Node → Bool
  | .mk _ _ _ _ _ _ p _ _ => p

def Node.sort_key : Node → ℚ
  | .mk _ _ _ _ _ _ _ k _ => k

def Node.children : Node → List Node
  | .mk _ _ _ _ _ _ _ _ ch => ch

/-- Replace the children list (models in-place mutation of `node.children`). -/
def Node.withChildren : Node → List Node → Node
  | .mk t ct c s a i p k _, ch => .mk t ct c s a i p k ch

/-- Replace the sort key (models `node.sort_key = ...`). -/
def Node.withSortKey : Node → ℚ → Node
  | .mk t ct c s a i p _ ch, k => .mk t ct c s a i p k ch

/-- Structural equality of nodes, as generated by Python's `@dataclass`
(`__eq__` compares all fields recursively).  Used to model `list.remove`
and `list.index`. -/
def Node.beq : Node → Node → Bool
  | .mk t ct c s a i p k ch, .mk t' ct' c' s' a' i' p' k' ch' =>
    t == t' && ct == ct' && c == c' && s == s' && a == a' && i == i' &&
      p == p' && k == k' && go ch ch'
where
  go : List Node → List Node → Bool
    | [], [] => true
    | x :: xs, y :: ys => Node.beq x y && go xs ys
    | _, _ => false

instance : Inhabited Node := ⟨.mk "" "md" "" "" "" "" true 0 []⟩

/-- Ordering of siblings used by every sort in model.py:
`key=lambda n: n.sort_key`. -/
def keyLe (a b : Node) : Prop := a.sort_key ≤ b.sort_key

instance : DecidableRel keyLe := fun a b =>
  inferInstanceAs (Decidable (a.sort_key ≤ b.sort_key))

instance : IsTotal Node keyLe := ⟨fun a b => le_total a.sort_key b.sort_key⟩

instance : IsTrans Node keyLe := ⟨fun _ _ _ h h' => le_trans h h'⟩

/-- `sorted_children(node)` / `sorted(..., key=lambda n: n.sort_key)` from
src/domain/model.py: Python's stable sort by sort key, modelled by the stable
`List.insertionSort`. -/
def sorted_children (l : List Node) : List Node := List.insertionSort keyLe l

theorem mem_sorted_children {c : Node} {l : List Node}
    (h : c ∈ sorted_children l) : c ∈ l :=
  (List.perm_insertionSort keyLe l).mem_iff.mp h

/-- `maybe_reindex_siblings` helper: rewrite sort keys to `10, 20, 30, ...`
(the `enumerate(siblings, start=1)` loop). -/
def reindexFrom (i : ℕ) : List Node → List Node
  | [] => []
  | n :: rest => n.withSortKey ((i : ℚ) * DEFAULT_SORT_STEP) :: reindexFrom (i + 1) rest

/-- Adjacent-gap scan of `maybe_reindex_siblings`:
`any(gap <= MIN_SORT_GAP for gap in gaps)`. -/
def anyTightGap : List Node → Bool
  | a :: b :: rest =>
    (decide (b.sort_key - a.sort_key ≤ MIN_SORT_GAP)) || anyTightGap (b :: rest)
  | _ => false

/-- `maybe_reindex_siblings(siblings)` from src/domain/model.py. -/
def maybe_reindex_siblings (l : List Node) : List Node :=
  if l.length < 2 then l
  else if anyTightGap l then reindexFrom 1 l
  else l

/-- `assign_sort_key_for_insert(siblings, insert_index)` from
src/domain/model.py.  The index is a Python int. -/
def assign_sort_key_for_insert (l : List Node) (i : ℤ) : ℚ :=
  match l with
  | [] => DEFAULT_SORT_STEP
  | first :: _ =>
    if i ≤ 0 then first.sort_key - DEFAULT_SORT_STEP
    else if (l.length : ℤ) ≤ i then l.getLast!.sort_key + DEFAULT_SORT_STEP
    else (l[(i - 1).toNat]!.sort_key + l[i.toNat]!.sort_key) / 2

/-- `sort_key_after_source(siblings, source_index)` from src/domain/model.py;
`source_index` is always a valid index when called. -/
def sort_key_after_source (l : List Node) (i : ℕ) : ℚ :=
  let src := l[i]!
  if i + 1 < l.length then (src.sort_key + l[i + 1]!.sort_key) / 2
  else src.sort_key + DEFAULT_SORT_STEP

/-- Python `list.insert(i, a)` for a non-negative index: clamps to the end
when the index exceeds the length. -/
def pyInsert (l : List α) (i : ℕ) (a : α) : List α :=
  l.take i ++ a :: l.drop i

/-- Python `list.pop(i)` for a valid non-negative index: the remaining list
(the popped element itself is read separately). -/
def pyPopAt (l : List α) (i : ℕ) : List α := l.eraseIdx i

/-- Resolve a Python list index (negative indices count from the end);
`none` models an `IndexError`. -/
def pyResolveIdx (len : ℕ) (i : ℤ) : Option ℕ :=
  if 0 ≤ i ∧ i < (len : ℤ) then some i.toNat
  else if -(len : ℤ) ≤ i ∧ i < 0 then some (i + len).toNat
  else none

/-- Python `list.remove(x)`: drop the first element structurally equal to
`x`; `none` models the `ValueError` when no element matches. -/
def pyRemoveFirst (l : List Node) (x : Node) : Option (List Node) :=
  match l with
  | [] => none
  | a :: rest =>
    if Node.beq a x then some rest
    else (pyRemoveFirst rest x).map (a :: ·)

/-- Python `list.index(x)`: index of the first element structurally equal to
`x` (callers in the source only use it when `x` is present). -/
def pyIndexOf (l : List Node) (x : Node) : ℕ := l.findIdx (fun a => Node.beq a x)

theorem Node.sizeOf_children_lt (n : Node) : sizeOf n.children < sizeOf n := by
  cases n with
  | mk t ct c s a i p k ch => simp [Node.children]

theorem sizeOf_lt_of_mem_sorted_children {c : Node} {n : Node}
    (h : c ∈ sorted_children n.children) : sizeOf c < sizeOf n :=
  lt_trans (List.sizeOf_lt_of_mem (mem_sorted_children h)) n.sizeOf_children_lt

/-! ### The SpecModel aggregate and path-addressed mutation (src/domain/model.py) -/

/-- The SpecModel dataclass: schema_version plus the root node. -/
structure SpecModel : Type where
  schema_version : String
  root : Node

/-- Descend a path from `n` exactly as `SpecModel.get_node` does — sorting
(and persisting, since Python's `list.sort` is in place) each visited node's
children, then indexing with Python list semantics — and run `f` on the
target node, rebuilding the tree around `f`'s result.  An error carries the
partially mutated tree, mirroring a raised Python exception: sorts performed
during the descent persist. -/
def Node.modifyAt (n : Node) (p : List ℤ)
    (f : Node → Except (PyErr × Node) (Node × α)) :
    Except (PyErr × Node) (Node × α) :=
  match p with
  | [] => f n
  | i :: rest =>
    match pyResolveIdx (sorted_children n.children).length i with
    | none => .error (.indexError, n.withChildren (sorted_children n.children))
    | some j =>
      match ((sorted_children n.children)[j]!).modifyAt rest f with
      | .error (e, t) =>
        .error (e, n.withChildren ((sorted_children n.children).set j t))
      | .ok (t, a) => .ok (n.withChildren ((sorted_children n.children).set j t), a)

/-- Read-only variant of the descent of `SpecModel.get_node` (used to state
theorems about the result tree; the code's own reads go through
`Node.modifyAt`). -/
def Node.getAt (n : Node) (p : List ℤ) : Except PyErr Node :=
  match p with
  | [] => .ok n
  | i :: rest =>
    match pyResolveIdx (sorted_children n.children).length i with
    | none => .error .indexError
    | some j => ((sorted_children n.children)[j]!).getAt rest

/-- The bounds check of `get_parent_and_index`:
`if index < 0 or index >= len(siblings): raise IndexError`. -/
def checkChildIndex (i : ℤ) (len : ℕ) : Option ℕ :=
  if 0 ≤ i ∧ i < (len : ℤ) then some i.toNat else none

/-- `validate_not_moving_into_subtree(source, target_parent)` from
src/domain/model.py: raises ValueError when `target_parent[: len(source)]`
equals `source`. -/
def validate_not_moving_into_subtree (source target_parent : List ℤ) : Bool :=
  target_parent.take source.length = source

/-- Clamp `max(0, min(i, len))` used by CreateNode and MoveNode. -/
def pyClamp (i : ℤ) (len : ℕ) : ℕ := (max 0 (min i (len : ℤ))).toNat

/-! ### Structural transforms (src/domain/transform.py) -/

/-- Heading hashes for a given level. -/
def headingHashes (k : ℕ) : String := String.mk (List.replicate k '#')

/-- One markdown section for a node at a given depth:
heading plus title, then the body on the next line when non-empty. -/
def sectionOf (depth : ℕ) (n : Node) : String :=
  if n.content = "" then headingHashes (depth + 1) ++ " " ++ n.title
  else headingHashes (depth + 1) ++ " " ++ n.title ++ "\n" ++ n.content

/-- Sequence a list of fallible results, stopping at the first error (the
first exception raised during the iteration). -/
def exceptSeq : List (Except PyErr α) → Except PyErr (List α)
  | [] => .ok []
  | .error e :: _ => .error e
  | .ok a :: rest => (exceptSeq rest).map (a :: ·)

/-- The traversal of `flatten_branch_to_markdown`: `iter_subtree_with_depth`
is a depth-first pre-order walk (children pushed in reverse sorted order onto
an explicit stack, hence visited in sorted order), raising TransformError at
the first node of depth greater than 5.  Modelled by structural pre-order
recursion, which visits the same nodes in the same order. -/
def flattenSections (d : ℕ) (n : Node) : Except PyErr (List String) :=
  if 5 < d then .error .transformError
  else
    match exceptSeq ((sorted_children n.children).attach.map
        (fun c => flattenSections (d + 1) c.val)) with
    | .error e => .error e
    | .ok secs => .ok (sectionOf d n :: secs.flatten)
termination_by sizeOf n
decreasing_by exact sizeOf_lt_of_mem_sorted_children c.prop

/-- `flatten_branch_to_markdown(source)` from src/domain/transform.py. -/
def flatten_branch_to_markdown (n : Node) : Except PyErr String :=
  (flattenSections 0 n).map (String.intercalate "\n\n" ·)

/-- `flatten_branch_to_node(source, sort_key)` from src/domain/transform.py. -/
def flatten_branch_to_node (source : Node) (key : ℚ) : Except PyErr Node :=
  (flatten_branch_to_markdown source).map (fun md =>
    .mk source.title source.content_type md "" "" "" source.printable key [])

/-- HEADING_RE matching: one to six hashes, at least one whitespace
character, then at least one further character; the title is the remainder
after the whitespace run, stripped.  (Backtracking of the greedy quantifiers
makes the regex match exactly under these conditions, and `group(2).strip()`
equals stripping the remainder after the maximal whitespace run.)  String
manipulation is carried out on the character list of the line. -/
def headIsWs (l : List Char) : Bool :=
  match l with
  | c :: _ => c.isWhitespace
  | [] => false

/-- Python `str.strip()`: drop whitespace from both ends. -/
def trimChars (l : List Char) : List Char :=
  ((l.dropWhile Char.isWhitespace).reverse.dropWhile Char.isWhitespace).reverse

def parseHeading (line : String) : Option (ℕ × String) :=
  let hashes := (line.data.takeWhile (· = '#')).length
  let rest := line.data.drop hashes
  if 1 ≤ hashes ∧ hashes ≤ 6 ∧ 2 ≤ rest.length ∧ headIsWs rest then
    some (hashes, String.mk (trimChars (rest.dropWhile Char.isWhitespace)))
  else none

/-- Python `s.strip("\n")`: remove leading and trailing newline characters. -/
def stripNl (s : String) : String :=
  String.mk (((s.data.dropWhile (· = '\n')).reverse.dropWhile (· = '\n')).reverse)

/-- Newline grouping: the character groups between newline characters. -/
def splitChars : List Char → List (List Char)
  | [] => [[]]
  | c :: rest =>
    if c = '\n' then [] :: splitChars rest
    else
      match splitChars rest with
      | [] => [[c]]
      | g :: gs => (c :: g) :: gs

/-- Python `str.splitlines()` restricted to newline-separated text (the only
line separator occurring in this code base): no trailing empty line is
produced for a trailing newline, and the empty string yields no lines. -/
def splitlines (s : String) : List String :=
  match s.data with
  | [] => []
  | l =>
    if l.getLast! = '\n' then ((splitChars l).map String.mk).dropLast
    else (splitChars l).map String.mk

/-- A stack entry of `expand_markdown_to_branch`: the (level, node) pair.
The node under construction is represented by its scalar fields plus the
children completed so far; Python attaches each child to its parent at
creation time and mutates it in place until it is popped, which is
equivalent to attaching the finished child when it is popped. -/
structure ExpEntry : Type where
  level : ℕ
  title : String
  content : String
  sort_key : ℚ
  kids : List Node

/-- `_new_empty_node` applied to a finished stack entry: content_type and
printable are inherited from the source node.  (`__post_init__` cannot fire:
the inherited content_type was itself validated when the source node was
constructed.) -/
def buildEntry (ct : String) (pr : Bool) (e : ExpEntry) : Node :=
  .mk e.title ct e.content "" "" "" pr e.sort_key e.kids

/-- State of the expand loop: the stack (head is the top) and the pending
buffer of non-heading lines. -/
structure ExpState : Type where
  stack : List ExpEntry
  pending : List String

/-- `"\n".join(pending_content).strip("\n")` from `flush_content`. -/
def flushVal (pending : List String) : String :=
  stripNl (String.intercalate "\n" pending)

/-- `flush_content()`: with an empty stack it returns early, leaving the
pending buffer intact; otherwise it writes the joined buffer into the top
node's content and clears the buffer. -/
def ExpState.flush (S : ExpState) : ExpState :=
  match S.stack with
  | [] => S
  | top :: rest => ⟨{ top with content := flushVal S.pending } :: rest, []⟩

/-- Attach a finished child to its parent entry.  Python appends the child
node at creation and sorts the parent's children (`sorted_children(parent)`,
line 85); children are created with strictly increasing sort keys, so the
sort leaves creation order intact and attaching the finished child on pop
yields the same list. -/
def attachKid (ct : String) (pr : Bool) (e : ExpEntry) (parent : ExpEntry) : ExpEntry :=
  { parent with kids := sorted_children (parent.kids ++ [buildEntry ct pr e]) }

/-- The pop loop `while stack and stack[-1][0] >= level: stack.pop()`
followed by the `if not stack: raise TransformError` check; `none` is the
raise.  Each popped entry is finished, so it is attached to the entry below
it (its parent). -/
def popAttach (ct : String) (pr : Bool) (k : ℕ) : List ExpEntry → Option (List ExpEntry)
  | [] => none
  | e :: rest =>
    if k ≤ e.level then
      match rest with
      | [] => none
      | p :: rest' => popAttach ct pr k (attachKid ct pr e p :: rest')
    else some (e :: rest)
termination_by l => l.length
decreasing_by simp

/-- One iteration of the `for line in lines` loop of
`expand_markdown_to_branch`. -/
def expStep (ct : String) (pr : Bool) (rootKey : ℚ) (S : ExpState) (line : String) :
    Except PyErr ExpState :=
  match parseHeading line with
  | none => .ok ⟨S.stack, S.pending ++ [line]⟩
  | some (k, title) =>
    match S.flush.stack with
    | [] => .ok ⟨[⟨k, title, "", rootKey, []⟩], S.flush.pending⟩
    | top :: _ =>
      if top.level + 1 < k then .error .transformError
      else
        match popAttach ct pr k S.flush.stack with
        | none => .error .transformError
        | some [] => .error .transformError
        | some (p :: rest) =>
          .ok ⟨⟨k, title, "",
            ((p.kids.length + 1 : ℕ) : ℚ) * DEFAULT_SORT_STEP, []⟩ :: p :: rest, []⟩

/-- Run the expand loop over a list of lines. -/
def runLines (ct : String) (pr : Bool) (rootKey : ℚ) (S : ExpState) :
    List String → Except PyErr ExpState
  | [] => .ok S
  | line :: rest =>
    match expStep ct pr rootKey S line with
    | .error e => .error e
    | .ok S1 => runLines ct pr rootKey S1 rest

/-- Fold the remaining stack into the root node (in Python the nodes are
already linked; attaching the still-open entries bottom-up produces the same
tree that the root reference sees at the end of the loop). -/
def collapseStack (ct : String) (pr : Bool) : List ExpEntry → Node
  | [] => default
  | [e] => buildEntry ct pr e
  | e :: p :: rest => collapseStack ct pr (attachKid ct pr e p :: rest)
termination_by l => l.length
decreasing_by simp

/-- The final `flush_content()` plus the `if root is None: raise` check and
the return of the root: the root exists exactly when the stack is
non-empty. -/
def expFinalize (ct : String) (pr : Bool) (S : ExpState) : Except PyErr Node :=
  let S1 := S.flush
  match S1.stack with
  | [] => .error .transformError
  | stk => .ok (collapseStack ct pr stk)

/-- `expand_markdown_to_branch(source, sort_key)` from src/domain/transform.py. -/
def expand_markdown_to_branch (source : Node) (sort_key : ℚ) : Except PyErr Node :=
  match runLines source.content_type source.printable sort_key ⟨[], []⟩
      (splitlines source.content) with
  | .error e => .error e
  | .ok S => expFinalize source.content_type source.printable S

/-! ### The command set (src/domain/commands.py)

Each Python command object carries its constructor arguments plus private
undo-state fields that start as `None` and are filled in by `apply`.  We
carry both in one inductive value; `apply`/`rollback` return the updated
command alongside the updated model.  An error result carries the model in
the state the raised exception left it. -/

/-- A value stored in one of the updatable fields (all six allowed fields
are strings except `printable`). -/
inductive FieldVal : Type where
  | str (s : String) : FieldVal
  | bool (b : Bool) : FieldVal
deriving DecidableEq, Repr

/-- The allowed-field check of `UpdateFieldCommand.apply`. -/
def ALLOWED_UPDATE_FIELDS : List String :=
  ["title", "content", "sensors", "actuators", "image", "printable"]

/-- `getattr(node, field_name)` for the six allowed fields (`apply`
validates the name before reading). -/
def Node.getField (n : Node) : String → FieldVal
  | "title" => .str n.title
  | "content" => .str n.content
  | "sensors" => .str n.sensors
  | "actuators" => .str n.actuators
  | "image" => .str n.image
  | "printable" => .bool n.printable
  | _ => .str ""

/-- `setattr(node, field_name, v)` for the six allowed fields.  A value of
the wrong shape for the field (possible in Python only through a rollback
that never had a matching apply) is ignored; no reachable code path and no
theorem below depends on that case. -/
def Node.setField (n : Node) (name : String) (v : FieldVal) : Node :=
  match n, name, v with
  | .mk _ ct c s a i p k ch, "title", .str t => .mk t ct c s a i p k ch
  | .mk t ct _ s a i p k ch, "content", .str c => .mk t ct c s a i p k ch
  | .mk t ct c _ a i p k ch, "sensors", .str s => .mk t ct c s a i p k ch
  | .mk t ct c s _ i p k ch, "actuators", .str a => .mk t ct c s a i p k ch
  | .mk t ct c s a _ p k ch, "image", .str i => .mk t ct c s a i p k ch
  | .mk t ct c s a i _ k ch, "printable", .bool p => .mk t ct c s a i p k ch
  | n, _, _ => n

/-- The six command dataclasses, with their private undo-state fields
(`Option`-valued, `none` until `apply` fills them). -/
inductive Cmd : Type where
  | create (parent_path : List ℤ) (insert_index : ℤ) (node : Node)
      (createdPath : Option (List ℤ)) : Cmd
  | delete (path : List ℤ) (deletedNode : Option Node)
      (parentPath : Option (List ℤ)) (index : Option ℕ) : Cmd
  | update (path : List ℤ) (field_name : String) (new_value : FieldVal)
      (oldValue : Option FieldVal) : Cmd
  | move (path new_parent_path : List ℤ) (new_index : ℤ) (node : Option Node)
      (oldParentPath : Option (List ℤ)) (oldIndex : Option ℕ)
      (newPath : Option (List ℤ)) : Cmd
  | flattenCmd (path : List ℤ) (insertedPath : Option (List ℤ))
      (createdNode : Option Node) : Cmd
  | expandCmd (path : List ℤ) (insertedPath : Option (List ℤ))
      (createdNode : Option Node) : Cmd

/-- The shared parent-level insert step: clamp the index to the sibling
count, assign the sort key by the insert rule, insert, maybe-reindex, then
sort (`sorted_children(parent)`).  This is the tail of
`CreateNodeCommand.apply`, of `MoveNodeCommand.apply` (on the new parent)
and of `MoveNodeCommand.rollback` (on the old parent).  The result carries
the inserted node's current value — the object the command aliases, whose
sort key `maybe_reindex_siblings` may have rewritten in place — and its
index in the re-sorted list (`siblings.index(node)`). -/
def insertClampedFun (ii : ℤ) (node : Node) (parent : Node) :
    Except (PyErr × Node) (Node × (Node × ℕ)) :=
  let sibs := sorted_children parent.children
  let index := pyClamp ii sibs.length
  let node1 := node.withSortKey (assign_sort_key_for_insert sibs (index : ℤ))
  let ins := maybe_reindex_siblings (pyInsert sibs index node1)
  let nodeF := ins[index]!
  let final := sorted_children ins
  .ok (parent.withChildren final, (nodeF, pyIndexOf final nodeF))

/-- Parent-level work of the rollbacks that remove a remembered node
(`CreateNodeCommand.rollback`, `FlattenBranchToNodeCommand.rollback`,
`ExpandNodeToBranchCommand.rollback`): the index bounds check of
`get_parent_and_index` followed by `siblings.remove(node)` and the final
sort. -/
def removeNodeFun (idx : ℤ) (node : Node) (parent : Node) :
    Except (PyErr × Node) (Node × Unit) :=
  let sibs := sorted_children parent.children
  match checkChildIndex idx sibs.length with
  | none => .error (.indexError, parent.withChildren sibs)
  | some _ =>
    match pyRemoveFirst sibs node with
    | none => .error (.valueError, parent.withChildren sibs)
    | some rest => .ok (parent.withChildren (sorted_children rest), ())

/-- Parent-level work of `DeleteNodeCommand.apply`: bounds check, pop, and
the final `sorted_children(parent)`. -/
def deletePopFun (idx : ℤ) (parent : Node) :
    Except (PyErr × Node) (Node × (Node × ℕ)) :=
  let sibs := sorted_children parent.children
  match checkChildIndex idx sibs.length with
  | none => .error (.indexError, parent.withChildren sibs)
  | some j =>
    .ok (parent.withChildren (sorted_children (pyPopAt sibs j)), (sibs[j]!, j))

/-- Parent-level work of `DeleteNodeCommand.rollback`: reinsert the
remembered node — carrying its retained sort key, the rollback does not
touch it — at the remembered index, maybe-reindex, then sort. -/
def reinsertFun (node : Node) (j : ℕ) (parent : Node) :
    Except (PyErr × Node) (Node × Unit) :=
  let sibs := sorted_children parent.children
  .ok (parent.withChildren
    (sorted_children (maybe_reindex_siblings (pyInsert sibs j node))), ())

/-- Node-level work of `UpdateFieldCommand.apply`: validate the field name,
then remember the old value and set the new one. -/
def updateFun (name : String) (v : FieldVal) (node : Node) :
    Except (PyErr × Node) (Node × FieldVal) :=
  if name ∈ ALLOWED_UPDATE_FIELDS then
    .ok (node.setField name v, node.getField name)
  else .error (.valueError, node)

/-- Node-level work of `UpdateFieldCommand.rollback`.  With
`oldValue = none` Python would set the attribute to `None`; that state is
unreachable through the command manager and is modelled as leaving the
field unchanged. -/
def updateRollbackFun (name : String) (oldValue : Option FieldVal) (node : Node) :
    Except (PyErr × Node) (Node × Unit) :=
  match oldValue with
  | some old => .ok (node.setField name old, ())
  | none => .ok (node, ())

/-- `CreateNodeCommand.apply`. -/
def applyCreate (pp : List ℤ) (ii : ℤ) (node : Node) (m : SpecModel) :
    Except (PyErr × SpecModel) (SpecModel × Cmd) :=
  match m.root.modifyAt pp (insertClampedFun ii node) with
  | .error (e, r) => .error (e, ⟨m.schema_version, r⟩)
  | .ok (r, (nodeF, pos)) =>
    .ok (⟨m.schema_version, r⟩,
      .create pp ii nodeF (some (pp ++ [(pos : ℤ)])))

/-- `CreateNodeCommand.rollback`. -/
def rollbackCreate (pp : List ℤ) (ii : ℤ) (node : Node)
    (createdPath : Option (List ℤ)) (m : SpecModel) :
    Except (PyErr × SpecModel) (SpecModel × Cmd) :=
  match createdPath with
  | none => .ok (m, .create pp ii node none)
  | some cp =>
    if cp = [] then .error (.valueError, m)
    else
      match m.root.modifyAt cp.dropLast (removeNodeFun cp.getLast! node) with
      | .error (e, r) => .error (e, ⟨m.schema_version, r⟩)
      | .ok (r, _) => .ok (⟨m.schema_version, r⟩, .create pp ii node (some cp))

/-- `DeleteNodeCommand.apply`. -/
def applyDelete (p : List ℤ) (m : SpecModel) :
    Except (PyErr × SpecModel) (SpecModel × Cmd) :=
  if p = [] then .error (.valueError, m)
  else
    match m.root.modifyAt p.dropLast (deletePopFun p.getLast!) with
    | .error (e, r) => .error (e, ⟨m.schema_version, r⟩)
    | .ok (r, (node, j)) =>
      .ok (⟨m.schema_version, r⟩, .delete p (some node) (some p.dropLast) (some j))

/-- `DeleteNodeCommand.rollback`.  The command's state fields are left as
they are (the Python rollback does not reassign them). -/
def rollbackDelete (p : List ℤ) (deletedNode : Option Node)
    (parentPath : Option (List ℤ)) (index : Option ℕ) (m : SpecModel) :
    Except (PyErr × SpecModel) (SpecModel × Cmd) :=
  match deletedNode, parentPath, index with
  | some node, some pp, some j =>
    (match m.root.modifyAt pp (reinsertFun node j) with
    | .error (e, r) => .error (e, ⟨m.schema_version, r⟩)
    | .ok (r, _) =>
      .ok (⟨m.schema_version, r⟩, .delete p (some node) (some pp) (some j)))
  | dn, pp, j => .ok (m, .delete p dn pp j)

/-- `UpdateFieldCommand.apply`. -/
def applyUpdate (p : List ℤ) (name : String) (v : FieldVal) (m : SpecModel) :
    Except (PyErr × SpecModel) (SpecModel × Cmd) :=
  match m.root.modifyAt p (updateFun name v) with
  | .error (e, r) => .error (e, ⟨m.schema_version, r⟩)
  | .ok (r, old) => .ok (⟨m.schema_version, r⟩, .update p name v (some old))

/-- `UpdateFieldCommand.rollback`. -/
def rollbackUpdate (p : List ℤ) (name : String) (v : FieldVal)
    (oldValue : Option FieldVal) (m : SpecModel) :
    Except (PyErr × SpecModel) (SpecModel × Cmd) :=
  match m.root.modifyAt p (updateRollbackFun name oldValue) with
  | .error (e, r) => .error (e, ⟨m.schema_version, r⟩)
  | .ok (r, _) => .ok (⟨m.schema_version, r⟩, .update p name v oldValue)

/-- The first phase of `MoveNodeCommand.apply`:
`get_parent_and_index(current_path)` followed by
`old_siblings.pop(old_index)` (no re-sort afterwards: the code does not call
`sorted_children(old_parent)` again). -/
def movePopFun (idx : ℤ) (parent : Node) :
    Except (PyErr × Node) (Node × (Node × ℕ)) :=
  let sibs := sorted_children parent.children
  match checkChildIndex idx sibs.length with
  | none => .error (.indexError, parent.withChildren sibs)
  | some j => .ok (parent.withChildren (pyPopAt sibs j), (sibs[j]!, j))

/-- `MoveNodeCommand.apply`. -/
def applyMove (p np : List ℤ) (ni : ℤ) (nodeSt : Option Node)
    (oldPP : Option (List ℤ)) (oldIdx : Option ℕ) (newPath : Option (List ℤ))
    (m : SpecModel) : Except (PyErr × SpecModel) (SpecModel × Cmd) :=
  let current_path := newPath.getD p
  if current_path = [] then .error (.valueError, m)
  else if validate_not_moving_into_subtree current_path np then
    .error (.valueError, m)
  else
    -- get_parent_and_index(current_path) then old_siblings.pop(old_index)
    match m.root.modifyAt current_path.dropLast (movePopFun current_path.getLast!) with
    | .error (e, r) => .error (e, ⟨m.schema_version, r⟩)
    | .ok (r1, (node, old_index)) =>
      -- new_parent = model.get_node(new_parent_path) on the mutated tree
      match r1.modifyAt np (insertClampedFun ni node) with
      | .error (e, r2) => .error (e, ⟨m.schema_version, r2⟩)
      | .ok (r2, (nodeF, pos)) =>
        .ok (⟨m.schema_version, r2⟩,
          .move p np ni (some nodeF) (some current_path.dropLast)
            (some old_index) (some (np ++ [(pos : ℤ)])))

/-- `MoveNodeCommand.rollback`. -/
def rollbackMove (p np : List ℤ) (ni : ℤ) (nodeSt : Option Node)
    (oldPP : Option (List ℤ)) (oldIdx : Option ℕ) (newPath : Option (List ℤ))
    (m : SpecModel) : Except (PyErr × SpecModel) (SpecModel × Cmd) :=
  match nodeSt, oldPP, oldIdx, newPath with
  | some nodeSt0, some opp, some oi, some nppath =>
    if nppath = [] then .error (.valueError, m)
    else
      match m.root.modifyAt nppath.dropLast (movePopFun nppath.getLast!) with
      | .error (e, r) => .error (e, ⟨m.schema_version, r⟩)
      | .ok (r1, (node, _)) =>
        match r1.modifyAt opp (insertClampedFun (oi : ℤ) node) with
        | .error (e, r2) => .error (e, ⟨m.schema_version, r2⟩)
        | .ok (r2, (nodeF, pos)) =>
          .ok (⟨m.schema_version, r2⟩,
            .move p np ni (some nodeF) (some opp) (some oi)
              (some (opp ++ [(pos : ℤ)])))
  | n0, o0, i0, np0 => .ok (m, .move p np ni n0 o0 i0 np0)

/-- Parent-level work shared by `FlattenBranchToNodeCommand.apply` and
`ExpandNodeToBranchCommand.apply`: fetch the source node
(`model.get_node(self.path)` — the last descent step uses Python list
indexing, where negative indices wrap), re-check the index through
`get_parent_and_index`, run the transform (a TransformError propagates
before any insertion), insert the created node right after the source,
maybe-reindex and sort. -/
def siblingInsertFun (transform : Node → ℚ → Except PyErr Node) (idx : ℤ)
    (parent : Node) : Except (PyErr × Node) (Node × (Node × ℕ)) :=
  let sibs := sorted_children parent.children
  match pyResolveIdx sibs.length idx with
  | none => .error (.indexError, parent.withChildren sibs)
  | some jw =>
    match checkChildIndex idx sibs.length with
    | none => .error (.indexError, parent.withChildren sibs)
    | some j =>
      -- the source node is `sibs[jw]!` (`model.get_node(self.path)`)
      match transform sibs[jw]! (sort_key_after_source sibs j) with
      | .error e => .error (e, parent.withChildren sibs)
      | .ok created =>
        let ins := maybe_reindex_siblings (pyInsert sibs (j + 1) created)
        let nodeF := ins[j + 1]!
        let final := sorted_children ins
        .ok (parent.withChildren final, (nodeF, pyIndexOf final nodeF))

/-- Shared body of `FlattenBranchToNodeCommand.apply` and
`ExpandNodeToBranchCommand.apply`, which differ only in the transform that
builds the node to insert after the source. -/
def applySiblingInsert (transform : Node → ℚ → Except PyErr Node)
    (p : List ℤ) (m : SpecModel) :
    Except (PyErr × SpecModel) (SpecModel × (Node × List ℤ)) :=
  if p = [] then .error (.valueError, m)
  else
    match m.root.modifyAt p.dropLast (siblingInsertFun transform p.getLast!) with
    | .error (e, r) => .error (e, ⟨m.schema_version, r⟩)
    | .ok (r, (nodeF, pos)) =>
      .ok (⟨m.schema_version, r⟩, (nodeF, p.dropLast ++ [(pos : ℤ)]))

/-- Shared body of the flatten/expand rollbacks: remove the remembered
created node from its parent. -/
def rollbackSiblingInsert (ip : List ℤ) (created : Node) (m : SpecModel) :
    Except (PyErr × SpecModel) SpecModel :=
  if ip = [] then .error (.valueError, m)
  else
    match m.root.modifyAt ip.dropLast (removeNodeFun ip.getLast! created) with
    | .error (e, r) => .error (e, ⟨m.schema_version, r⟩)
    | .ok (r, _) => .ok ⟨m.schema_version, r⟩

/-- `command.apply(model)`, dispatched over the six command classes. -/
def applyCmd (c : Cmd) (m : SpecModel) :
    Except (PyErr × SpecModel) (SpecModel × Cmd) :=
  match c with
  | .create pp ii node _ => applyCreate pp ii node m
  | .delete p _ _ _ => applyDelete p m
  | .update p name v _ => applyUpdate p name v m
  | .move p np ni n0 o0 i0 np0 => applyMove p np ni n0 o0 i0 np0 m
  | .flattenCmd p _ _ =>
    (applySiblingInsert flatten_branch_to_node p m).map (fun (m1, (nodeF, ip)) =>
      (m1, .flattenCmd p (some ip) (some nodeF)))
  | .expandCmd p _ _ =>
    (applySiblingInsert expand_markdown_to_branch p m).map (fun (m1, (nodeF, ip)) =>
      (m1, .expandCmd p (some ip) (some nodeF)))

/-- `command.rollback(model)`, dispatched over the six command classes. -/
def rollbackCmd (c : Cmd) (m : SpecModel) :
    Except (PyErr × SpecModel) (SpecModel × Cmd) :=
  match c with
  | .create pp ii node cp => rollbackCreate pp ii node cp m
  | .delete p dn pp j => rollbackDelete p dn pp j m
  | .update p name v old => rollbackUpdate p name v old m
  | .move p np ni n0 o0 i0 np0 => rollbackMove p np ni n0 o0 i0 np0 m
  | .flattenCmd p ip cn =>
    match ip, cn with
    | some ip0, some created =>
      (rollbackSiblingInsert ip0 created m).map (fun m1 =>
        (m1, .flattenCmd p (some ip0) (some created)))
    | ip0, cn0 => .ok (m, .flattenCmd p ip0 cn0)
  | .expandCmd p ip cn =>
    match ip, cn with
    | some ip0, some created =>
      (rollbackSiblingInsert ip0 created m).map (fun m1 =>
        (m1, .expandCmd p (some ip0) (some created)))
    | ip0, cn0 => .ok (m, .expandCmd p ip0 cn0)

/-! ### The command manager (src/domain/command_manager.py) -/

/-- The CommandManager dataclass: the model, the undo and redo stacks (most
recent command at the head) and the dirty flag. -/
structure CommandManager : Type where
  model : SpecModel
  undo_stack : List Cmd
  redo_stack : List Cmd
  is_dirty : Bool

/-- `CommandManager.execute`: apply, push onto the undo stack, clear the
redo stack, mark dirty.  A raised apply propagates: the stacks are left
untouched and the model keeps whatever partial mutation apply performed. -/
def CommandManager.execute (cm : CommandManager) (c : Cmd) :
    Except (PyErr × CommandManager) CommandManager :=
  match applyCmd c cm.model with
  | .error (e, m1) => .error (e, { cm with model := m1 })
  | .ok (m1, c1) => .ok ⟨m1, c1 :: cm.undo_stack, [], true⟩

/-- `CommandManager.undo`: pop, rollback, push onto the redo stack.  The
bool mirrors the Python return value.  A raised rollback propagates after
the pop, before the push onto the redo stack. -/
def CommandManager.undo (cm : CommandManager) :
    Except (PyErr × CommandManager) (CommandManager × Bool) :=
  match cm.undo_stack with
  | [] => .ok (cm, false)
  | c :: rest =>
    match rollbackCmd c cm.model with
    | .error (e, m1) => .error (e, ⟨m1, rest, cm.redo_stack, cm.is_dirty⟩)
    | .ok (m1, c1) => .ok (⟨m1, rest, c1 :: cm.redo_stack, true⟩, true)

/-- `CommandManager.redo`: pop, apply, push onto the undo stack. -/
def CommandManager.redo (cm : CommandManager) :
    Except (PyErr × CommandManager) (CommandManager × Bool) :=
  match cm.redo_stack with
  | [] => .ok (cm, false)
  | c :: rest =>
    match applyCmd c cm.model with
    | .error (e, m1) => .error (e, ⟨m1, cm.undo_stack, rest, cm.is_dirty⟩)
    | .ok (m1, c1) => .ok (⟨m1, c1 :: cm.undo_stack, rest, true⟩, true)

/-! ### Persistence (src/domain/model.py serialization + src/domain/persistence.py)

`save_spec` renders the payload with `json.dumps(..., indent=2,
ensure_ascii=False)` plus a trailing newline; that rendering is a
deterministic, injective function of the payload tree below (Python dicts
preserve insertion order, and integers and floats render distinctly, e.g.
`10` versus `10.0`).  Byte equality of saved files is therefore equality of
payloads, which is what the round-trip theorem states. -/

/-- A JSON value.  Python distinguishes int and float values (they
serialize differently), hence two numeric constructors; both denote the
same rational when loaded back through `float(...)`. -/
inductive JValue : Type where
  | s (v : String) : JValue
  | b (v : Bool) : JValue
  | int (v : ℤ) : JValue
  | float (v : ℚ) : JValue
  | arr (xs : List JValue) : JValue
  | obj (fields : List (String × JValue)) : JValue

/-- `payload.get(key)`: first binding wins, `none` when absent. -/
def jGet : List (String × JValue) → String → Option JValue
  | [], _ => none
  | (k, v) :: rest, key => if k = key then some v else jGet rest key

/-- `str(payload.get(key, default))` for string-valued fields.  A present
value of a non-string JSON type would go through Python's `str()`
conversion; that never occurs in the wire format of section 6 and is
modelled by the default. -/
def jStr (o : Option JValue) (d : String) : String :=
  match o with
  | some (.s v) => v
  | _ => d

/-- `bool(payload.get(key, default))` (non-boolean JSON values do not occur
in the wire format). -/
def jBool (o : Option JValue) (d : Bool) : Bool :=
  match o with
  | some (.b v) => v
  | _ => d

/-- `float(payload.get(key, default))`: both JSON integers and JSON floats
convert to the same rational. -/
def jFloat (o : Option JValue) (d : ℚ) : ℚ :=
  match o with
  | some (.int v) => (v : ℚ)
  | some (.float v) => v
  | _ => d

/-- `node_to_ordered_dict(node)` from src/domain/model.py: the fixed key
order, children serialized in sort-key order (a stable sorted copy), and
`sort_key` emitted as an integer exactly when `float(...).is_integer()` —
for an exact rational, exactly when its denominator is 1. -/
def node_to_ordered_dict (n : Node) : JValue :=
  .obj [("title", .s n.title), ("content_type", .s n.content_type),
    ("content", .s n.content), ("sensors", .s n.sensors),
    ("actuators", .s n.actuators), ("image", .s n.image),
    ("printable", .b n.printable),
    ("sort_key", if n.sort_key.den = 1 then .int n.sort_key.num else .float n.sort_key),
    ("children", .arr ((sorted_children n.children).attach.map
      (fun c => node_to_ordered_dict c.val)))]
termination_by sizeOf n
decreasing_by exact sizeOf_lt_of_mem_sorted_children c.prop

theorem sizeOf_jGet {fields : List (String × JValue)} {key : String} {v : JValue}
    (h : jGet fields key = some v) : sizeOf v < 1 + sizeOf fields := by
  induction fields with
  | nil => simp [jGet] at h
  | cons kv rest ih =>
    obtain ⟨k, w⟩ := kv
    by_cases hk : k = key
    · simp [jGet, hk] at h
      subst h
      simp
      omega
    · simp [jGet, hk] at h
      have := ih h
      simp
      omega

/-- `node_from_dict(payload)` from src/domain/model.py.  The `__post_init__`
content-type validation of the constructed Node is included (a ValueError);
a non-dict payload (unreachable through `load_spec`) is a ValueError as
well.  The stored children list is the sorted one (`sorted_children(node)`
sorts in place before the node is returned). -/
def node_from_dict (payload : JValue) : Except PyErr Node :=
  match payload with
  | .obj fields =>
    let children_raw :=
      match h : jGet fields "children" with
      | some (.arr xs) => xs.attach.map (fun c => node_from_dict c.val)
      | _ => []
    match exceptSeq children_raw with
    | .error e => .error e
    | .ok children =>
      let ct := jStr (jGet fields "content_type") "md"
      if ct ∈ CONTENT_TYPES then
        .ok (.mk (jStr (jGet fields "title") "") ct
          (jStr (jGet fields "content") "") (jStr (jGet fields "sensors") "")
          (jStr (jGet fields "actuators") "") (jStr (jGet fields "image") "")
          (jBool (jGet fields "printable") true)
          (jFloat (jGet fields "sort_key") DEFAULT_SORT_STEP)
          (sorted_children children))
      else .error .valueError
  | _ => .error .valueError
termination_by sizeOf payload
decreasing_by
  have h1 := List.sizeOf_lt_of_mem c.prop
  have h2 := sizeOf_jGet h
  simp at h2 ⊢
  omega

/-- The payload written by `save_spec`. -/
def save_spec (m : SpecModel) : JValue :=
  .obj [("schema_version", .s m.schema_version),
    ("root", node_to_ordered_dict m.root)]

/-- `load_spec`: schema_version with its default, and the
`isinstance(root_payload, dict)` check (ValueError otherwise). -/
def load_spec (payload : JValue) : Except PyErr SpecModel :=
  match payload with
  | .obj fields =>
    let sv := jStr (jGet fields "schema_version") "1.0"
    match jGet fields "root" with
    | some (.obj rf) => (node_from_dict (.obj rf)).map (fun root => ⟨sv, root⟩)
    | _ => .error .valueError
  | _ => .error .valueError

/-! ### Basic facts about the embedded operations -/

theorem Node.title_mk : (Node.mk t ct c s a i p k ch).title = t := rfl

theorem Node.content_type_mk : (Node.mk t ct c s a i p k ch).content_type = ct := rfl

theorem Node.content_mk : (Node.mk t ct c s a i p k ch).content = c := rfl

theorem Node.sensors_mk : (Node.mk t ct c s a i p k ch).sensors = s := rfl

theorem Node.actuators_mk : (Node.mk t ct c s a i p k ch).actuators = a := rfl

theorem Node.image_mk : (Node.mk t ct c s a i p k ch).image = i := rfl

theorem Node.printable_mk : (Node.mk t ct c s a i p k ch).printable = p := rfl

theorem Node.sort_key_mk : (Node.mk t ct c s a i p k ch).sort_key = k := rfl

theorem Node.children_mk : (Node.mk t ct c s a i p k ch).children = ch := rfl

attribute [simp] Node.title_mk Node.content_type_mk Node.content_mk
  Node.sensors_mk Node.actuators_mk Node.image_mk Node.printable_mk
  Node.sort_key_mk Node.children_mk

theorem Node.withChildren_self (n : Node) : n.withChildren n.children = n := by
  cases n; rfl

theorem Node.children_withChildren (n : Node) (l : List Node) :
    (n.withChildren l).children = l := by
  cases n; rfl

theorem Node.sort_key_withChildren (n : Node) (l : List Node) :
    (n.withChildren l).sort_key = n.sort_key := by
  cases n; rfl

theorem Node.sort_key_withSortKey (n : Node) (k : ℚ) :
    (n.withSortKey k).sort_key = k := by
  cases n; rfl

theorem Node.children_withSortKey (n : Node) (k : ℚ) :
    (n.withSortKey k).children = n.children := by
  cases n; rfl

attribute [simp] Node.withChildren_self Node.children_withChildren
  Node.sort_key_withChildren Node.sort_key_withSortKey Node.children_withSortKey

theorem list_set_self (l : List α) (j : ℕ) (h : j < l.length) :
    l.set j l[j] = l := by
  apply List.ext_getElem
  · simp
  · intro i h1 h2
    simp only [List.getElem_set]
    split
    · next hji => subst hji; rfl
    · rfl

theorem pyResolveIdx_lt {len : ℕ} {i : ℤ} {j : ℕ}
    (h : pyResolveIdx len i = some j) : j < len := by
  unfold pyResolveIdx at h
  split at h
  · next hc =>
    simp at h
    omega
  · split at h
    · next hc =>
      simp at h
      omega
    · simp at h

theorem checkChildIndex_lt {len : ℕ} {i : ℤ} {j : ℕ}
    (h : checkChildIndex i len = some j) : j < len := by
  unfold checkChildIndex at h
  split at h
  · next hc => simp at h; omega
  · simp at h

theorem checkChildIndex_of_lt {len : ℕ} {i : ℤ} {j : ℕ}
    (h : checkChildIndex i len = some j) : pyResolveIdx len i = some j := by
  unfold checkChildIndex at h
  split at h
  · next hc =>
    simp at h
    unfold pyResolveIdx
    simp [hc]
    omega
  · simp at h

/-! ### Sortedness and the rebalance invariant -/

/-- The strict-gap relation of the rebalance invariant: the sort keys of two
adjacent siblings differ by more than MIN_SORT_GAP. -/
def gapRel (a b : Node) : Prop := a.sort_key + MIN_SORT_GAP < b.sort_key

instance : DecidableRel gapRel := fun a b =>
  inferInstanceAs (Decidable (a.sort_key + MIN_SORT_GAP < b.sort_key))

theorem MIN_SORT_GAP_pos : (0 : ℚ) < MIN_SORT_GAP := by norm_num [MIN_SORT_GAP]

instance : IsTrans Node gapRel :=
  ⟨fun a b c h h' => by
    have := MIN_SORT_GAP_pos
    unfold gapRel at *
    linarith⟩

/-- A sibling list satisfying the rebalance invariant: adjacent sort keys
strictly increase with a gap above MIN_SORT_GAP (hence the list is sorted
and no two adjacent siblings end with a gap at or below the tolerance). -/
def GoodList (l : List Node) : Prop := List.Chain' gapRel l

theorem GoodList.pairwise {l : List Node} (h : GoodList l) :
    List.Pairwise gapRel l :=
  List.chain'_iff_pairwise.mp h

theorem GoodList.sorted {l : List Node} (h : GoodList l) :
    List.Sorted keyLe l := by
  refine h.pairwise.imp (fun hab => ?_)
  have := MIN_SORT_GAP_pos
  unfold gapRel at hab
  unfold keyLe
  linarith

theorem goodList_of_subperm {l l' : List Node} (h : GoodList l)
    (hsub : l'.Sublist l) : GoodList l' :=
  List.chain'_iff_pairwise.mpr (h.pairwise.sublist hsub)

theorem goodList_short {l : List Node} (h : l.length < 2) : GoodList l := by
  match l, h with
  | [], _ => exact List.chain'_nil
  | [a], _ => exact List.chain'_singleton a

theorem anyTightGap_eq_false : ∀ l : List Node, anyTightGap l = false ↔ GoodList l
  | [] => by simp [anyTightGap, GoodList]
  | [a] => by simp [anyTightGap, GoodList]
  | a :: b :: rest => by
    rw [anyTightGap]
    rw [Bool.or_eq_false_iff]
    rw [anyTightGap_eq_false (b :: rest)]
    unfold GoodList
    rw [List.chain'_cons]
    constructor
    · rintro ⟨h1, h2⟩
      refine ⟨?_, h2⟩
      unfold gapRel
      simp at h1
      linarith
    · rintro ⟨h1, h2⟩
      refine ⟨?_, h2⟩
      unfold gapRel at h1
      simp
      linarith

theorem goodList_reindexFrom : ∀ (l : List Node) (i : ℕ), GoodList (reindexFrom i l)
  | [], _ => List.chain'_nil
  | [a], _ => List.chain'_singleton _
  | a :: b :: rest, i => by
    have ih := goodList_reindexFrom (b :: rest) (i + 1)
    rw [reindexFrom]
    rw [reindexFrom] at ih ⊢
    unfold GoodList at ih ⊢
    rw [List.chain'_cons]
    refine ⟨?_, ih⟩
    unfold gapRel
    simp [DEFAULT_SORT_STEP, MIN_SORT_GAP]
    linarith

/-- Whatever list it is given, `maybe_reindex_siblings` returns one
satisfying the rebalance invariant: short lists are trivial, a detected
tight gap triggers the full rewrite to gaps of 10, and otherwise the scan
itself certifies every gap. -/
theorem goodList_maybe_reindex (l : List Node) :
    GoodList (maybe_reindex_siblings l) := by
  unfold maybe_reindex_siblings
  split
  · next h => exact goodList_short (by omega)
  · split
    · exact goodList_reindexFrom l 1
    · next h h2 => exact (anyTightGap_eq_false l).mp (by simpa using h2)

theorem goodList_eraseIdx {l : List Node} (h : GoodList l) (i : ℕ) :
    GoodList (l.eraseIdx i) :=
  goodList_of_subperm h (List.eraseIdx_sublist l i)

/-- The sort-key sequence of a list. -/
def keysOf (l : List Node) : List ℚ := l.map Node.sort_key

theorem goodList_iff_keys {l : List Node} :
    GoodList l ↔ List.Chain' (fun x y => x + MIN_SORT_GAP < y) (keysOf l) := by
  unfold GoodList keysOf
  rw [List.chain'_map]
  rfl

theorem sorted_iff_keys {l : List Node} :
    List.Sorted keyLe l ↔ List.Pairwise (· ≤ ·) (keysOf l) := by
  unfold List.Sorted keysOf
  rw [List.pairwise_map]
  rfl

theorem keysOf_set (l : List Node) (j : ℕ) (t : Node) :
    keysOf (l.set j t) = (keysOf l).set j t.sort_key := by
  unfold keysOf
  rw [List.map_set]

theorem goodList_set_same_key {l : List Node} {j : ℕ} {t : Node}
    (hlen : j < l.length) (h : GoodList l) (hk : t.sort_key = l[j].sort_key) :
    GoodList (l.set j t) := by
  rw [goodList_iff_keys] at h ⊢
  rw [keysOf_set, hk]
  have : (keysOf l).set j l[j].sort_key = keysOf l := by
    have hjl : j < (keysOf l).length := by simp [keysOf]; omega
    have : (keysOf l)[j] = l[j].sort_key := by simp [keysOf]
    rw [← this]
    exact list_set_self _ j hjl
  rw [this]
  exact h

theorem sorted_set_same_key {l : List Node} {j : ℕ} {t : Node}
    (hlen : j < l.length) (h : List.Sorted keyLe l)
    (hk : t.sort_key = l[j].sort_key) : List.Sorted keyLe (l.set j t) := by
  rw [sorted_iff_keys] at h ⊢
  rw [keysOf_set, hk]
  have hjl : j < (keysOf l).length := by simp [keysOf]; omega
  have hg : (keysOf l)[j] = l[j].sort_key := by simp [keysOf]
  rw [← hg, list_set_self _ j hjl]
  exact h

theorem sorted_children_sorted (l : List Node) :
    List.Sorted keyLe (sorted_children l) :=
  List.sorted_insertionSort keyLe l

theorem sorted_children_eq_self {l : List Node} (h : List.Sorted keyLe l) :
    sorted_children l = l :=
  List.Sorted.insertionSort_eq h

theorem sorted_children_idem (l : List Node) :
    sorted_children (sorted_children l) = sorted_children l :=
  sorted_children_eq_self (sorted_children_sorted l)

/-! ### Tree-level invariants -/

/-- Every stored sibling list in the tree is sorted by sort key. -/
inductive SortedTree : Node → Prop where
  | mk (n : Node) : List.Sorted keyLe n.children →
      (∀ c ∈ n.children, SortedTree c) → SortedTree n

theorem SortedTree.listSorted {n : Node} (h : SortedTree n) :
    List.Sorted keyLe n.children := by
  cases h; assumption

theorem SortedTree.memSorted {n : Node} (h : SortedTree n) :
    ∀ c ∈ n.children, SortedTree c := by
  cases h; assumption

/-- Every stored sibling list in the tree satisfies the rebalance invariant
(sorted with adjacent gaps above MIN_SORT_GAP). -/
inductive GoodTree : Node → Prop where
  | mk (n : Node) : GoodList n.children →
      (∀ c ∈ n.children, GoodTree c) → GoodTree n

theorem GoodTree.listGood {n : Node} (h : GoodTree n) : GoodList n.children := by
  cases h; assumption

theorem GoodTree.memGood {n : Node} (h : GoodTree n) :
    ∀ c ∈ n.children, GoodTree c := by
  cases h; assumption

theorem GoodTree.sortedTree {n : Node} (h : GoodTree n) : SortedTree n := by
  induction h with
  | mk n hl hm ih => exact ⟨n, hl.sorted, ih⟩

theorem SortedTree.sorted_children_eq {n : Node} (h : SortedTree n) :
    sorted_children n.children = n.children :=
  sorted_children_eq_self h.listSorted

theorem sortedTree_withChildren {n : Node} {l : List Node}
    (hl : List.Sorted keyLe l) (hm : ∀ c ∈ l, SortedTree c) :
    SortedTree (n.withChildren l) :=
  ⟨n.withChildren l, by rw [Node.children_withChildren]; exact hl,
    by rw [Node.children_withChildren]; exact hm⟩

theorem goodTree_withChildren {n : Node} {l : List Node}
    (hl : GoodList l) (hm : ∀ c ∈ l, GoodTree c) :
    GoodTree (n.withChildren l) :=
  ⟨n.withChildren l, by rw [Node.children_withChildren]; exact hl,
    by rw [Node.children_withChildren]; exact hm⟩

theorem getElem_bang_eq {l : List Node} {j : ℕ} (h : j < l.length) :
    l[j]! = l[j] := getElem!_pos l j h

/-- If the local operation run by `modifyAt` only raises before mutating its
target (the carried node equals the target), then a failed `modifyAt` on a
tree with sorted sibling lists leaves the tree unchanged: the persisted
sorts along the descent are the identity. -/
theorem modifyAt_error_eq {α : Type} {f : Node → Except (PyErr × Node) (Node × α)}
    (hf : ∀ t, SortedTree t → ∀ e t', f t = .error (e, t') → t' = t) :
    ∀ (p : List ℤ) {n : Node}, SortedTree n → ∀ {e : PyErr} {n' : Node},
      n.modifyAt p f = .error (e, n') → n' = n := by
  intro p
  induction p with
  | nil =>
    intro n hn e n' h
    exact hf n hn e n' h
  | cons i rest ih =>
    intro n hn e n' h
    rw [Node.modifyAt, hn.sorted_children_eq] at h
    split at h
    · next hres =>
      simp only [Except.error.injEq, Prod.mk.injEq] at h
      rw [← h.2, Node.withChildren_self]
    · next j hres =>
      have hj : j < n.children.length := pyResolveIdx_lt hres
      rw [getElem_bang_eq hj] at h
      split at h
      · next e1 t hrec =>
        simp only [Except.error.injEq, Prod.mk.injEq] at h
        have ht : t = n.children[j] :=
          ih (hn.memSorted _ (List.getElem_mem hj)) hrec
        rw [← h.2, ht, list_set_self _ j hj, Node.withChildren_self]
      · next t a1 hrec => simp at h

/-- If the local operation preserves the invariant of its target and keeps
its sort key, a successful `modifyAt` preserves the tree invariant, with an
arbitrary postcondition `P` carried out of the target operation. -/
theorem modifyAt_good {α : Type} {P : α → Prop}
    {f : Node → Except (PyErr × Node) (Node × α)}
    (hf : ∀ t, GoodTree t → ∀ t' a, f t = .ok (t', a) →
      GoodTree t' ∧ t'.sort_key = t.sort_key ∧ P a) :
    ∀ (p : List ℤ) {n : Node}, GoodTree n → ∀ {n' : Node} {a : α},
      n.modifyAt p f = .ok (n', a) →
      GoodTree n' ∧ n'.sort_key = n.sort_key ∧ P a := by
  intro p
  induction p with
  | nil =>
    intro n hn n' a h
    exact hf n hn n' a h
  | cons i rest ih =>
    intro n hn n' a h
    rw [Node.modifyAt, hn.sortedTree.sorted_children_eq] at h
    split at h
    · next hres => simp at h
    · next j hres =>
      have hj : j < n.children.length := pyResolveIdx_lt hres
      rw [getElem_bang_eq hj] at h
      split at h
      · next e1 t hrec => simp at h
      · next t a1 hrec =>
        simp only [Except.ok.injEq, Prod.mk.injEq] at h
        obtain ⟨hn', ha⟩ := h
        subst ha
        have hchild : GoodTree n.children[j] := hn.memGood _ (List.getElem_mem hj)
        obtain ⟨ht, htk, hP⟩ := ih hchild hrec
        subst hn'
        refine ⟨goodTree_withChildren ?_ ?_, by simp, hP⟩
        · exact goodList_set_same_key hj hn.listGood htk
        · intro c hc
          rcases List.mem_or_eq_of_mem_set hc with hmem | rfl
          · exact hn.memGood _ hmem
          · exact ht

theorem specModel_eta (m : SpecModel) :
    (⟨m.schema_version, m.root⟩ : SpecModel) = m := rfl

/-! ### Error behaviour of the local command operations -/

theorem movePopFun_error {idx : ℤ} {t : Node} (ht : SortedTree t) {e : PyErr}
    {t' : Node} (h : movePopFun idx t = .error (e, t')) : t' = t := by
  rw [movePopFun] at h
  split at h
  · next hc =>
    simp only [Except.error.injEq, Prod.mk.injEq] at h
    rw [← h.2, ht.sorted_children_eq, Node.withChildren_self]
  · simp at h

theorem deletePopFun_error {idx : ℤ} {t : Node} (ht : SortedTree t) {e : PyErr}
    {t' : Node} (h : deletePopFun idx t = .error (e, t')) : t' = t := by
  rw [deletePopFun] at h
  split at h
  · next hc =>
    simp only [Except.error.injEq, Prod.mk.injEq] at h
    rw [← h.2, ht.sorted_children_eq, Node.withChildren_self]
  · simp at h

theorem updateFun_error {name : String} {v : FieldVal} {t : Node} {e : PyErr}
    {t' : Node} (h : updateFun name v t = .error (e, t')) : t' = t := by
  rw [updateFun] at h
  split at h
  · simp at h
  · simp only [Except.error.injEq, Prod.mk.injEq] at h
    exact h.2.symm

theorem insertClampedFun_not_error {ii : ℤ} {node t : Node} {e : PyErr}
    {t' : Node} (h : insertClampedFun ii node t = .error (e, t')) : False := by
  rw [insertClampedFun] at h
  simp at h

theorem removeNodeFun_error {idx : ℤ} {node t : Node} (ht : SortedTree t)
    {e : PyErr} {t' : Node} (h : removeNodeFun idx node t = .error (e, t')) :
    t' = t := by
  rw [removeNodeFun] at h
  split at h
  · next hc =>
    simp only [Except.error.injEq, Prod.mk.injEq] at h
    rw [← h.2, ht.sorted_children_eq, Node.withChildren_self]
  · split at h
    · next hc =>
      simp only [Except.error.injEq, Prod.mk.injEq] at h
      rw [← h.2, ht.sorted_children_eq, Node.withChildren_self]
    · simp at h

theorem siblingInsertFun_error {tf : Node → ℚ → Except PyErr Node} {idx : ℤ}
    {t : Node} (ht : SortedTree t) {e : PyErr} {t' : Node}
    (h : siblingInsertFun tf idx t = .error (e, t')) : t' = t := by
  rw [siblingInsertFun] at h
  split at h
  · next hc =>
    simp only [Except.error.injEq, Prod.mk.injEq] at h
    rw [← h.2, ht.sorted_children_eq, Node.withChildren_self]
  · next jw hc =>
    split at h
    · next hc2 =>
      simp only [Except.error.injEq, Prod.mk.injEq] at h
      rw [← h.2, ht.sorted_children_eq, Node.withChildren_self]
    · next j hc2 =>
      split at h
      · next e1 hc3 =>
        simp only [Except.error.injEq, Prod.mk.injEq] at h
        rw [← h.2, ht.sorted_children_eq, Node.withChildren_self]
      · simp at h

/-! ## Claim C10: rollback before apply is a no-op -/

/-- C10: for every model and every CreateNode, DeleteNode, MoveNode,
FlattenBranchToNode or ExpandNodeToBranch command whose apply has never run
(all private undo-state fields still unset), rollback returns without
modifying the model in any way. -/
theorem rollback_before_apply_is_noop (m : SpecModel) :
    (∀ pp ii nd,
      rollbackCmd (.create pp ii nd none) m = .ok (m, .create pp ii nd none)) ∧
    (∀ p,
      rollbackCmd (.delete p none none none) m = .ok (m, .delete p none none none)) ∧
    (∀ p np ni,
      rollbackCmd (.move p np ni none none none none) m =
        .ok (m, .move p np ni none none none none)) ∧
    (∀ p,
      rollbackCmd (.flattenCmd p none none) m = .ok (m, .flattenCmd p none none)) ∧
    (∀ p,
      rollbackCmd (.expandCmd p none none) m = .ok (m, .expandCmd p none none)) :=
  ⟨fun _ _ _ => rfl, fun _ => rfl, fun _ _ _ => rfl, fun _ => rfl, fun _ => rfl⟩

/-! ## Claim C1: errors during apply and partial mutation -/

/-- The model of the C1 counterexample: a root with a single child. -/
def moveCE : SpecModel :=
  ⟨"1.0", .mk "Root" "md" "" "" "" "" true 10
    [.mk "a" "md" "" "" "" "" true 10 []]⟩

/-- C1 counterexample: `MoveNode((0,), newParentPath=(5,), 0)` on a root
with one child raises IndexError only after popping the child, so the tree
is left without the node: the claim "the model tree is left exactly as it
was before apply" is false for MoveNode with an invalid newParentPath. -/
theorem move_invalid_target_mutates :
    applyCmd (.move [0] [5] 0 none none none none) moveCE =
      .error (.indexError, ⟨"1.0", .mk "Root" "md" "" "" "" "" true 10 []⟩) ∧
    (⟨"1.0", .mk "Root" "md" "" "" "" "" true 10 []⟩ : SpecModel) ≠ moveCE := by
  constructor
  · norm_num [applyCmd, applyMove, moveCE, movePopFun, insertClampedFun,
      Node.modifyAt, sorted_children, List.insertionSort, List.orderedInsert,
      keyLe, checkChildIndex, pyResolveIdx, pyPopAt, getElem!_pos,
      Node.withChildren, validate_not_moving_into_subtree,
      List.getLast!, List.getLast, List.dropLast, Option.getD, List.eraseIdx]
  · intro h
    have := congrArg (fun mm => mm.root.children.length) h
    simp [moveCE] at this

/-- C1 (amended): if a command's apply raises, the model tree is unchanged
for CreateNode, DeleteNode, UpdateField, FlattenBranchToNode and
ExpandNodeToBranch, and for MoveNode whenever the error is raised before the
source node is removed (empty path, move-into-own-subtree, or a failure
while resolving the source path); a MoveNode whose newParentPath is invalid
for the tree after the removal instead leaves the source node deleted (see
the counterexample).  Trees are those with sorted stored sibling lists, the
only stored form the engine produces. -/
theorem apply_error_leaves_tree_unchanged (m : SpecModel)
    (hm : SortedTree m.root) :
    (∀ pp ii nd st e m',
      applyCmd (.create pp ii nd st) m = .error (e, m') → m' = m) ∧
    (∀ p s1 s2 s3 e m',
      applyCmd (.delete p s1 s2 s3) m = .error (e, m') → m' = m) ∧
    (∀ p name v st e m',
      applyCmd (.update p name v st) m = .error (e, m') → m' = m) ∧
    (∀ p s1 s2 e m',
      applyCmd (.flattenCmd p s1 s2) m = .error (e, m') → m' = m) ∧
    (∀ p s1 s2 e m',
      applyCmd (.expandCmd p s1 s2) m = .error (e, m') → m' = m) ∧
    (∀ p np ni n0 o0 i0 np0 e m',
      applyCmd (.move p np ni n0 o0 i0 np0) m = .error (e, m') →
      ((np0.getD p) = [] ∨ validate_not_moving_into_subtree (np0.getD p) np = true ∨
        (∃ e1 r, m.root.modifyAt (np0.getD p).dropLast
          (movePopFun (np0.getD p).getLast!) = .error (e1, r)) →
        m' = m)) := by
  refine ⟨?_, ?_, ?_, ?_, ?_, ?_⟩
  · intro pp ii nd st e m' h
    rw [show applyCmd (.create pp ii nd st) m = applyCreate pp ii nd m from rfl,
      applyCreate] at h
    split at h
    · next e1 r hres =>
      simp only [Except.error.injEq, Prod.mk.injEq] at h
      have hr : r = m.root :=
        modifyAt_error_eq (fun t ht e2 t' hft =>
          absurd hft (insertClampedFun_not_error · )) pp hm hres
      rw [← h.2, hr, specModel_eta]
    · next hres => simp at h
  · intro p s1 s2 s3 e m' h
    rw [show applyCmd (.delete p s1 s2 s3) m = applyDelete p m from rfl,
      applyDelete] at h
    split at h
    · next hp =>
      simp only [Except.error.injEq, Prod.mk.injEq] at h
      exact h.2.symm
    · next hp =>
      split at h
      · next e1 r hres =>
        simp only [Except.error.injEq, Prod.mk.injEq] at h
        have hr : r = m.root :=
          modifyAt_error_eq (fun t ht e2 t' hft => deletePopFun_error ht hft)
            p.dropLast hm hres
        rw [← h.2, hr, specModel_eta]
      · next pr hres => simp at h
  · intro p name v st e m' h
    rw [show applyCmd (.update p name v st) m = applyUpdate p name v m from rfl,
      applyUpdate] at h
    split at h
    · next e1 r hres =>
      simp only [Except.error.injEq, Prod.mk.injEq] at h
      have hr : r = m.root :=
        modifyAt_error_eq (fun t ht e2 t' hft => updateFun_error hft) p hm hres
      rw [← h.2, hr, specModel_eta]
    · next r hres => simp at h
  · intro p s1 s2 e m' h
    rw [show applyCmd (.flattenCmd p s1 s2) m =
        (applySiblingInsert flatten_branch_to_node p m).map (fun x =>
          (x.1, .flattenCmd p (some x.2.2) (some x.2.1))) from rfl] at h
    rw [applySiblingInsert] at h
    split at h
    · next hp =>
      simp only [Except.map, Except.error.injEq, Prod.mk.injEq] at h
      exact h.2.symm
    · next hp =>
      split at h
      · next e1 r hres =>
        simp only [Except.map, Except.error.injEq, Prod.mk.injEq] at h
        have hr : r = m.root :=
          modifyAt_error_eq (fun t ht e2 t' hft => siblingInsertFun_error ht hft)
            p.dropLast hm hres
        rw [← h.2, hr, specModel_eta]
      · next pr hres => simp [Except.map] at h
  · intro p s1 s2 e m' h
    rw [show applyCmd (.expandCmd p s1 s2) m =
        (applySiblingInsert expand_markdown_to_branch p m).map (fun x =>
          (x.1, .expandCmd p (some x.2.2) (some x.2.1))) from rfl] at h
    rw [applySiblingInsert] at h
    split at h
    · next hp =>
      simp only [Except.map, Except.error.injEq, Prod.mk.injEq] at h
      exact h.2.symm
    · next hp =>
      split at h
      · next e1 r hres =>
        simp only [Except.map, Except.error.injEq, Prod.mk.injEq] at h
        have hr : r = m.root :=
          modifyAt_error_eq (fun t ht e2 t' hft => siblingInsertFun_error ht hft)
            p.dropLast hm hres
        rw [← h.2, hr, specModel_eta]
      · next pr hres => simp [Except.map] at h
  · intro p np ni n0 o0 i0 np0 e m' h hcase
    rw [show applyCmd (.move p np ni n0 o0 i0 np0) m =
        applyMove p np ni n0 o0 i0 np0 m from rfl, applyMove] at h
    rcases hcase with hemp | hval | ⟨e1, r, hres⟩
    · rw [if_pos hemp] at h
      simp only [Except.error.injEq, Prod.mk.injEq] at h
      exact h.2.symm
    · by_cases hemp : (np0.getD p) = []
      · rw [if_pos hemp] at h
        simp only [Except.error.injEq, Prod.mk.injEq] at h
        exact h.2.symm
      · rw [if_neg hemp, if_pos hval] at h
        simp only [Except.error.injEq, Prod.mk.injEq] at h
        exact h.2.symm
    · by_cases hemp : (np0.getD p) = []
      · rw [if_pos hemp] at h
        simp only [Except.error.injEq, Prod.mk.injEq] at h
        exact h.2.symm
      · rw [if_neg hemp] at h
        by_cases hval : validate_not_moving_into_subtree (np0.getD p) np = true
        · rw [if_pos hval] at h
          simp only [Except.error.injEq, Prod.mk.injEq] at h
          exact h.2.symm
        · rw [if_neg hval, hres] at h
          simp only [Except.error.injEq, Prod.mk.injEq] at h
          have hr : r = m.root :=
            modifyAt_error_eq (fun t ht e2 t' hft => movePopFun_error ht hft)
              _ hm hres
          rw [← h.2, hr, specModel_eta]

/-- A one-node model used to instantiate theorems with hypotheses. -/
def leafModel : SpecModel := ⟨"1.0", .mk "Root" "md" "" "" "" "" true 10 []⟩

theorem leafModel_sorted : SortedTree leafModel.root :=
  ⟨_, by simp [leafModel], by simp [leafModel]⟩

theorem leafModel_good : GoodTree leafModel.root :=
  ⟨_, by simp [leafModel, GoodList], by simp [leafModel]⟩

/-- Witness for the amended C1 theorem at the one-node model: deleting with
a stale path raises IndexError and leaves the model unchanged. -/
theorem apply_error_leaves_tree_unchanged_witness :
    SortedTree leafModel.root ∧
    (∀ p s1 s2 s3 e m',
      applyCmd (.delete p s1 s2 s3) leafModel = .error (e, m') → m' = leafModel) :=
  ⟨leafModel_sorted,
    (apply_error_leaves_tree_unchanged leafModel leafModel_sorted).2.1⟩

/-! ### Invariant preservation by the local command operations -/

theorem goodTree_withSortKey {c : Node} (h : GoodTree c) (k : ℚ) :
    GoodTree (c.withSortKey k) :=
  ⟨c.withSortKey k, by rw [Node.children_withSortKey]; exact h.listGood,
    by rw [Node.children_withSortKey]; exact h.memGood⟩

theorem mem_pyInsert {l : List Node} {i : ℕ} {x c : Node}
    (h : c ∈ pyInsert l i x) : c = x ∨ c ∈ l := by
  unfold pyInsert at h
  rcases List.mem_append.mp h with h1 | h1
  · exact Or.inr (List.mem_of_mem_take h1)
  · rcases List.mem_cons.mp h1 with h2 | h2
    · exact Or.inl h2
    · exact Or.inr (List.mem_of_mem_drop h2)

theorem mem_reindexFrom {c : Node} :
    ∀ {l : List Node} {i : ℕ}, c ∈ reindexFrom i l →
      ∃ c0 ∈ l, ∃ k, c = c0.withSortKey k := by
  intro l
  induction l with
  | nil => intro i h; simp [reindexFrom] at h
  | cons a rest ih =>
    intro i h
    rw [reindexFrom] at h
    rcases List.mem_cons.mp h with h1 | h1
    · exact ⟨a, List.mem_cons_self a rest, _, h1⟩
    · obtain ⟨c0, hc0, k, hk⟩ := ih h1
      exact ⟨c0, List.mem_cons_of_mem a hc0, k, hk⟩

theorem goodTree_mem_maybe_reindex {l : List Node}
    (hl : ∀ c ∈ l, GoodTree c) :
    ∀ c ∈ maybe_reindex_siblings l, GoodTree c := by
  intro c hc
  unfold maybe_reindex_siblings at hc
  split at hc
  · exact hl c hc
  · split at hc
    · obtain ⟨c0, hc0, k, hk⟩ := mem_reindexFrom hc
      rw [hk]
      exact goodTree_withSortKey (hl c0 hc0) k
    · exact hl c hc

theorem sublist_pyRemoveFirst {x : Node} :
    ∀ {l rest : List Node}, pyRemoveFirst l x = some rest → rest.Sublist l := by
  intro l
  induction l with
  | nil => intro rest h; simp [pyRemoveFirst] at h
  | cons a t ih =>
    intro rest h
    rw [pyRemoveFirst] at h
    split at h
    · simp only [Option.some.injEq] at h
      rw [← h]
      exact (List.sublist_cons_self a t)
    · cases hrec : pyRemoveFirst t x with
      | none => rw [hrec] at h; simp at h
      | some rest0 =>
        rw [hrec] at h
        simp only [Option.map_some', Option.some.injEq] at h
        rw [← h]
        exact List.Sublist.cons₂ a (ih hrec)

/-- The invariant contract of the shared clamped-insert step: given a good
parent and a good node to insert, the result is good, keeps the parent's
sort key, and the returned alias is a good tree. -/
theorem insertClampedFun_good {ii : ℤ} {node t : Node} (ht : GoodTree t)
    (hnode : GoodTree node) {t' : Node} {a : Node × ℕ}
    (h : insertClampedFun ii node t = .ok (t', a)) :
    GoodTree t' ∧ t'.sort_key = t.sort_key ∧ GoodTree a.1 := by
  rw [insertClampedFun, ht.sortedTree.sorted_children_eq] at h
  simp only [Except.ok.injEq, Prod.mk.injEq] at h
  obtain ⟨ht', ha⟩ := h
  set ins := maybe_reindex_siblings
    (pyInsert t.children (pyClamp ii t.children.length)
      (node.withSortKey (assign_sort_key_for_insert t.children
        (pyClamp ii t.children.length : ℤ)))) with hins
  have hgood : GoodList ins := goodList_maybe_reindex _
  have hmem : ∀ c ∈ ins, GoodTree c := by
    refine goodTree_mem_maybe_reindex ?_
    intro c hc
    rcases mem_pyInsert hc with rfl | hc2
    · exact goodTree_withSortKey hnode _
    · exact ht.memGood c hc2
  have hsc : sorted_children ins = ins := sorted_children_eq_self hgood.sorted
  rw [hsc] at ht' ha
  constructor
  · rw [← ht']
    exact goodTree_withChildren hgood hmem
  constructor
  · rw [← ht', Node.sort_key_withChildren]
  · rw [← ha]
    by_cases hlen : pyClamp ii t.children.length < ins.length
    · rw [getElem_bang_eq hlen]
      exact hmem _ (List.getElem_mem hlen)
    · -- out-of-range access returns the default node, a childless leaf
      rw [getElem!_neg ins _ hlen]
      exact ⟨default, by simp [default, GoodList], by simp [default]⟩

theorem deletePopFun_good {idx : ℤ} {t : Node} (ht : GoodTree t) {t' : Node}
    {a : Node × ℕ} (h : deletePopFun idx t = .ok (t', a)) :
    GoodTree t' ∧ t'.sort_key = t.sort_key ∧ GoodTree a.1 := by
  rw [deletePopFun, ht.sortedTree.sorted_children_eq] at h
  split at h
  · simp at h
  · next j hc =>
    have hj : j < t.children.length := checkChildIndex_lt hc
    simp only [Except.ok.injEq, Prod.mk.injEq] at h
    obtain ⟨ht', ha⟩ := h
    have hgood : GoodList (pyPopAt t.children j) := goodList_eraseIdx ht.listGood j
    have hsc : sorted_children (pyPopAt t.children j) = pyPopAt t.children j :=
      sorted_children_eq_self hgood.sorted
    rw [hsc] at ht'
    refine ⟨?_, ?_, ?_⟩
    · rw [← ht']
      refine goodTree_withChildren hgood ?_
      intro c hc2
      exact ht.memGood c ((List.eraseIdx_sublist t.children j).mem hc2)
    · rw [← ht', Node.sort_key_withChildren]
    · rw [← ha]
      simp only [getElem_bang_eq hj]
      exact ht.memGood _ (List.getElem_mem hj)

theorem movePopFun_good {idx : ℤ} {t : Node} (ht : GoodTree t) {t' : Node}
    {a : Node × ℕ} (h : movePopFun idx t = .ok (t', a)) :
    GoodTree t' ∧ t'.sort_key = t.sort_key ∧ GoodTree a.1 := by
  rw [movePopFun, ht.sortedTree.sorted_children_eq] at h
  split at h
  · simp at h
  · next j hc =>
    have hj : j < t.children.length := checkChildIndex_lt hc
    simp only [Except.ok.injEq, Prod.mk.injEq] at h
    obtain ⟨ht', ha⟩ := h
    refine ⟨?_, ?_, ?_⟩
    · rw [← ht']
      refine goodTree_withChildren (goodList_eraseIdx ht.listGood j) ?_
      intro c hc2
      exact ht.memGood c ((List.eraseIdx_sublist t.children j).mem hc2)
    · rw [← ht', Node.sort_key_withChildren]
    · rw [← ha]
      simp only [getElem_bang_eq hj]
      exact ht.memGood _ (List.getElem_mem hj)

theorem reinsertFun_good {node : Node} {j : ℕ} {t : Node} (ht : GoodTree t)
    (hnode : GoodTree node) {t' : Node} {a : Unit}
    (h : reinsertFun node j t = .ok (t', a)) :
    GoodTree t' ∧ t'.sort_key = t.sort_key := by
  rw [reinsertFun, ht.sortedTree.sorted_children_eq] at h
  simp only [Except.ok.injEq, Prod.mk.injEq] at h
  obtain ⟨ht', -⟩ := h
  have hgood : GoodList (maybe_reindex_siblings (pyInsert t.children j node)) :=
    goodList_maybe_reindex _
  have hmem : ∀ c ∈ maybe_reindex_siblings (pyInsert t.children j node),
      GoodTree c := by
    refine goodTree_mem_maybe_reindex ?_
    intro c hc
    rcases mem_pyInsert hc with rfl | hc2
    · exact hnode
    · exact ht.memGood c hc2
  rw [sorted_children_eq_self hgood.sorted] at ht'
  constructor
  · rw [← ht']
    exact goodTree_withChildren hgood hmem
  · rw [← ht', Node.sort_key_withChildren]

theorem removeNodeFun_good {idx : ℤ} {node t : Node} (ht : GoodTree t)
    {t' : Node} {a : Unit} (h : removeNodeFun idx node t = .ok (t', a)) :
    GoodTree t' ∧ t'.sort_key = t.sort_key := by
  rw [removeNodeFun, ht.sortedTree.sorted_children_eq] at h
  split at h
  · simp at h
  · split at h
    · simp at h
    · next rest hrem =>
      simp only [Except.ok.injEq, Prod.mk.injEq] at h
      obtain ⟨ht', -⟩ := h
      have hsub := sublist_pyRemoveFirst hrem
      have hgood : GoodList rest := goodList_of_subperm ht.listGood hsub
      rw [sorted_children_eq_self hgood.sorted] at ht'
      constructor
      · rw [← ht']
        refine goodTree_withChildren hgood ?_
        intro c hc
        exact ht.memGood c (hsub.mem hc)
      · rw [← ht', Node.sort_key_withChildren]

theorem Node.setField_sort_key (n : Node) (name : String) (v : FieldVal) :
    (n.setField name v).sort_key = n.sort_key := by
  unfold Node.setField
  split <;> rfl

theorem Node.setField_children (n : Node) (name : String) (v : FieldVal) :
    (n.setField name v).children = n.children := by
  unfold Node.setField
  split <;> rfl

theorem goodTree_setField {n : Node} (h : GoodTree n) (name : String)
    (v : FieldVal) : GoodTree (n.setField name v) :=
  ⟨n.setField name v, by rw [Node.setField_children]; exact h.listGood,
    by rw [Node.setField_children]; exact h.memGood⟩

theorem updateFun_good {name : String} {v : FieldVal} {t : Node}
    (ht : GoodTree t) {t' : Node} {a : FieldVal}
    (h : updateFun name v t = .ok (t', a)) :
    GoodTree t' ∧ t'.sort_key = t.sort_key := by
  rw [updateFun] at h
  split at h
  · simp only [Except.ok.injEq, Prod.mk.injEq] at h
    rw [← h.1]
    exact ⟨goodTree_setField ht name v, Node.setField_sort_key t name v⟩
  · simp at h

theorem updateRollbackFun_good {name : String} {oldValue : Option FieldVal}
    {t : Node} (ht : GoodTree t) {t' : Node} {a : Unit}
    (h : updateRollbackFun name oldValue t = .ok (t', a)) :
    GoodTree t' ∧ t'.sort_key = t.sort_key := by
  rw [updateRollbackFun.eq_def] at h
  split at h
  · simp only [Except.ok.injEq, Prod.mk.injEq] at h
    rw [← h.1]
    exact ⟨goodTree_setField ht name _, Node.setField_sort_key t name _⟩
  · simp only [Except.ok.injEq, Prod.mk.injEq] at h
    rw [← h.1]
    exact ⟨ht, rfl⟩

theorem siblingInsertFun_good {tf : Node → ℚ → Except PyErr Node} {idx : ℤ}
    (htf : ∀ src key n', tf src key = .ok n' → GoodTree n')
    {t : Node} (ht : GoodTree t) {t' : Node} {a : Node × ℕ}
    (h : siblingInsertFun tf idx t = .ok (t', a)) :
    GoodTree t' ∧ t'.sort_key = t.sort_key := by
  rw [siblingInsertFun, ht.sortedTree.sorted_children_eq] at h
  split at h
  · simp at h
  · next jw hres =>
    split at h
    · simp at h
    · next j hc =>
      split at h
      · simp at h
      · next created htr =>
        simp only [Except.ok.injEq, Prod.mk.injEq] at h
        obtain ⟨ht', -⟩ := h
        have hgood : GoodList (maybe_reindex_siblings
            (pyInsert t.children (j + 1) created)) := goodList_maybe_reindex _
        have hmem : ∀ c ∈ maybe_reindex_siblings
            (pyInsert t.children (j + 1) created), GoodTree c := by
          refine goodTree_mem_maybe_reindex ?_
          intro c hc2
          rcases mem_pyInsert hc2 with rfl | hc3
          · exact htf _ _ _ htr
          · exact ht.memGood c hc3
        rw [sorted_children_eq_self hgood.sorted] at ht'
        constructor
        · rw [← ht']
          exact goodTree_withChildren hgood hmem
        · rw [← ht', Node.sort_key_withChildren]

/-- `flatten_branch_to_node` produces a childless node: trivially good. -/
theorem flatten_branch_to_node_good {src : Node} {key : ℚ} {n' : Node}
    (h : flatten_branch_to_node src key = .ok n') : GoodTree n' := by
  rw [flatten_branch_to_node] at h
  cases hmd : flatten_branch_to_markdown src with
  | error e => rw [hmd] at h; simp [Except.map] at h
  | ok md =>
    rw [hmd] at h
    simp only [Except.map, Except.ok.injEq] at h
    rw [← h]
    exact ⟨_, by simp [GoodList], by simp⟩

/-! ### The expand machine produces good trees -/

/-- The sort keys of an under-construction child list are exactly
`10, 20, ..., n*10` (children get `(count+1)*DEFAULT_SORT_STEP`). -/
def canonKeys (l : List Node) : Prop :=
  ∀ i (h : i < l.length), l[i].sort_key = ((i + 1 : ℕ) : ℚ) * DEFAULT_SORT_STEP

theorem canonKeys_nil : canonKeys [] := fun i h => by simp at h

theorem canonKeys_append {l : List Node} {x : Node} (hl : canonKeys l)
    (hx : x.sort_key = ((l.length + 1 : ℕ) : ℚ) * DEFAULT_SORT_STEP) :
    canonKeys (l ++ [x]) := by
  intro i h
  simp only [List.length_append, List.length_cons, List.length_nil] at h
  by_cases hi : i < l.length
  · rw [List.getElem_append_left hi]
    exact hl i hi
  · have hieq : i = l.length := by omega
    subst hieq
    simp only [List.getElem_concat_length]
    exact hx

theorem canonKeys_good {l : List Node} (h : canonKeys l) : GoodList l := by
  unfold GoodList
  rw [List.chain'_iff_get]
  intro i hi
  have h1 := h i (by omega)
  have h2 := h (i + 1) (by omega)
  unfold gapRel
  rw [List.get_eq_getElem, List.get_eq_getElem, h1, h2]
  have : ((i + 1 + 1 : ℕ) : ℚ) = ((i + 1 : ℕ) : ℚ) + 1 := by push_cast; ring
  rw [this]
  rw [MIN_SORT_GAP, DEFAULT_SORT_STEP]
  nlinarith [((i + 1 : ℕ) : ℚ).num]

/-- Invariant of a single stack entry of the expand loop. -/
def canonKids (e : ExpEntry) : Prop :=
  canonKeys e.kids ∧ ∀ c ∈ e.kids, GoodTree c

/-- Invariant of the whole expand stack (head is the top): each entry's
completed children carry the canonical keys and are good trees, and each
non-bottom entry's key is the one computed from its parent's child count at
creation time. -/
def StackInv : List ExpEntry → Prop
  | [] => True
  | [e] => canonKids e
  | e :: p :: rest =>
    canonKids e ∧
    e.sort_key = ((p.kids.length + 1 : ℕ) : ℚ) * DEFAULT_SORT_STEP ∧
    StackInv (p :: rest)

theorem buildEntry_good {ct : String} {pr : Bool} {e : ExpEntry}
    (he : canonKids e) : GoodTree (buildEntry ct pr e) :=
  ⟨buildEntry ct pr e, by simp [buildEntry]; exact canonKeys_good he.1,
    by simp [buildEntry]; exact he.2⟩

theorem attachKid_canon {ct : String} {pr : Bool} {e p : ExpEntry}
    (he : canonKids e) (hp : canonKids p)
    (hk : e.sort_key = ((p.kids.length + 1 : ℕ) : ℚ) * DEFAULT_SORT_STEP) :
    canonKids (attachKid ct pr e p) ∧
    (attachKid ct pr e p).kids = p.kids ++ [buildEntry ct pr e] ∧
    (attachKid ct pr e p).sort_key = p.sort_key := by
  have hkey : (buildEntry ct pr e).sort_key =
      ((p.kids.length + 1 : ℕ) : ℚ) * DEFAULT_SORT_STEP := by
    simp only [buildEntry, Node.sort_key_mk]; exact hk
  have hcanon : canonKeys (p.kids ++ [buildEntry ct pr e]) :=
    canonKeys_append hp.1 hkey
  have hsorted : sorted_children (p.kids ++ [buildEntry ct pr e]) =
      p.kids ++ [buildEntry ct pr e] :=
    sorted_children_eq_self (canonKeys_good hcanon).sorted
  refine ⟨⟨?_, ?_⟩, ?_, rfl⟩
  · show canonKeys (attachKid ct pr e p).kids
    simp only [attachKid, hsorted]
    exact hcanon
  · intro c hc
    simp only [attachKid, hsorted] at hc
    rcases List.mem_append.mp hc with hc1 | hc1
    · exact hp.2 c hc1
    · rw [List.mem_singleton.mp hc1]
      exact buildEntry_good he
  · simp only [attachKid, hsorted]

theorem popAttach_inv {ct : String} {pr : Bool} {k : ℕ} :
    ∀ (stk : List ExpEntry), StackInv stk → ∀ {stk' : List ExpEntry},
      popAttach ct pr k stk = some stk' → StackInv stk'
  | [], h, stk', hp => by simp [popAttach] at hp
  | [e], h, stk', hp => by
    rw [popAttach] at hp
    split at hp
    · simp at hp
    · simp only [Option.some.injEq] at hp
      rw [← hp]
      exact h
  | e :: p :: rest, h, stk', hp => by
    rw [popAttach] at hp
    split at hp
    · obtain ⟨he, hkey, hrest⟩ := h
      have hpcanon : canonKids p := by
        cases rest with
        | nil => exact hrest
        | cons q t => exact hrest.1
      obtain ⟨hattach, hkids, hkeyp⟩ := attachKid_canon he hpcanon hkey
      refine popAttach_inv (attachKid ct pr e p :: rest) ?_ hp
      cases rest with
      | nil => exact hattach
      | cons q t =>
        obtain ⟨-, hkq, ht⟩ := hrest
        exact ⟨hattach, by rw [hkeyp]; exact hkq, ht⟩
    · simp only [Option.some.injEq] at hp
      rw [← hp]
      exact h
termination_by stk => stk.length
decreasing_by simp

/-- Updating the top entry's content (a flush) does not affect the stack
invariant. -/
theorem stackInv_set_content {top : ExpEntry} {rest : List ExpEntry}
    {x : String} (h : StackInv (top :: rest)) :
    StackInv ({ top with content := x } :: rest) := by
  cases rest with
  | nil => exact h
  | cons p t => exact h

theorem flush_inv {S : ExpState} (h : StackInv S.stack) :
    StackInv S.flush.stack := by
  rw [ExpState.flush]
  split
  · exact h
  · next top rest heq =>
    rw [heq] at h
    exact stackInv_set_content h

theorem expStep_inv {ct : String} {pr : Bool} {rootKey : ℚ} {S : ExpState}
    (h : StackInv S.stack) {line : String} {S' : ExpState}
    (hstep : expStep ct pr rootKey S line = .ok S') : StackInv S'.stack := by
  rw [expStep] at hstep
  split at hstep
  · simp only [Except.ok.injEq] at hstep
    rw [← hstep]
    exact h
  · next k title hparse =>
    have hfl : StackInv S.flush.stack := flush_inv h
    split at hstep
    · next hempty =>
      simp only [Except.ok.injEq] at hstep
      rw [← hstep]
      exact ⟨canonKeys_nil, by simp⟩
    · next top rest heq =>
      split at hstep
      · simp at hstep
      · split at hstep
        · simp at hstep
        · simp at hstep
        · next p prest hpop =>
          simp only [Except.ok.injEq] at hstep
          rw [← hstep]
          have hpinv : StackInv (p :: prest) := by
            refine popAttach_inv S.flush.stack ?_ hpop
            exact hfl
          have hpcanon : canonKids p := by
            cases prest with
            | nil => exact hpinv
            | cons q t => exact hpinv.1
          exact ⟨⟨canonKeys_nil, by simp⟩, rfl, hpinv⟩

theorem runLines_inv {ct : String} {pr : Bool} {rootKey : ℚ} :
    ∀ (lines : List String) (S : ExpState), StackInv S.stack →
      ∀ {S' : ExpState}, runLines ct pr rootKey S lines = .ok S' →
      StackInv S'.stack
  | [], S, h, S', hrun => by
    rw [runLines] at hrun
    simp only [Except.ok.injEq] at hrun
    rw [← hrun]
    exact h
  | line :: rest, S, h, S', hrun => by
    rw [runLines] at hrun
    split at hrun
    · simp at hrun
    · next S1 hstep =>
      exact runLines_inv rest S1 (expStep_inv h hstep) hrun

theorem collapseStack_good {ct : String} {pr : Bool} :
    ∀ (stk : List ExpEntry), StackInv stk → stk ≠ [] →
      GoodTree (collapseStack ct pr stk)
  | [], _, hne => absurd rfl hne
  | [e], h, _ => by
    rw [collapseStack]
    exact buildEntry_good h
  | e :: p :: rest, h, _ => by
    rw [collapseStack]
    obtain ⟨he, hkey, hrest⟩ := h
    have hpcanon : canonKids p := by
      cases rest with
      | nil => exact hrest
      | cons q t => exact hrest.1
    obtain ⟨hattach, hkids, hkeyp⟩ := attachKid_canon he hpcanon hkey
    refine collapseStack_good (attachKid ct pr e p :: rest) ?_ (by simp)
    cases rest with
    | nil => exact hattach
    | cons q t =>
      obtain ⟨-, hkq, ht⟩ := hrest
      exact ⟨hattach, by rw [hkeyp]; exact hkq, ht⟩
termination_by stk => stk.length
decreasing_by simp

/-- Every branch built by `expand_markdown_to_branch` satisfies the
rebalance invariant throughout: children are appended with keys
`10, 20, 30, ...`. -/
theorem expand_markdown_to_branch_good {src : Node} {key : ℚ} {b : Node}
    (h : expand_markdown_to_branch src key = .ok b) : GoodTree b := by
  rw [expand_markdown_to_branch] at h
  split at h
  · simp at h
  · next S hrun =>
    have hinv : StackInv S.stack :=
      runLines_inv (splitlines src.content) ⟨[], []⟩ trivial hrun
    have hfli : StackInv S.flush.stack := flush_inv hinv
    rw [expFinalize] at h
    split at h
    · simp at h
    · next stk hne =>
      simp only [Except.ok.injEq] at h
      rw [← h]
      exact collapseStack_good _ hfli hne

/-! ### Invariant preservation by whole commands -/

/-- The node payloads a command carries into the tree must themselves
satisfy the invariant: the node passed to CreateNode, and the remembered
node a DeleteNode rollback reinserts (which a preceding apply popped out of
an invariant-satisfying tree). -/
def CmdGoodInput : Cmd → Prop
  | .create _ _ node _ => GoodTree node
  | .delete _ dn _ _ => ∀ node, dn = some node → GoodTree node
  | _ => True

theorem applyCmd_good {c : Cmd} {m m' : SpecModel} {c' : Cmd}
    (hm : GoodTree m.root) (hc : CmdGoodInput c)
    (h : applyCmd c m = .ok (m', c')) : GoodTree m'.root := by
  cases c with
  | create pp ii node st =>
    rw [show applyCmd (.create pp ii node st) m = applyCreate pp ii node m
      from rfl, applyCreate] at h
    split at h
    · simp at h
    · next r nodeF pos hres =>
      simp only [Except.ok.injEq, Prod.mk.injEq] at h
      have := modifyAt_good (P := fun _ => True)
        (fun t ht t' a hft =>
          ⟨(insertClampedFun_good ht hc hft).1,
           (insertClampedFun_good ht hc hft).2.1, trivial⟩) pp hm hres
      rw [← h.1]
      exact this.1
  | delete p s1 s2 s3 =>
    rw [show applyCmd (.delete p s1 s2 s3) m = applyDelete p m from rfl,
      applyDelete] at h
    split at h
    · simp at h
    · next hp =>
      split at h
      · simp at h
      · next r node j hres =>
        simp only [Except.ok.injEq, Prod.mk.injEq] at h
        have := modifyAt_good (P := fun _ => True)
          (fun t ht t' a hft =>
            ⟨(deletePopFun_good ht hft).1, (deletePopFun_good ht hft).2.1,
              trivial⟩) p.dropLast hm hres
        rw [← h.1]
        exact this.1
  | update p name v st =>
    rw [show applyCmd (.update p name v st) m = applyUpdate p name v m from rfl,
      applyUpdate] at h
    split at h
    · simp at h
    · next r old hres =>
      simp only [Except.ok.injEq, Prod.mk.injEq] at h
      have := modifyAt_good (P := fun _ => True)
        (fun t ht t' a hft =>
          ⟨(updateFun_good ht hft).1, (updateFun_good ht hft).2, trivial⟩)
        p hm hres
      rw [← h.1]
      exact this.1
  | move p np ni n0 o0 i0 np0 =>
    rw [show applyCmd (.move p np ni n0 o0 i0 np0) m =
      applyMove p np ni n0 o0 i0 np0 m from rfl, applyMove] at h
    split at h
    · simp at h
    · split at h
      · simp at h
      · split at h
        · simp at h
        · next r1 node oldIdx hres1 =>
          split at h
          · simp at h
          · next r2 nodeF pos hres2 =>
            simp only [Except.ok.injEq, Prod.mk.injEq] at h
            have h1 := modifyAt_good (P := fun a => GoodTree a.1)
              (fun t ht t' a hft => movePopFun_good ht hft) _ hm hres1
            have h2 := modifyAt_good (P := fun _ => True)
              (fun t ht t' a hft =>
                ⟨(insertClampedFun_good ht h1.2.2 hft).1,
                 (insertClampedFun_good ht h1.2.2 hft).2.1, trivial⟩)
              np h1.1 hres2
            rw [← h.1]
            exact h2.1
  | flattenCmd p s1 s2 =>
    rw [show applyCmd (.flattenCmd p s1 s2) m =
        (applySiblingInsert flatten_branch_to_node p m).map (fun x =>
          (x.1, .flattenCmd p (some x.2.2) (some x.2.1))) from rfl,
      applySiblingInsert] at h
    split at h
    · simp [Except.map] at h
    · split at h
      · simp [Except.map] at h
      · next r nodeF pos hres =>
        simp only [Except.map, Except.ok.injEq, Prod.mk.injEq] at h
        have := modifyAt_good (P := fun _ => True)
          (fun t ht t' a hft =>
            ⟨(siblingInsertFun_good (fun src key n' htr =>
                flatten_branch_to_node_good htr) ht hft).1,
             (siblingInsertFun_good (fun src key n' htr =>
                flatten_branch_to_node_good htr) ht hft).2, trivial⟩)
          p.dropLast hm hres
        rw [← h.1]
        exact this.1
  | expandCmd p s1 s2 =>
    rw [show applyCmd (.expandCmd p s1 s2) m =
        (applySiblingInsert expand_markdown_to_branch p m).map (fun x =>
          (x.1, .expandCmd p (some x.2.2) (some x.2.1))) from rfl,
      applySiblingInsert] at h
    split at h
    · simp [Except.map] at h
    · split at h
      · simp [Except.map] at h
      · next r nodeF pos hres =>
        simp only [Except.map, Except.ok.injEq, Prod.mk.injEq] at h
        have := modifyAt_good (P := fun _ => True)
          (fun t ht t' a hft =>
            ⟨(siblingInsertFun_good (fun src key n' htr =>
                expand_markdown_to_branch_good htr) ht hft).1,
             (siblingInsertFun_good (fun src key n' htr =>
                expand_markdown_to_branch_good htr) ht hft).2, trivial⟩)
          p.dropLast hm hres
        rw [← h.1]
        exact this.1

theorem rollbackCmd_good {c : Cmd} {m m' : SpecModel} {c' : Cmd}
    (hm : GoodTree m.root) (hc : CmdGoodInput c)
    (h : rollbackCmd c m = .ok (m', c')) : GoodTree m'.root := by
  cases c with
  | create pp ii node st =>
    cases st with
    | none =>
      rw [show rollbackCmd (.create pp ii node none) m =
        .ok (m, .create pp ii node none) from rfl] at h
      simp only [Except.ok.injEq, Prod.mk.injEq] at h
      rw [← h.1]
      exact hm
    | some cp =>
      rw [show rollbackCmd (.create pp ii node (some cp)) m =
        (if cp = [] then .error (.valueError, m)
         else
          match m.root.modifyAt cp.dropLast (removeNodeFun cp.getLast! node) with
          | .error (e, r) => .error (e, ⟨m.schema_version, r⟩)
          | .ok (r, _) =>
            .ok (⟨m.schema_version, r⟩, .create pp ii node (some cp)))
        from rfl] at h
      split at h
      · simp at h
      · split at h
        · simp at h
        · next r u hres =>
          simp only [Except.ok.injEq, Prod.mk.injEq] at h
          have := modifyAt_good (P := fun _ => True)
            (fun t ht t' a hft =>
              ⟨(removeNodeFun_good ht hft).1, (removeNodeFun_good ht hft).2,
                trivial⟩) cp.dropLast hm hres
          rw [← h.1]
          exact this.1
  | delete p s1 s2 s3 =>
    rw [show rollbackCmd (.delete p s1 s2 s3) m =
      rollbackDelete p s1 s2 s3 m from rfl, rollbackDelete.eq_def] at h
    split at h
    · next node pp j =>
      split at h
      · simp at h
      · next r u hres =>
        simp only [Except.ok.injEq, Prod.mk.injEq] at h
        have hnode : GoodTree node := hc node rfl
        have := modifyAt_good (P := fun _ => True)
          (fun t ht t' a hft =>
            ⟨(reinsertFun_good ht hnode hft).1, (reinsertFun_good ht hnode hft).2,
              trivial⟩) pp hm hres
        rw [← h.1]
        exact this.1
    · simp only [Except.ok.injEq, Prod.mk.injEq] at h
      rw [← h.1]
      exact hm
  | update p name v st =>
    rw [show rollbackCmd (.update p name v st) m =
      rollbackUpdate p name v st m from rfl, rollbackUpdate] at h
    split at h
    · simp at h
    · next r u hres =>
      simp only [Except.ok.injEq, Prod.mk.injEq] at h
      have := modifyAt_good (P := fun _ => True)
        (fun t ht t' a hft =>
          ⟨(updateRollbackFun_good ht hft).1, (updateRollbackFun_good ht hft).2,
            trivial⟩) p hm hres
      rw [← h.1]
      exact this.1
  | move p np ni n0 o0 i0 np0 =>
    rw [show rollbackCmd (.move p np ni n0 o0 i0 np0) m =
      rollbackMove p np ni n0 o0 i0 np0 m from rfl, rollbackMove.eq_def] at h
    split at h
    · next nodeSt0 opp oi nppath =>
      split at h
      · simp at h
      · split at h
        · simp at h
        · next r1 node u hres1 =>
          split at h
          · simp at h
          · next r2 nodeF pos hres2 =>
            simp only [Except.ok.injEq, Prod.mk.injEq] at h
            have h1 := modifyAt_good (P := fun a => GoodTree a.1)
              (fun t ht t' a hft => movePopFun_good ht hft) _ hm hres1
            have h2 := modifyAt_good (P := fun _ => True)
              (fun t ht t' a hft =>
                ⟨(insertClampedFun_good ht h1.2.2 hft).1,
                 (insertClampedFun_good ht h1.2.2 hft).2.1, trivial⟩)
              opp h1.1 hres2
            rw [← h.1]
            exact h2.1
    · simp only [Except.ok.injEq, Prod.mk.injEq] at h
      rw [← h.1]
      exact hm
  | flattenCmd p s1 s2 =>
    cases s1 with
    | none =>
      cases s2 with
      | none =>
        rw [show rollbackCmd (.flattenCmd p none none) m =
          .ok (m, .flattenCmd p none none) from rfl] at h
        simp only [Except.ok.injEq, Prod.mk.injEq] at h
        rw [← h.1]; exact hm
      | some cn =>
        rw [show rollbackCmd (.flattenCmd p none (some cn)) m =
          .ok (m, .flattenCmd p none (some cn)) from rfl] at h
        simp only [Except.ok.injEq, Prod.mk.injEq] at h
        rw [← h.1]; exact hm
    | some ip0 =>
      cases s2 with
      | none =>
        rw [show rollbackCmd (.flattenCmd p (some ip0) none) m =
          .ok (m, .flattenCmd p (some ip0) none) from rfl] at h
        simp only [Except.ok.injEq, Prod.mk.injEq] at h
        rw [← h.1]; exact hm
      | some created =>
        rw [show rollbackCmd (.flattenCmd p (some ip0) (some created)) m =
          (rollbackSiblingInsert ip0 created m).map (fun m1 =>
            (m1, .flattenCmd p (some ip0) (some created))) from rfl,
          rollbackSiblingInsert] at h
        split at h
        · simp [Except.map] at h
        · split at h
          · simp [Except.map] at h
          · next r u hres =>
            simp only [Except.map, Except.ok.injEq, Prod.mk.injEq] at h
            have := modifyAt_good (P := fun _ => True)
              (fun t ht t' a hft =>
                ⟨(removeNodeFun_good ht hft).1, (removeNodeFun_good ht hft).2,
                  trivial⟩) ip0.dropLast hm hres
            rw [← h.1]
            exact this.1
  | expandCmd p s1 s2 =>
    cases s1 with
    | none =>
      cases s2 with
      | none =>
        rw [show rollbackCmd (.expandCmd p none none) m =
          .ok (m, .expandCmd p none none) from rfl] at h
        simp only [Except.ok.injEq, Prod.mk.injEq] at h
        rw [← h.1]; exact hm
      | some cn =>
        rw [show rollbackCmd (.expandCmd p none (some cn)) m =
          .ok (m, .expandCmd p none (some cn)) from rfl] at h
        simp only [Except.ok.injEq, Prod.mk.injEq] at h
        rw [← h.1]; exact hm
    | some ip0 =>
      cases s2 with
      | none =>
        rw [show rollbackCmd (.expandCmd p (some ip0) none) m =
          .ok (m, .expandCmd p (some ip0) none) from rfl] at h
        simp only [Except.ok.injEq, Prod.mk.injEq] at h
        rw [← h.1]; exact hm
      | some created =>
        rw [show rollbackCmd (.expandCmd p (some ip0) (some created)) m =
          (rollbackSiblingInsert ip0 created m).map (fun m1 =>
            (m1, .expandCmd p (some ip0) (some created))) from rfl,
          rollbackSiblingInsert] at h
        split at h
        · simp [Except.map] at h
        · split at h
          · simp [Except.map] at h
          · next r u hres =>
            simp only [Except.map, Except.ok.injEq, Prod.mk.injEq] at h
            have := modifyAt_good (P := fun _ => True)
              (fun t ht t' a hft =>
                ⟨(removeNodeFun_good ht hft).1, (removeNodeFun_good ht hft).2,
                  trivial⟩) ip0.dropLast hm hres
            rw [← h.1]
            exact this.1

theorem mapIdx_ext {f g : ℕ → Node → Node} (h : ∀ i a, f i a = g i a) :
    ∀ l : List Node, l.mapIdx f = l.mapIdx g := by
  intro l
  induction l generalizing f g with
  | nil => simp
  | cons a t ih =>
    rw [List.mapIdx_cons, List.mapIdx_cons, h 0 a]
    rw [ih (fun i a => h (i + 1) a)]

theorem reindexFrom_eq_mapIdx : ∀ (l : List Node) (i : ℕ),
    reindexFrom i l = l.mapIdx (fun j n =>
      n.withSortKey (((i + j : ℕ) : ℚ) * DEFAULT_SORT_STEP))
  | [], _ => by simp [reindexFrom]
  | a :: t, i => by
    rw [reindexFrom, reindexFrom_eq_mapIdx t (i + 1), List.mapIdx_cons]
    refine congrArg₂ _ ?_ ?_
    · first
      | rfl
      | (congr 1; push_cast; ring)
    · refine mapIdx_ext (fun j n => ?_) t
      first
      | rfl
      | (congr 1; push_cast; ring)

/-- A successful `modifyAt` is exactly: read the target with the `get_node`
descent, run the local operation on it, and write the result back; reading
the same path from the rebuilt tree yields the operation's result, provided
the operation preserves the target's sort key (true of every command
operation — they mutate children, never the parent's own key). -/
theorem modifyAt_ok_getAt {α : Type} {f : Node → Except (PyErr × Node) (Node × α)}
    (hkey : ∀ t t' a, f t = .ok (t', a) → t'.sort_key = t.sort_key) :
    ∀ (p : List ℤ) {n n' : Node} {a : α},
      n.modifyAt p f = .ok (n', a) →
      n'.sort_key = n.sort_key ∧
      ∃ t t', n.getAt p = .ok t ∧ f t = .ok (t', a) ∧ n'.getAt p = .ok t' := by
  intro p
  induction p with
  | nil =>
    intro n n' a h
    rw [Node.modifyAt] at h
    exact ⟨hkey n n' a h, n, n', rfl, h, rfl⟩
  | cons i rest ih =>
    intro n n' a h
    rw [Node.modifyAt] at h
    split at h
    · simp at h
    · next j hres =>
      have hj : j < (sorted_children n.children).length := pyResolveIdx_lt hres
      split at h
      · simp at h
      · next t1 a1 hrec =>
        simp only [Except.ok.injEq, Prod.mk.injEq] at h
        obtain ⟨hn', ha⟩ := h
        subst ha
        obtain ⟨hkey1, t, t', hget, hf, hget'⟩ := ih hrec
        subst hn'
        rw [getElem_bang_eq hj] at hkey1
        constructor
        · simp
        refine ⟨t, t', ?_, hf, ?_⟩
        · rw [Node.getAt, hres]
          exact hget
        · rw [Node.getAt]
          have hsorted : List.Sorted keyLe
              ((sorted_children n.children).set j t1) := by
            refine sorted_set_same_key hj (sorted_children_sorted n.children) ?_
            rw [hkey1]
          rw [Node.children_withChildren, sorted_children_eq_self hsorted]
          have hlen : ((sorted_children n.children).set j t1).length =
              (sorted_children n.children).length := by simp
          rw [hlen, hres]
          have hset : ((sorted_children n.children).set j t1)[j]! = t1 := by
            rw [getElem_bang_eq (by simp; omega), List.getElem_set_self]
          show ((sorted_children n.children).set j t1)[j]!.getAt rest =
            Except.ok t'
          rw [hset]
          exact hget'

/-! ## Claim C4: DeleteNode rollback and the reinsert rule -/

/-- C4 counterexample: rolling back a delete whose remembered node x
carries sort key 12 into the sibling list [b (sort key 20)] at index 0
reinserts x still carrying key 12, although the insert rule at that
position would assign 20 - 10 = 10: the rollback does not reassign the
sort key via `assign_sort_key_for_insert`. -/
theorem delete_rollback_keeps_key :
    rollbackCmd (.delete [0] (some (.mk "x" "md" "" "" "" "" true 12 []))
        (some []) (some 0))
      ⟨"1.0", .mk "Root" "md" "" "" "" "" true 10
        [.mk "b" "md" "" "" "" "" true 20 []]⟩ =
      .ok (⟨"1.0", .mk "Root" "md" "" "" "" "" true 10
          [.mk "x" "md" "" "" "" "" true 12 [],
           .mk "b" "md" "" "" "" "" true 20 []]⟩,
        .delete [0] (some (.mk "x" "md" "" "" "" "" true 12 []))
          (some []) (some 0)) ∧
    assign_sort_key_for_insert
      (sorted_children [Node.mk "b" "md" "" "" "" "" true 20 []]) 0 = 10 ∧
    (12 : ℚ) ≠ 10 := by
  refine ⟨?_, ?_, by norm_num⟩
  · norm_num [rollbackCmd, rollbackDelete, reinsertFun, Node.modifyAt,
      sorted_children, List.insertionSort, List.orderedInsert, keyLe,
      pyInsert, maybe_reindex_siblings, anyTightGap, MIN_SORT_GAP,
      Node.withChildren, Node.children_mk, Node.sort_key_mk]
  · norm_num [assign_sort_key_for_insert, sorted_children, List.insertionSort,
      List.orderedInsert, keyLe, Node.sort_key_mk, DEFAULT_SORT_STEP]

/-- C4: the claim's sort-key reassignment does not happen — see
`delete_rollback_keeps_key`.  What the rollback of a DeleteNode command
whose apply ran (all three undo-state fields set) actually does: reinsert
the remembered node, still carrying its remembered sort key, at the
remembered index into the current sibling list of the remembered parent,
followed by `maybe_reindex_siblings` — reading the parent back from the
resulting model shows exactly that sibling list. -/
theorem delete_rollback_reinserts_retained (p pp : List ℤ) (j : ℕ)
    (node : Node) (m m' : SpecModel) (c' : Cmd)
    (h : rollbackCmd (.delete p (some node) (some pp) (some j)) m =
      .ok (m', c')) :
    ∃ parent, m.root.getAt pp = .ok parent ∧
      m'.root.getAt pp = .ok (parent.withChildren
        (maybe_reindex_siblings
          (pyInsert (sorted_children parent.children) j node))) := by
  rw [show rollbackCmd (.delete p (some node) (some pp) (some j)) m =
    rollbackDelete p (some node) (some pp) (some j) m from rfl,
    rollbackDelete] at h
  split at h
  · simp at h
  · next r u hres =>
    simp only [Except.ok.injEq, Prod.mk.injEq] at h
    have hkeyf : ∀ t t' a, reinsertFun node j t = .ok (t', a) →
        t'.sort_key = t.sort_key := by
      intro t t' a hf
      rw [reinsertFun] at hf
      simp only [Except.ok.injEq, Prod.mk.injEq] at hf
      rw [← hf.1, Node.sort_key_withChildren]
    obtain ⟨-, t, t', hget, hf, hget'⟩ := modifyAt_ok_getAt hkeyf pp hres
    rw [reinsertFun] at hf
    simp only [Except.ok.injEq, Prod.mk.injEq] at hf
    refine ⟨t, hget, ?_⟩
    rw [← h.1]
    show r.getAt pp = _
    rw [hget', ← hf.1]
    have hgood : GoodList (maybe_reindex_siblings
        (pyInsert (sorted_children t.children) j node)) :=
      goodList_maybe_reindex _
    rw [sorted_children_eq_self hgood.sorted]

/-- Witness for C4: rolling back a delete into a childless root reinserts
the remembered node with its remembered key 20 untouched. -/
theorem delete_rollback_reinserts_retained_witness :
    ∃ parent,
      (⟨"1.0", .mk "Root" "md" "" "" "" "" true 10 []⟩ : SpecModel).root.getAt
        [] = .ok parent ∧
      (⟨"1.0", .mk "Root" "md" "" "" "" "" true 10
        [.mk "A" "md" "" "" "" "" true 20 []]⟩ : SpecModel).root.getAt [] =
        .ok (parent.withChildren
          (maybe_reindex_siblings (pyInsert (sorted_children parent.children) 0
            (.mk "A" "md" "" "" "" "" true 20 [])))) := by
  refine delete_rollback_reinserts_retained [0] [] 0
    (.mk "A" "md" "" "" "" "" true 20 [])
    ⟨"1.0", .mk "Root" "md" "" "" "" "" true 10 []⟩
    ⟨"1.0", .mk "Root" "md" "" "" "" "" true 10
      [.mk "A" "md" "" "" "" "" true 20 []]⟩
    (.delete [0] (some (.mk "A" "md" "" "" "" "" true 20 []))
      (some []) (some 0)) ?_
  norm_num [rollbackCmd, rollbackDelete, reinsertFun, Node.modifyAt,
    sorted_children, List.insertionSort, List.orderedInsert, keyLe,
    pyInsert, maybe_reindex_siblings, anyTightGap,
    Node.withChildren, DEFAULT_SORT_STEP]

/-! ## Claim C3: the rebalance invariant -/

/-- C3: sibling lists remain sorted with all adjacent sort-key gaps above
1e-6 after every command operation.  (1) `maybe_reindex_siblings` realizes
the spec's rebalance rule: a list already satisfying the invariant (sorted,
every adjacent gap above MIN_SORT_GAP — the `GoodList` Chain') is returned
unchanged, and a list violating it is rewritten to sort keys
`10, 20, 30, ...` in current order.  (2) A successful `apply` of any of the
six commands maps an invariant-satisfying model (plus invariant-satisfying
node payloads) to an invariant-satisfying model, and (3) so does a
successful `rollback`. -/
theorem commands_preserve_rebalance_invariant :
    (∀ l : List Node,
      (GoodList l → maybe_reindex_siblings l = l) ∧
      (¬ GoodList l → maybe_reindex_siblings l =
        l.mapIdx (fun j n =>
          n.withSortKey (((j + 1 : ℕ) : ℚ) * DEFAULT_SORT_STEP)))) ∧
    (∀ (c : Cmd) (m m' : SpecModel) (c' : Cmd), GoodTree m.root →
      CmdGoodInput c → applyCmd c m = .ok (m', c') → GoodTree m'.root) ∧
    (∀ (c : Cmd) (m m' : SpecModel) (c' : Cmd), GoodTree m.root →
      CmdGoodInput c → rollbackCmd c m = .ok (m', c') → GoodTree m'.root) := by
  refine ⟨?_, fun c m m' c' hm hc h => applyCmd_good hm hc h,
    fun c m m' c' hm hc h => rollbackCmd_good hm hc h⟩
  intro l
  constructor
  · intro hg
    by_cases hlen : l.length < 2
    · rw [maybe_reindex_siblings, if_pos hlen]
    · rw [maybe_reindex_siblings, if_neg hlen, if_neg]
      simp [(anyTightGap_eq_false l).mpr hg]
  · intro hb
    have hlen : ¬ l.length < 2 := fun hl => hb (goodList_short hl)
    have htight : anyTightGap l = true := by
      cases htg : anyTightGap l with
      | false => exact absurd ((anyTightGap_eq_false l).mp htg) hb
      | true => rfl
    rw [maybe_reindex_siblings, if_neg hlen, if_pos (by simp [htight]),
      reindexFrom_eq_mapIdx]
    have : (fun j (n : Node) =>
        n.withSortKey (((1 + j : ℕ) : ℚ) * DEFAULT_SORT_STEP)) =
        (fun j (n : Node) =>
        n.withSortKey (((j + 1 : ℕ) : ℚ) * DEFAULT_SORT_STEP)) := by
      funext j n
      rw [Nat.add_comm]
    rw [this]

/-- Witness for C3 at concrete inputs: creating a node in the one-node
model succeeds and the result satisfies the invariant. -/
theorem commands_preserve_rebalance_invariant_witness :
    GoodTree
      (⟨"1.0", .mk "Root" "md" "" "" "" "" true 10
        [.mk "A" "md" "" "" "" "" true 10 []]⟩ : SpecModel).root := by
  refine commands_preserve_rebalance_invariant.2.1
    (.create [] 0 (.mk "A" "md" "" "" "" "" true 10 []) none) leafModel _
    (.create [] 0 (.mk "A" "md" "" "" "" "" true 10 [])
      (some [0])) leafModel_good
    (show GoodTree (.mk "A" "md" "" "" "" "" true 10 []) from
      ⟨_, by simp [GoodList], by simp⟩) ?_
  norm_num [applyCmd, applyCreate, leafModel, insertClampedFun, Node.modifyAt,
    sorted_children, List.insertionSort, List.orderedInsert, keyLe, pyClamp,
    assign_sort_key_for_insert, pyInsert, maybe_reindex_siblings, anyTightGap,
    pyIndexOf, List.findIdx, Node.withSortKey, Node.withChildren,
    Node.beq, List.findIdx.go, getElem!_pos]
  simp [Node.beq.go, DEFAULT_SORT_STEP]

/-! ## Claim C2: undo-then-redo round trip through the CommandManager -/

/-- Extract the serialized `sort_key` of the first child of the root from a
saved payload. -/
def savedFirstChildKey (v : JValue) : ℚ :=
  match v with
  | .obj fields =>
    match jGet fields "root" with
    | some (.obj rf) =>
      match jGet rf "children" with
      | some (.arr (c0 :: _)) =>
        match c0 with
        | .obj cf =>
          match jGet cf "sort_key" with
          | some (.int n) => (n : ℚ)
          | some (.float q) => q
          | _ => 0
        | _ => 0
      | _ => 0
    | _ => 0
  | _ => 0

theorem rat_num_eq_self {q : ℚ} (h : q.den = 1) : (q.num : ℚ) = q := by
  have := Rat.num_div_den q
  rw [h] at this
  simpa using this

theorem savedFirstChildKey_eq (m : SpecModel) {c0 : Node} {rest : List Node}
    (h : sorted_children m.root.children = c0 :: rest) :
    savedFirstChildKey (save_spec m) = c0.sort_key := by
  rw [save_spec, node_to_ordered_dict, savedFirstChildKey]
  simp only [jGet]
  norm_num
  rw [h]
  simp [jGet, List.attach_cons]
  rw [node_to_ordered_dict]
  simp [jGet]
  by_cases hden : c0.sort_key.den = 1
  · rw [if_pos hden]
    exact rat_num_eq_self hden
  · rw [if_neg hden]

/-- The C2 scenario: a root with children b (sort key 12) and z (14). -/
def c2model : SpecModel :=
  ⟨"1.0", .mk "Root" "md" "" "" "" "" true 10
    [.mk "b" "md" "" "" "" "" true 12 [], .mk "z" "md" "" "" "" "" true 14 []]⟩

/-- Command 1: create node d at index 0 (before b). -/
def c2c1 : Cmd := .create [] 0 (.mk "d" "md" "" "" "" "" true 10 []) none

/-- Command 2: move the node at path (1,) to the end of the root. -/
def c2c2 : Cmd := .move [1] [] 4 none none none none

/-- Execute both commands through the manager. -/
def c2exec : Except (PyErr × CommandManager) CommandManager :=
  (CommandManager.mk c2model [] [] false).execute c2c1 >>= fun cm =>
    cm.execute c2c2

/-- Then undo twice and redo twice. -/
def c2final : Except (PyErr × CommandManager) CommandManager :=
  c2exec >>= fun cm => cm.undo >>= fun x => x.1.undo >>= fun y =>
    y.1.redo >>= fun z => z.1.redo >>= fun w => .ok w.1

set_option maxHeartbeats 4000000 in
/-- C2 evaluated at the failing input: executing Create-d-at-0 (d gets key
12 - 10 = 2) and Move-(1,)-to-end (b moves behind z with key 24) leaves
child keys 2, 14, 24.  Undoing the move reinserts b with a key reassigned
by the insert rule — the midpoint 8 instead of its original 12 — so after
undoing the create, redoing the create computes d's key from the shifted
neighbour as 8 - 10 = -2, and redoing the move leaves child keys
-2, 14, 24.  The state after undo-undo-redo-redo therefore serializes
differently from the state after the original two executions, refuting the
round-trip property. -/
theorem undo_redo_roundtrip_fails :
    (c2exec.map (fun cm => keysOf (sorted_children cm.model.root.children)) =
      .ok [2, 14, 24]) ∧
    (c2final.map (fun cm => keysOf (sorted_children cm.model.root.children)) =
      .ok [-2, 14, 24]) ∧
    (∀ cmE cmF, c2exec = .ok cmE → c2final = .ok cmF →
      save_spec cmE.model ≠ save_spec cmF.model) := by
  have hexec : c2exec.map
      (fun cm => keysOf (sorted_children cm.model.root.children)) =
      .ok [2, 14, 24] := by
    norm_num [c2exec, c2model, c2c1, c2c2, CommandManager.execute, applyCmd,
      applyCreate, applyMove, insertClampedFun, movePopFun, Node.modifyAt,
      validate_not_moving_into_subtree, Option.getD, sorted_children,
      List.insertionSort, List.orderedInsert, keyLe, pyClamp,
      assign_sort_key_for_insert, pyInsert, pyPopAt, maybe_reindex_siblings,
      anyTightGap, MIN_SORT_GAP, pyIndexOf, List.findIdx, List.findIdx.go,
      Node.withSortKey, Node.withChildren, Node.beq, Node.beq.go,
      getElem!_pos, checkChildIndex, List.getLast!, List.getLast,
      List.dropLast, List.eraseIdx, Except.bind, Except.map, keysOf,
      bind, DEFAULT_SORT_STEP]
  have hfinal : c2final.map
      (fun cm => keysOf (sorted_children cm.model.root.children)) =
      .ok [-2, 14, 24] := by
    norm_num [c2final, c2exec, c2model, c2c1, c2c2, CommandManager.execute,
      CommandManager.undo, CommandManager.redo, applyCmd, rollbackCmd,
      applyCreate, applyMove, rollbackCreate, rollbackMove,
      insertClampedFun, movePopFun, removeNodeFun,
      pyRemoveFirst, Node.modifyAt, validate_not_moving_into_subtree,
      Option.getD, sorted_children, List.insertionSort,
      List.orderedInsert, keyLe, pyClamp, assign_sort_key_for_insert,
      pyInsert, pyPopAt, maybe_reindex_siblings, anyTightGap, MIN_SORT_GAP,
      pyIndexOf, List.findIdx, List.findIdx.go, Node.withSortKey,
      Node.withChildren, Node.beq, Node.beq.go, getElem!_pos,
      checkChildIndex, List.getLast!, List.getLast, List.dropLast,
      List.eraseIdx, Except.bind, Except.map, keysOf, bind,
      DEFAULT_SORT_STEP]
    try simp [Node.beq, Node.beq.go]
    try norm_num [c2final, c2exec, c2model, c2c1, c2c2, CommandManager.execute,
      CommandManager.undo, CommandManager.redo, applyCmd, rollbackCmd,
      applyCreate, applyMove, rollbackCreate, rollbackMove,
      insertClampedFun, movePopFun, removeNodeFun,
      pyRemoveFirst, Node.modifyAt, validate_not_moving_into_subtree,
      Option.getD, sorted_children, List.insertionSort,
      List.orderedInsert, keyLe, pyClamp, assign_sort_key_for_insert,
      pyInsert, pyPopAt, maybe_reindex_siblings, anyTightGap, MIN_SORT_GAP,
      pyIndexOf, List.findIdx, List.findIdx.go, Node.withSortKey,
      Node.withChildren, Node.beq, Node.beq.go, getElem!_pos,
      checkChildIndex, List.getLast!, List.getLast, List.dropLast,
      List.eraseIdx, Except.bind, Except.map, keysOf, bind,
      DEFAULT_SORT_STEP]
    try simp [Node.beq, Node.beq.go]
    try norm_num [c2final, c2exec, c2model, c2c1, c2c2, CommandManager.execute,
      CommandManager.undo, CommandManager.redo, applyCmd, rollbackCmd,
      applyCreate, applyMove, rollbackCreate, rollbackMove,
      insertClampedFun, movePopFun, removeNodeFun,
      pyRemoveFirst, Node.modifyAt, validate_not_moving_into_subtree,
      Option.getD, sorted_children, List.insertionSort,
      List.orderedInsert, keyLe, pyClamp, assign_sort_key_for_insert,
      pyInsert, pyPopAt, maybe_reindex_siblings, anyTightGap, MIN_SORT_GAP,
      pyIndexOf, List.findIdx, List.findIdx.go, Node.withSortKey,
      Node.withChildren, Node.beq, Node.beq.go, getElem!_pos,
      checkChildIndex, List.getLast!, List.getLast, List.dropLast,
      List.eraseIdx, Except.bind, Except.map, keysOf, bind,
      DEFAULT_SORT_STEP]
    try simp [Node.beq, Node.beq.go]
    try norm_num [c2final, c2exec, c2model, c2c1, c2c2, CommandManager.execute,
      CommandManager.undo, CommandManager.redo, applyCmd, rollbackCmd,
      applyCreate, applyMove, rollbackCreate, rollbackMove,
      insertClampedFun, movePopFun, removeNodeFun,
      pyRemoveFirst, Node.modifyAt, validate_not_moving_into_subtree,
      Option.getD, sorted_children, List.insertionSort,
      List.orderedInsert, keyLe, pyClamp, assign_sort_key_for_insert,
      pyInsert, pyPopAt, maybe_reindex_siblings, anyTightGap, MIN_SORT_GAP,
      pyIndexOf, List.findIdx, List.findIdx.go, Node.withSortKey,
      Node.withChildren, Node.beq, Node.beq.go, getElem!_pos,
      checkChildIndex, List.getLast!, List.getLast, List.dropLast,
      List.eraseIdx, Except.bind, Except.map, keysOf, bind,
      DEFAULT_SORT_STEP]
  refine ⟨hexec, hfinal, ?_⟩
  intro cmE cmF hE hF heq
  rw [hE] at hexec
  rw [hF] at hfinal
  simp only [Except.map, Except.ok.injEq] at hexec hfinal
  have hkE : ∃ c0 rest, sorted_children cmE.model.root.children = c0 :: rest := by
    cases hl : sorted_children cmE.model.root.children with
    | nil => rw [hl] at hexec; simp [keysOf] at hexec
    | cons a rest => exact ⟨a, rest, rfl⟩
  have hkF : ∃ c0 rest, sorted_children cmF.model.root.children = c0 :: rest := by
    cases hl : sorted_children cmF.model.root.children with
    | nil => rw [hl] at hfinal; simp [keysOf] at hfinal
    | cons a rest => exact ⟨a, rest, rfl⟩
  obtain ⟨c0E, restE, hE1⟩ := hkE
  obtain ⟨c0F, restF, hF1⟩ := hkF
  have e1 := savedFirstChildKey_eq cmE.model hE1
  have e2 := savedFirstChildKey_eq cmF.model hF1
  rw [heq] at e1
  rw [e2] at e1
  rw [hF1] at hfinal
  rw [hE1] at hexec
  simp only [keysOf, List.map_cons, List.cons.injEq] at hexec hfinal
  rw [hexec.1, hfinal.1] at e1
  norm_num at e1

/-! ## Claim C5: DeleteNode apply followed by rollback -/

/-- `maybe_reindex_siblings` leaves a list already satisfying the rebalance
invariant unchanged. -/
theorem maybe_reindex_eq_self {l : List Node} (h : GoodList l) :
    maybe_reindex_siblings l = l := by
  rw [maybe_reindex_siblings]
  split
  · rfl
  · rw [(anyTightGap_eq_false l).mpr h]
    simp

theorem Node.withChildren_withChildren (n : Node) (a b : List Node) :
    (n.withChildren a).withChildren b = n.withChildren b := by
  cases n; rfl

/-- A path-target operation that only rewrites the target's sort key; used
to state that delete-then-rollback changes nothing but the reinserted
node's sort key. -/
def keySetFun (k : ℚ) (n : Node) : Except (PyErr × Node) (Node × Unit) :=
  .ok (n.withSortKey k, ())

/-- Sort-key-erased canonical form of a tree: every sort key zeroed and
every sibling list put in canonical sorted order.  Two trees with the same
`stripCanon` image agree on all structure and all fields except sort
keys. -/
def stripCanon (n : Node) : Node :=
  .mk n.title n.content_type n.content n.sensors n.actuators n.image
    n.printable 0 ((sorted_children n.children).attach.map
      (fun c => stripCanon c.val))
termination_by sizeOf n
decreasing_by exact sizeOf_lt_of_mem_sorted_children c.prop

theorem stripCanon_def (n : Node) :
    stripCanon n = .mk n.title n.content_type n.content n.sensors n.actuators
      n.image n.printable 0 ((sorted_children n.children).map stripCanon) := by
  rw [stripCanon]
  exact congrArg _ (List.attach_map_val _ _)

theorem stripCanon_withSortKey (n : Node) (k : ℚ) :
    stripCanon (n.withSortKey k) = stripCanon n := by
  cases n
  rw [stripCanon_def, stripCanon_def]
  rfl

theorem pyInsert_eraseIdx : ∀ (l : List Node) (j : ℕ), j < l.length →
    ∀ x : Node, pyInsert (l.eraseIdx j) j x = l.set j x := by
  intro l
  induction l with
  | nil => intro j hj x; simp at hj
  | cons a rest ih =>
    intro j hj x
    cases j with
    | zero => simp [pyInsert, List.eraseIdx]
    | succ j =>
      have hr : j < rest.length := by simpa using hj
      exact congrArg (a :: ·) (ih j hr x)

theorem pyResolveIdx_natCast {len j : ℕ} (h : j < len) :
    pyResolveIdx len (j : ℤ) = some j := by
  rw [pyResolveIdx, if_pos]
  · rw [Int.toNat_natCast]
  · exact ⟨Int.natCast_nonneg j, by exact_mod_cast h⟩

theorem deletePopFun_key {idx : ℤ} {t t' : Node} {a : Node × ℕ}
    (h : deletePopFun idx t = .ok (t', a)) : t'.sort_key = t.sort_key := by
  rw [deletePopFun] at h
  split at h
  · simp at h
  · simp only [Except.ok.injEq, Prod.mk.injEq] at h
    rw [← h.1, Node.sort_key_withChildren]

theorem reinsertFun_key {node : Node} {j : ℕ} {t t' : Node} {a : Unit}
    (h : reinsertFun node j t = .ok (t', a)) : t'.sort_key = t.sort_key := by
  rw [reinsertFun] at h
  simp only [Except.ok.injEq, Prod.mk.injEq] at h
  rw [← h.1, Node.sort_key_withChildren]

/-- Replacing one child by a node with the same key-erased canonical form
(while both sibling lists are in sorted order) does not change the parent's
key-erased canonical form. -/
theorem stripCanon_set {t : Node} {j : ℕ} {c : Node}
    (hj : j < t.children.length)
    (hs : List.Sorted keyLe t.children)
    (hs2 : List.Sorted keyLe (t.children.set j c))
    (hc : stripCanon c = stripCanon t.children[j]) :
    stripCanon (t.withChildren (t.children.set j c)) = stripCanon t := by
  cases t with
  | mk a b cc d e f g k ch =>
    rw [stripCanon_def, stripCanon_def]
    simp only [Node.children_mk, Node.withChildren, Node.title_mk,
      Node.content_type_mk, Node.content_mk, Node.sensors_mk,
      Node.actuators_mk, Node.image_mk, Node.printable_mk] at *
    rw [sorted_children_eq_self hs2, sorted_children_eq_self hs]
    rw [List.map_set, hc]
    have hjm : j < (ch.map stripCanon).length := by simpa using hj
    have hg : stripCanon ch[j] = (ch.map stripCanon)[j] := by
      rw [List.getElem_map]
    rw [hg, list_set_self _ j hjm]

/-- The sort key chosen by `DeleteNodeCommand.rollback` for the reinserted
node fits strictly, with more than the minimum gap, between the former
neighbours of the deleted node. -/
theorem reinsert_key_gap {l : List Node} (hg : GoodList l) {j : ℕ}
    (hj : j < l.length) :
    (∀ h1 : 1 ≤ j, l[j - 1].sort_key + MIN_SORT_GAP
        < assign_sort_key_for_insert (l.eraseIdx j) (j : ℤ)) ∧
    (∀ h2 : j + 1 < l.length,
        assign_sort_key_for_insert (l.eraseIdx j) (j : ℤ)
          + MIN_SORT_GAP < l[j + 1].sort_key) := by
  have hpair := hg.pairwise
  rw [List.pairwise_iff_getElem] at hpair
  have hlen : (l.eraseIdx j).length = l.length - 1 := by
    rw [List.length_eraseIdx, if_pos hj]
  rcases he : l.eraseIdx j with _ | ⟨first, tail⟩
  · have h0 : l.length - 1 = 0 := by rw [← hlen, he]; rfl
    exact ⟨fun h1 => by omega, fun h2 => by omega⟩
  · have hlt : (first :: tail).length = l.length - 1 := by rw [← he, hlen]
    simp only [assign_sort_key_for_insert]
    by_cases hj0 : j = 0
    · subst hj0
      rw [if_pos (by norm_num)]
      refine ⟨fun h1 => by omega, fun h2 => ?_⟩
      have hb : 0 < (l.eraseIdx 0).length := by rw [hlen]; omega
      have hid : (l.eraseIdx 0)[0] = l[0 + 1] := by
        rw [List.getElem_eraseIdx, dif_neg (by omega)]
      have hf2 : (l.eraseIdx 0)[0] = first := by simp [he]
      rw [← hf2, hid]
      simp only [DEFAULT_SORT_STEP, MIN_SORT_GAP]
      linarith
    · have hj1 : 1 ≤ j := by omega
      rw [if_neg (by omega)]
      by_cases hlast : j + 1 < l.length
      · have hcond : ¬ ((first :: tail).length : ℤ) ≤ (j : ℤ) := by
          rw [hlt]; omega
        rw [if_neg hcond]
        have htn1 : ((j : ℤ) - 1).toNat = j - 1 := by omega
        have htn2 : ((j : ℤ)).toNat = j := by omega
        rw [htn1, htn2, ← he]
        have hb1 : j - 1 < (l.eraseIdx j).length := by rw [hlen]; omega
        have hb2 : j < (l.eraseIdx j).length := by rw [hlen]; omega
        rw [getElem_bang_eq hb1, getElem_bang_eq hb2]
        have hid1 : (l.eraseIdx j)[j - 1] = l[j - 1] := by
          rw [List.getElem_eraseIdx, dif_pos (by omega)]
        have hid2 : (l.eraseIdx j)[j] = l[j + 1] := by
          rw [List.getElem_eraseIdx, dif_neg (by omega)]
        rw [hid1, hid2]
        have hadj1 : gapRel l[j - 1] l[j] :=
          hpair (j - 1) j (by omega) (by omega) (by omega)
        have hadj2 : gapRel l[j] l[j + 1] :=
          hpair j (j + 1) (by omega) (by omega) (by omega)
        rw [gapRel] at hadj1 hadj2
        have hmg := MIN_SORT_GAP_pos
        exact ⟨fun h1 => by linarith, fun h2 => by linarith⟩
      · have hjeq : j = l.length - 1 := by omega
        have hcond : ((first :: tail).length : ℤ) ≤ (j : ℤ) := by
          rw [hlt]; omega
        rw [if_pos hcond, ← he]
        refine ⟨fun h1 => ?_, fun h2 => by omega⟩
        have hgetl : (l.eraseIdx j).getLast! = l[j - 1] := by
          have h1b : (l.eraseIdx j).getLast!
              = (l.eraseIdx j)[(l.eraseIdx j).length - 1]! := by
            rw [he]
            have hbc : (first :: tail).length - 1 < (first :: tail).length := by
              simp
            rw [getElem_bang_eq hbc]
            simp only [List.getLast!]
            rw [List.getLast_eq_getElem]
          rw [h1b, hlen, show l.length - 1 - 1 = j - 1 from by omega]
          rw [getElem_bang_eq (by rw [hlen]; omega : j - 1 < (l.eraseIdx j).length)]
          rw [List.getElem_eraseIdx, dif_pos (by omega)]
        rw [hgetl]
        simp only [DEFAULT_SORT_STEP, MIN_SORT_GAP]
        linarith

/-- Reinserting the deleted node at its old position, with the rollback's
reassigned key, yields a sibling list satisfying the rebalance invariant,
with every node other than position `j` untouched. -/
theorem goodList_reinsert {l : List Node} (hg : GoodList l) {j : ℕ}
    (hj : j < l.length) (x : Node) :
    GoodList (l.set j (x.withSortKey
      (assign_sort_key_for_insert (l.eraseIdx j) (j : ℤ)))) := by
  obtain ⟨gap1, gap2⟩ := reinsert_key_gap hg hj
  have hpair := hg.pairwise
  rw [List.pairwise_iff_getElem] at hpair
  have hmg := MIN_SORT_GAP_pos
  rw [GoodList, List.chain'_iff_pairwise, List.pairwise_iff_getElem]
  intro a b ha hb hab
  simp only [List.length_set] at ha hb
  rw [List.getElem_set, List.getElem_set]
  by_cases hbj : j = b
  · subst hbj
    rw [if_pos rfl, if_neg (by omega)]
    rw [gapRel, Node.sort_key_withSortKey]
    rcases eq_or_lt_of_le (by omega : a + 1 ≤ j) with heq | hlt
    · have hga := gap1 (by omega)
      simp only [show j - 1 = a from by omega] at hga
      exact hga
    · have h1 := hpair a (j - 1) (by omega) (by omega) (by omega)
      have hga := gap1 (by omega)
      rw [gapRel] at h1
      linarith
  · by_cases haj : j = a
    · subst haj
      rw [if_pos rfl, if_neg hbj]
      rw [gapRel, Node.sort_key_withSortKey]
      rcases eq_or_lt_of_le (by omega : j + 1 ≤ b) with heq | hlt
      · have hgb := gap2 (by omega)
        simp only [show j + 1 = b from heq] at hgb
        exact hgb
      · have h1 := hpair (j + 1) b (by omega) (by omega) (by omega)
        have hgb := gap2 (by omega)
        rw [gapRel] at h1
        linarith
    · rw [if_neg haj, if_neg hbj]
      exact hpair a b (by omega) (by omega) hab

/-- Step equation for `Node.modifyAt` on a cons path whose head resolves
and whose recursive call succeeds. -/
theorem modifyAt_cons_ok {α : Type} {f : Node → Except (PyErr × Node) (Node × α)}
    {n : Node} {i : ℤ} {rest : List ℤ} {j : ℕ} {t : Node} {a : α}
    (hres : pyResolveIdx (sorted_children n.children).length i = some j)
    (hrec : ((sorted_children n.children)[j]!).modifyAt rest f = .ok (t, a)) :
    n.modifyAt (i :: rest) f =
      .ok (n.withChildren ((sorted_children n.children).set j t), a) := by
  rw [Node.modifyAt]
  simp only [hres, hrec]

/-- Step equation for `Node.getAt` on a cons path whose head resolves. -/
theorem getAt_cons_some {n : Node} {i : ℤ} {rest : List ℤ} {j : ℕ}
    (hres : pyResolveIdx (sorted_children n.children).length i = some j) :
    n.getAt (i :: rest) = ((sorted_children n.children)[j]!).getAt rest := by
  rw [Node.getAt]
  simp only [hres]

/-- The heart of the C5 round trip: a successful delete descent followed by
the rollback's reinsert descent along the same parent path restores the
original tree exactly, and the deleted node sat at child index `j` of its
parent. -/
theorem delete_then_reinsert (idx : ℤ) :
    ∀ (pp : List ℤ) {t t1 node : Node} {j : ℕ}, GoodTree t →
      t.modifyAt pp (deletePopFun idx) = .ok (t1, (node, j)) →
      t1.modifyAt pp (reinsertFun node j) = .ok (t, ()) ∧
      t.getAt (pp ++ [(j : ℤ)]) = .ok node := by
  intro pp
  induction pp with
  | nil =>
    intro t t1 node j ht h
    rw [Node.modifyAt, deletePopFun, ht.sortedTree.sorted_children_eq] at h
    split at h
    · simp at h
    · next j0 hc =>
      have hj0 : j0 < t.children.length := checkChildIndex_lt hc
      rw [getElem_bang_eq hj0] at h
      simp only [pyPopAt, Except.ok.injEq, Prod.mk.injEq] at h
      obtain ⟨ht1, hnode, rfl⟩ := h
      subst hnode
      subst ht1
      have hgood : GoodList t.children := ht.listGood
      have herase : sorted_children (t.children.eraseIdx j0) =
          t.children.eraseIdx j0 :=
        sorted_children_eq_self (goodList_eraseIdx hgood j0).sorted
      constructor
      · rw [Node.modifyAt]
        simp only [reinsertFun, Node.children_withChildren, sorted_children_idem,
          herase, pyInsert_eraseIdx _ j0 hj0, list_set_self _ j0 hj0,
          maybe_reindex_eq_self hgood, sorted_children_eq_self hgood.sorted,
          Node.withChildren_withChildren, Node.withChildren_self]
      · have hres5 : pyResolveIdx (sorted_children t.children).length
            ((j0 : ℕ) : ℤ) = some j0 := by
          rw [ht.sortedTree.sorted_children_eq]
          exact pyResolveIdx_natCast hj0
        rw [List.nil_append, getAt_cons_some hres5,
          ht.sortedTree.sorted_children_eq, getElem_bang_eq hj0]
        rfl
  | cons i rest ih =>
    intro t t1 node j ht h
    rw [Node.modifyAt, ht.sortedTree.sorted_children_eq] at h
    split at h
    · simp at h
    · next jj hres =>
      have hjj : jj < t.children.length := pyResolveIdx_lt hres
      rw [getElem_bang_eq hjj] at h
      split at h
      · simp at h
      · next t2 a1 hrec =>
        simp only [Except.ok.injEq, Prod.mk.injEq] at h
        obtain ⟨ht1, ha⟩ := h
        rw [ha] at hrec
        subst ht1
        obtain ⟨hrein, hget⟩ :=
          ih (ht.memGood _ (List.getElem_mem hjj)) hrec
        have hkeyd : t2.sort_key = t.children[jj].sort_key := by
          have hd := (modifyAt_ok_getAt
            (fun t t2 a h => deletePopFun_key h) rest hrec).1
          rw [hd]
        have hsort1 : List.Sorted keyLe (t.children.set jj t2) :=
          sorted_set_same_key hjj ht.sortedTree.listSorted hkeyd
        have hset1 : jj < (t.children.set jj t2).length := by
          rw [List.length_set]; exact hjj
        constructor
        · have hsc1 : sorted_children
              ((t.withChildren (t.children.set jj t2)).children) =
              t.children.set jj t2 := by
            rw [Node.children_withChildren, sorted_children_eq_self hsort1]
          have hres1 : pyResolveIdx (sorted_children
              ((t.withChildren (t.children.set jj t2)).children)).length i =
              some jj := by
            rw [hsc1, List.length_set]; exact hres
          have hrec1 : ((sorted_children
              ((t.withChildren (t.children.set jj t2)).children))[jj]!).modifyAt
              rest (reinsertFun node j) = .ok (t.children[jj], ()) := by
            rw [hsc1, getElem_bang_eq hset1, List.getElem_set_self]; exact hrein
          rw [modifyAt_cons_ok hres1 hrec1, hsc1, List.set_set,
            list_set_self _ jj hjj, Node.withChildren_withChildren,
            Node.withChildren_self]
        · have hres3 : pyResolveIdx (sorted_children t.children).length i =
              some jj := by
            rw [ht.sortedTree.sorted_children_eq]; exact hres
          rw [List.cons_append, getAt_cons_some hres3,
            ht.sortedTree.sorted_children_eq, getElem_bang_eq hjj]
          exact hget

/-- The C5 model: a root with children x (sort key 12) and b (sort key 20),
satisfying the rebalance invariant. -/
def c5model : SpecModel :=
  ⟨"1.0", .mk "Root" "md" "" "" "" "" true 10
    [.mk "x" "md" "" "" "" "" true 12 [], .mk "b" "md" "" "" "" "" true 20 []]⟩

/-- C5: on a model satisfying the rebalance invariant, a successful
DeleteNode apply followed by its rollback restores the model exactly — the
same tree, structurally and field-wise identical, sort keys included, with
the deleted node back at the recorded parent path and index.  The rollback
reinserts the remembered node with its remembered sort key at the
remembered index, and the maybe-reindex pass leaves the restored, still
invariant-satisfying sibling list untouched. -/
theorem delete_rollback_restores (m : SpecModel) (p : List ℤ)
    (hg : GoodTree m.root) {m1 : SpecModel} {c1 : Cmd}
    (h : applyDelete p m = .ok (m1, c1)) :
    ∃ node j,
      c1 = .delete p (some node) (some p.dropLast) (some j) ∧
      rollbackCmd c1 m1 = .ok (m, c1) ∧
      m.root.getAt (p.dropLast ++ [(j : ℤ)]) = .ok node := by
  rw [applyDelete] at h
  split at h
  · simp at h
  · split at h
    · simp at h
    · next r node j hres =>
      simp only [Except.ok.injEq, Prod.mk.injEq] at h
      obtain ⟨hm1, hc1⟩ := h
      subst hm1
      subst hc1
      obtain ⟨hrein, hget⟩ :=
        delete_then_reinsert p.getLast! p.dropLast hg hres
      refine ⟨node, j, rfl, ?_, hget⟩
      show rollbackDelete p (some node) (some p.dropLast) (some j)
        ⟨m.schema_version, r⟩ = _
      rw [rollbackDelete]
      simp only [hrein]

/-- Witness for C5: the round-trip theorem applied to `c5model` with
path [0]: deleting x (sort key 12) and rolling back restores `c5model`
exactly, x's key 12 included. -/
theorem delete_rollback_restores_witness :
    ∃ node j,
      (Cmd.delete [0] (some (Node.mk "x" "md" "" "" "" "" true 12 []))
          (some []) (some 0)) =
        .delete [0] (some node) (some (List.dropLast [0])) (some j) ∧
      rollbackCmd (.delete [0] (some (Node.mk "x" "md" "" "" "" "" true 12 []))
          (some []) (some 0))
        ⟨"1.0", .mk "Root" "md" "" "" "" "" true 10
          [.mk "b" "md" "" "" "" "" true 20 []]⟩ =
        .ok (c5model,
          .delete [0] (some (Node.mk "x" "md" "" "" "" "" true 12 []))
            (some []) (some 0)) ∧
      c5model.root.getAt (List.dropLast [0] ++ [(j : ℤ)]) = .ok node := by
  have hleaf : ∀ (title : String) (k : ℚ),
      GoodTree (Node.mk title "md" "" "" "" "" true k []) :=
    fun title k => .mk _ (by simp [GoodList, Node.children_mk]) (by simp)
  have hg : GoodTree c5model.root := by
    refine .mk _ ?_ ?_
    · show GoodList [Node.mk "x" "md" "" "" "" "" true 12 [],
        Node.mk "b" "md" "" "" "" "" true 20 []]
      simp [GoodList, gapRel, MIN_SORT_GAP, Node.sort_key_mk]
      norm_num
    · intro c hc
      have hcc : c = Node.mk "x" "md" "" "" "" "" true 12 [] ∨
          c = Node.mk "b" "md" "" "" "" "" true 20 [] := by
        simpa [c5model, Node.children_mk] using hc
      rcases hcc with rfl | rfl
      · exact hleaf _ _
      · exact hleaf _ _
  have happ : applyDelete [0] c5model =
      .ok (⟨"1.0", .mk "Root" "md" "" "" "" "" true 10
          [.mk "b" "md" "" "" "" "" true 20 []]⟩,
        .delete [0] (some (Node.mk "x" "md" "" "" "" "" true 12 []))
          (some []) (some 0)) := by
    norm_num [applyDelete, c5model, Node.modifyAt, deletePopFun,
      checkChildIndex, sorted_children, List.insertionSort, List.orderedInsert,
      keyLe, pyPopAt, List.eraseIdx, Node.withChildren, Node.children_mk,
      Node.sort_key_mk, getElem!_pos, List.getLast!, List.getLast,
      List.dropLast]
  exact delete_rollback_restores c5model [0] hg happ

/-! ## Claim C8: persistence round trip -/

/-- The fixed key order of the serialized node object (NODE_KEY_ORDER from
src/domain/model.py). -/
def NODE_KEY_ORDER : List String :=
  ["title", "content_type", "content", "sensors", "actuators", "image",
   "printable", "sort_key", "children"]

/-- The `__post_init__` invariant of the Python Node dataclass: every node
carries one of the three valid content types (Python raises on
construction otherwise, so every in-memory tree satisfies this). -/
inductive ValidCT : Node → Prop where
  | mk (n : Node) : n.content_type ∈ CONTENT_TYPES →
      (∀ c ∈ n.children, ValidCT c) → ValidCT n

/-- The tree actually rebuilt by `node_from_dict` from a saved node: every
sibling list replaced by its canonical sorted form, all fields kept. -/
def canonTree (n : Node) : Node :=
  .mk n.title n.content_type n.content n.sensors n.actuators n.image
    n.printable n.sort_key
    ((sorted_children n.children).attach.map (fun c => canonTree c.val))
termination_by sizeOf n
decreasing_by exact sizeOf_lt_of_mem_sorted_children c.prop

theorem canonTree_def (n : Node) :
    canonTree n = .mk n.title n.content_type n.content n.sensors n.actuators
      n.image n.printable n.sort_key
      ((sorted_children n.children).map canonTree) := by
  rw [canonTree]
  exact congrArg _ (List.attach_map_val _ _)

theorem canonTree_sort_key (n : Node) :
    (canonTree n).sort_key = n.sort_key := by
  rw [canonTree_def, Node.sort_key_mk]

theorem node_to_ordered_dict_def (n : Node) :
    node_to_ordered_dict n = .obj [("title", .s n.title),
      ("content_type", .s n.content_type), ("content", .s n.content),
      ("sensors", .s n.sensors), ("actuators", .s n.actuators),
      ("image", .s n.image), ("printable", .b n.printable),
      ("sort_key", if n.sort_key.den = 1 then .int n.sort_key.num
        else .float n.sort_key),
      ("children", .arr ((sorted_children n.children).map
        node_to_ordered_dict))] := by
  rw [node_to_ordered_dict]
  exact congrArg (fun xs => JValue.obj [("title", JValue.s n.title),
    ("content_type", JValue.s n.content_type), ("content", JValue.s n.content),
    ("sensors", JValue.s n.sensors), ("actuators", JValue.s n.actuators),
    ("image", JValue.s n.image), ("printable", JValue.b n.printable),
    ("sort_key", if n.sort_key.den = 1 then JValue.int n.sort_key.num
      else JValue.float n.sort_key),
    ("children", JValue.arr xs)]) (List.attach_map_val _ _)

theorem sorted_map_canonTree {l : List Node} (h : List.Sorted keyLe l) :
    List.Sorted keyLe (l.map canonTree) := by
  have hk : keysOf (l.map canonTree) = keysOf l := by
    unfold keysOf
    rw [List.map_map]
    exact List.map_congr_left (fun a _ha => canonTree_sort_key a)
  rw [List.Sorted]
  rw [show (List.Pairwise keyLe (l.map canonTree)) =
    List.Sorted keyLe (l.map canonTree) from rfl]
  rw [sorted_iff_keys, hk, ← sorted_iff_keys]
  exact h

theorem exceptSeq_map_ok {α β : Type} (g : α → β) :
    ∀ l : List α, exceptSeq (l.map (fun x => Except.ok (g x))) =
      .ok (l.map g)
  | [] => rfl
  | a :: rest => by
    rw [List.map_cons, List.map_cons, exceptSeq, exceptSeq_map_ok g rest]
    rfl

/-- Loading a saved node succeeds on a content-type-valid tree and
rebuilds its canonical form. -/
theorem node_from_dict_to_dict {n : Node} (hv : ValidCT n) :
    node_from_dict (node_to_ordered_dict n) = .ok (canonTree n) := by
  induction hv with
  | mk n hct hmem ih =>
    have hmap : ((sorted_children n.children).map node_to_ordered_dict).map
        node_from_dict = (sorted_children n.children).map
          (fun x => Except.ok (canonTree x)) := by
      rw [List.map_map]
      exact List.map_congr_left (fun c hc => ih c (mem_sorted_children hc))
    have hsc : sorted_children ((sorted_children n.children).map canonTree) =
        (sorted_children n.children).map canonTree :=
      sorted_children_eq_self (sorted_map_canonTree (sorted_children_sorted _))
    have hkey : jFloat (some (if n.sort_key.den = 1
        then JValue.int n.sort_key.num else JValue.float n.sort_key))
        DEFAULT_SORT_STEP = n.sort_key := by
      by_cases hden : n.sort_key.den = 1
      · rw [if_pos hden]
        exact rat_num_eq_self hden
      · rw [if_neg hden]
        rfl
    rw [node_to_ordered_dict_def, node_from_dict]
    simp [jGet, List.attach_map_val, hmap, exceptSeq_map_ok, jStr, jBool,
      hkey, hct]
    rw [hsc, canonTree_def]

/-- Saving the canonical tree produces the same payload as saving the
original. -/
theorem to_dict_canonTree {n : Node} (hv : ValidCT n) :
    node_to_ordered_dict (canonTree n) = node_to_ordered_dict n := by
  induction hv with
  | mk n hct hmem ih =>
    rw [node_to_ordered_dict_def, node_to_ordered_dict_def, canonTree_def]
    simp only [Node.title_mk, Node.content_type_mk, Node.content_mk,
      Node.sensors_mk, Node.actuators_mk, Node.image_mk, Node.printable_mk,
      Node.sort_key_mk, Node.children_mk]
    have hsc : sorted_children ((sorted_children n.children).map canonTree) =
        (sorted_children n.children).map canonTree :=
      sorted_children_eq_self (sorted_map_canonTree (sorted_children_sorted _))
    rw [hsc]
    rw [show List.map node_to_ordered_dict
        (List.map canonTree (sorted_children n.children)) =
        List.map node_to_ordered_dict (sorted_children n.children) from by
      rw [List.map_map]
      exact List.map_congr_left (fun c _hc => ih c (mem_sorted_children _hc))]

/-- C8: on every model whose nodes carry valid content types (the dataclass
invariant), save then load succeeds and saving again produces the identical
payload; moreover every serialized node emits its keys in the fixed order,
serializes its children in ascending sort-key order, and writes `sort_key`
as an integer exactly when the value is mathematically integral. -/
theorem save_load_save_roundtrip (m : SpecModel) (hv : ValidCT m.root) :
    (∃ m2, load_spec (save_spec m) = .ok m2 ∧ save_spec m2 = save_spec m) ∧
    (∀ n : Node, ∃ fields, node_to_ordered_dict n = .obj fields ∧
      fields.map Prod.fst = NODE_KEY_ORDER ∧
      jGet fields "children" = some (.arr ((sorted_children n.children).map
        node_to_ordered_dict)) ∧
      List.Sorted keyLe (sorted_children n.children) ∧
      jGet fields "sort_key" = some (if n.sort_key.den = 1
        then .int n.sort_key.num else .float n.sort_key) ∧
      (n.sort_key.den = 1 ↔ ∃ z : ℤ, n.sort_key = (z : ℚ))) := by
  constructor
  · refine ⟨⟨m.schema_version, canonTree m.root⟩, ?_, ?_⟩
    · obtain ⟨rf, hrf⟩ : ∃ rf, node_to_ordered_dict m.root = .obj rf :=
        ⟨_, node_to_ordered_dict_def m.root⟩
      rw [save_spec, hrf, load_spec]
      simp [jGet, jStr]
      rw [← hrf, node_from_dict_to_dict hv]
      rfl
    · rw [save_spec, save_spec]
      rw [show (⟨m.schema_version, canonTree m.root⟩ : SpecModel).root =
        canonTree m.root from rfl]
      rw [to_dict_canonTree hv]
  · intro n
    refine ⟨_, node_to_ordered_dict_def n, ?_, ?_,
      sorted_children_sorted _, ?_, ?_⟩
    · simp [NODE_KEY_ORDER]
    · simp [jGet]
    · simp [jGet]
    · constructor
      · intro hden
        exact ⟨n.sort_key.num, (rat_num_eq_self hden).symm⟩
      · rintro ⟨z, hz⟩
        rw [hz]
        exact Rat.den_intCast z

/-- C8 witness model: a non-integral root key, unsorted children, three
distinct content types and both printable flags. -/
def c8model : SpecModel :=
  ⟨"1.0", .mk "Root" "md" "hello" "" "" "" true (21 / 2)
    [.mk "b" "typ" "" "" "" "" false 20 [],
     .mk "a" "adoc" "x" "" "" "" true 12 []]⟩

/-- Witness for C8: the round-trip theorem applied to `c8model`. -/
theorem save_load_save_roundtrip_witness :
    (∃ m2, load_spec (save_spec c8model) = .ok m2 ∧
      save_spec m2 = save_spec c8model) ∧
    (∀ n : Node, ∃ fields, node_to_ordered_dict n = .obj fields ∧
      fields.map Prod.fst = NODE_KEY_ORDER ∧
      jGet fields "children" = some (.arr ((sorted_children n.children).map
        node_to_ordered_dict)) ∧
      List.Sorted keyLe (sorted_children n.children) ∧
      jGet fields "sort_key" = some (if n.sort_key.den = 1
        then .int n.sort_key.num else .float n.sort_key) ∧
      (n.sort_key.den = 1 ↔ ∃ z : ℤ, n.sort_key = (z : ℚ))) := by
  refine save_load_save_roundtrip c8model ?_
  have hleaf : ∀ (t ct co : String) (pr : Bool) (k : ℚ),
      ct ∈ CONTENT_TYPES → ValidCT (Node.mk t ct co "" "" "" pr k []) :=
    fun t ct co pr k h => .mk _ h (by simp [Node.children_mk])
  refine .mk _ ?_ ?_
  · simp [c8model, CONTENT_TYPES, Node.content_type_mk]
  · intro c hc
    have hcc : c = Node.mk "b" "typ" "" "" "" "" false 20 [] ∨
        c = Node.mk "a" "adoc" "x" "" "" "" true 12 [] := by
      simpa [c8model, Node.children_mk] using hc
    rcases hcc with rfl | rfl
    · exact hleaf _ _ _ _ _ (by simp [CONTENT_TYPES])
    · exact hleaf _ _ _ _ _ (by simp [CONTENT_TYPES])

/-! ## Claim C9: lines before the first heading survive into the root -/

/-- Non-heading lines only accumulate in the pending buffer; the stack is
untouched. -/
theorem runLines_noheading (ct : String) (pr : Bool) (rk : ℚ) :
    ∀ (ls : List String) (stk : List ExpEntry) (pnd : List String),
      (∀ l ∈ ls, parseHeading l = none) →
      runLines ct pr rk ⟨stk, pnd⟩ ls = .ok ⟨stk, pnd ++ ls⟩ := by
  intro ls
  induction ls with
  | nil => intro stk pnd _; simp [runLines]
  | cons line rest ih =>
    intro stk pnd h
    have h1 : parseHeading line = none := h line (by simp)
    rw [runLines]
    simp only [expStep, h1]
    rw [ih stk (pnd ++ [line]) (fun l hl => h l (by simp [hl]))]
    simp

/-- The first heading seen with an empty stack creates the root entry and
leaves the pending buffer exactly as it was: the early return of
`flush_content` on an empty stack does not clear it. -/
theorem expStep_first_heading (ct : String) (pr : Bool) (rk : ℚ)
    (pnd : List String) {h : String} {k : ℕ} {title : String}
    (hh : parseHeading h = some (k, title)) :
    expStep ct pr rk ⟨[], pnd⟩ h = .ok ⟨[⟨k, title, "", rk, []⟩], pnd⟩ := by
  simp only [expStep, hh, ExpState.flush]

/-- C9: when the source content splits into non-heading lines `pre`, a
heading line, and further non-heading lines `post`, the expansion keeps the
`pre` lines: they are joined ahead of the `post` lines into the content of
the single root node.  (The flush performed at the heading returns early on
the empty stack, leaving `pre` in the pending buffer; the final flush then
writes `pre ++ post`.) -/
theorem expand_preserves_preamble (source : Node) (key : ℚ)
    (pre post : List String) (h : String) (k : ℕ) (title : String)
    (hsplit : splitlines source.content = pre ++ h :: post)
    (hpre : ∀ l ∈ pre, parseHeading l = none)
    (hpost : ∀ l ∈ post, parseHeading l = none)
    (hh : parseHeading h = some (k, title)) :
    expand_markdown_to_branch source key =
      .ok (.mk title source.content_type (flushVal (pre ++ post))
        "" "" "" source.printable key []) := by
  have hrun1 : runLines source.content_type source.printable key ⟨[], []⟩ pre =
      .ok ⟨[], pre⟩ := by
    have := runLines_noheading source.content_type source.printable key
      pre [] [] hpre
    simpa using this
  have hrun2 : runLines source.content_type source.printable key
      ⟨[], []⟩ (pre ++ h :: post) =
      .ok ⟨[⟨k, title, "", key, []⟩], pre ++ post⟩ := by
    have happ : ∀ (l1 : List String) (S : ExpState) (l2 : List String),
        runLines source.content_type source.printable key S (l1 ++ l2) =
        match runLines source.content_type source.printable key S l1 with
        | .error e => .error e
        | .ok S1 => runLines source.content_type source.printable key S1 l2 := by
      intro l1
      induction l1 with
      | nil => intro S l2; simp [runLines]
      | cons a rest ih =>
        intro S l2
        rw [List.cons_append, runLines, runLines]
        cases hs : expStep source.content_type source.printable key S a with
        | error e => rfl
        | ok S1 => exact ih S1 l2
    rw [happ pre ⟨[], []⟩ (h :: post), hrun1]
    show runLines source.content_type source.printable key ⟨[], pre⟩
      (h :: post) = _
    rw [runLines, expStep_first_heading source.content_type source.printable
      key pre hh]
    show runLines source.content_type source.printable key
      ⟨[⟨k, title, "", key, []⟩], pre⟩ post = _
    exact runLines_noheading source.content_type source.printable key
      post _ pre hpost
  rw [expand_markdown_to_branch, hsplit, hrun2]
  show expFinalize source.content_type source.printable
    ⟨[⟨k, title, "", key, []⟩], pre ++ post⟩ = _
  rw [expFinalize]
  simp only [ExpState.flush, collapseStack, buildEntry]

/-- C9 witness source node: content with one line before the heading and
one after. -/
def c9source : Node := .mk "S" "md" "intro\n# T\nbody" "" "" "" true 10 []

/-- Witness for C9: expanding "intro\n# T\nbody" keeps "intro" ahead of
"body" in the root's content. -/
theorem expand_preserves_preamble_witness :
    expand_markdown_to_branch c9source 10 =
      .ok (.mk "T" (Node.content_type c9source)
        (flushVal (["intro"] ++ ["body"]))
        "" "" "" (Node.printable c9source) 10 []) := by
  refine expand_preserves_preamble c9source 10 ["intro"] ["body"] "# T" 1 "T"
    ?_ ?_ ?_ ?_
  · decide
  · intro l hl
    have hl2 : l = "intro" := by simpa using hl
    subst hl2
    decide
  · intro l hl
    have hl2 : l = "body" := by simpa using hl
    subst hl2
    decide
  · decide

/-! ## Claim C6: the transform error conditions -/

/-- Strong induction over the tree structure through the children lists. -/
theorem node_induction {P : Node → Prop}
    (h : ∀ n, (∀ c ∈ n.children, P c) → P n) : ∀ n, P n := by
  have main : ∀ (N : ℕ) (n : Node), sizeOf n ≤ N → P n := by
    intro N
    induction N with
    | zero =>
      intro n hn
      exfalso
      cases n with
      | mk t ct c se a i p k ch => simp at hn
    | succ N ih =>
      intro n hn
      refine h n (fun c hc => ih c ?_)
      have h1 := List.sizeOf_lt_of_mem hc
      have h2 := n.sizeOf_children_lt
      omega
  exact fun n => main (sizeOf n) n le_rfl

/-- Does the subtree rooted at `n`, placed at depth `d`, contain a node of
depth greater than 5?  (The node set traversed by
`flatten_branch_to_markdown`, which aborts at such a node.) -/
def deepAt (d : ℕ) (n : Node) : Bool :=
  if 5 < d then true
  else ((sorted_children n.children).attach.map
    (fun c => deepAt (d + 1) c.val)).any id
termination_by sizeOf n
decreasing_by exact sizeOf_lt_of_mem_sorted_children c.prop

theorem deepAt_iff (d : ℕ) (n : Node) :
    deepAt d n = true ↔
      5 < d ∨ ∃ c ∈ sorted_children n.children, deepAt (d + 1) c = true := by
  rw [deepAt]
  split
  · next h5 => simp [h5]
  · next h5 =>
    simp only [List.any_eq_true, List.mem_map, List.mem_attach, id]
    constructor
    · rintro ⟨b, ⟨⟨c, hc⟩, -, rfl⟩, hb⟩
      exact .inr ⟨c, hc, hb⟩
    · rintro (h5c | ⟨c, hc, hdeep⟩)
      · exact absurd h5c h5
      · exact ⟨deepAt (d + 1) c, ⟨⟨c, hc⟩, trivial, rfl⟩, hdeep⟩

/-- `exceptSeq` either returns a listed error or succeeds with every entry
successful. -/
theorem exceptSeq_cases {α : Type} : ∀ l : List (Except PyErr α),
    (∃ e, exceptSeq l = .error e ∧ Except.error e ∈ l) ∨
    ((∃ out, exceptSeq l = .ok out) ∧ ∀ x ∈ l, ∃ a, x = .ok a) := by
  intro l
  induction l with
  | nil => exact .inr ⟨⟨[], rfl⟩, by simp⟩
  | cons x rest ih =>
    cases x with
    | error e => exact .inl ⟨e, by rw [exceptSeq], by simp⟩
    | ok a =>
      rcases ih with ⟨e, he, hmem⟩ | ⟨⟨out, hout⟩, hall⟩
      · refine .inl ⟨e, ?_, by simp [hmem]⟩
        rw [exceptSeq, he]
        rfl
      · refine .inr ⟨⟨a :: out, ?_⟩, ?_⟩
        · rw [exceptSeq, hout]
          rfl
        · intro y hy
          rcases List.mem_cons.mp hy with rfl | hy2
          · exact ⟨a, rfl⟩
          · exact hall y hy2

/-- Error behaviour of the flatten recursion: the only error is
TransformError, raised exactly when a node deeper than 5 exists. -/
theorem flattenSections_error_iff :
    ∀ (n : Node) (d : ℕ),
      (∀ e, flattenSections d n = .error e → e = .transformError) ∧
      ((∃ e, flattenSections d n = .error e) ↔ deepAt d n = true) := by
  refine node_induction ?_
  intro n ih d
  rw [flattenSections]
  split
  · next h5 =>
    refine ⟨fun e he => by simpa using he.symm, fun _ => ?_, fun _ => ⟨_, rfl⟩⟩
    rw [deepAt_iff]
    exact .inl h5
  · next h5 =>
    rcases exceptSeq_cases ((sorted_children n.children).attach.map
        (fun c => flattenSections (d + 1) c.val)) with
      ⟨e, he, hmem⟩ | ⟨⟨out, hout⟩, hall⟩
    · rw [he]
      simp only [List.mem_map, List.mem_attach] at hmem
      obtain ⟨⟨c, hc⟩, -, hceq⟩ := hmem
      have hce : flattenSections (d + 1) c = .error e := hceq
      have hIH := ih c (mem_sorted_children hc)
      have het : e = .transformError := (hIH d.succ).1 e hce
      refine ⟨fun e2 he2 => by
        simp only [Except.error.injEq] at he2
        rw [← he2, het], ?_⟩
      constructor
      · intro _
        rw [deepAt_iff]
        exact .inr ⟨c, hc, ((hIH d.succ).2).mp ⟨e, hce⟩⟩
      · intro _
        exact ⟨e, rfl⟩
    · rw [hout]
      refine ⟨fun e he => by simp at he, ?_⟩
      constructor
      · rintro ⟨e, he⟩
        simp at he
      · intro hdeep
        rcases (deepAt_iff d n).mp hdeep with h5c | ⟨c, hc, hcdeep⟩
        · exact absurd h5c h5
        · exfalso
          have hIH := ih c (mem_sorted_children hc)
          obtain ⟨e, hce⟩ := ((hIH (d + 1)).2).mpr hcdeep
          obtain ⟨a, ha⟩ := hall (flattenSections (d + 1) c)
            (by
              simp only [List.mem_map, List.mem_attach]
              exact ⟨⟨c, hc⟩, trivial, rfl⟩)
          rw [hce] at ha
          simp at ha

/-- The heading levels of a line list, in order of appearance. -/
def headingLevels (ls : List String) : List ℕ :=
  ls.filterMap (fun l => (parseHeading l).map Prod.fst)

/-- The level check performed by the expand loop after the first heading:
given the first heading level `l0` and the previous heading level `prev`,
each further level must neither jump by more than one nor fall back to (or
below) the first level. -/
def levelsOk (l0 : ℕ) : ℕ → List ℕ → Bool
  | _, [] => true
  | prev, k :: rest =>
    if prev + 1 < k then false
    else if k ≤ l0 then false
    else levelsOk l0 k rest

/-- `levelsOk` spelled as the two conditions of the specification: no
heading level exceeds its predecessor by more than one, and every heading
after the first stays strictly above the first heading's level. -/
theorem levelsOk_iff (l0 : ℕ) :
    ∀ (rest : List ℕ) (prev : ℕ),
      levelsOk l0 prev rest = true ↔
        (List.Chain' (fun a b => b ≤ a + 1) (prev :: rest) ∧
          ∀ k ∈ rest, l0 < k) := by
  intro rest
  induction rest with
  | nil => intro prev; simp [levelsOk]
  | cons k rest2 ih =>
    intro prev
    rw [levelsOk]
    by_cases h1 : prev + 1 < k
    · rw [if_pos h1]
      simp only [List.chain'_cons, List.mem_cons]
      constructor
      · intro hf; exact absurd hf (by simp)
      · rintro ⟨⟨hle, -⟩, -⟩
        omega
    · rw [if_neg h1]
      by_cases h2 : k ≤ l0
      · rw [if_pos h2]
        simp only [List.chain'_cons, List.mem_cons]
        constructor
        · intro hf; exact absurd hf (by simp)
        · rintro ⟨-, hall⟩
          have := hall k (.inl rfl)
          omega
      · rw [if_neg h2]
        rw [ih k]
        simp only [List.chain'_cons, List.mem_cons]
        constructor
        · rintro ⟨hch, hall⟩
          exact ⟨⟨by omega, hch⟩, fun x hx => by
            rcases hx with rfl | hx2
            · omega
            · exact hall x hx2⟩
        · rintro ⟨⟨-, hch⟩, hall⟩
          exact ⟨hch, fun x hx => hall x (.inr hx)⟩

/-- The stack abstraction of the expand loop after the first heading: the
stack is non-empty, its top records the previous heading level, its bottom
records the first heading level, and no entry lies below the bottom
level. -/
def stackInvL (l0 prev : ℕ) (stk : List ExpEntry) : Prop :=
  (∃ top rest, stk = top :: rest ∧ top.level = prev) ∧
  (stk.map ExpEntry.level).getLast? = some l0 ∧
  ∀ e ∈ stk, l0 ≤ e.level

theorem attachKid_level (ct : String) (pr : Bool) (e p : ExpEntry) :
    (attachKid ct pr e p).level = p.level := rfl

/-- The pop loop on an abstracted stack: it empties (raising) exactly when
the new level falls to or below the bottom level, and otherwise stops at
the first entry below the new level, preserving the abstraction. -/
theorem popAttach_levels (ct : String) (pr : Bool) (k : ℕ) :
    ∀ (n : ℕ) (stk : List ExpEntry), stk.length ≤ n →
      ∀ l0 prev, stackInvL l0 prev stk →
      (k ≤ l0 → popAttach ct pr k stk = none) ∧
      (l0 < k → ∃ top2 rest2, popAttach ct pr k stk = some (top2 :: rest2) ∧
        stackInvL l0 top2.level (top2 :: rest2) ∧ top2.level < k) := by
  intro n
  induction n with
  | zero =>
    intro stk hlen l0 prev hinv
    obtain ⟨⟨top, rest, rfl, -⟩, -, -⟩ := hinv
    simp at hlen
  | succ n ih =>
    intro stk hlen l0 prev hinv
    obtain ⟨⟨top, rest, rfl, htop⟩, hlast, hall⟩ := hinv
    cases rest with
    | nil =>
      have hl0 : l0 = top.level := by
        simp only [List.map_cons, List.map_nil, List.getLast?_singleton,
          Option.some.injEq] at hlast
        exact hlast.symm
      constructor
      · intro hk
        rw [popAttach, if_pos (by omega)]
      · intro hk
        rw [popAttach, if_neg (by omega)]
        refine ⟨top, [], rfl, ⟨⟨top, [], rfl, rfl⟩, ?_, ?_⟩, by omega⟩
        · simpa using hlast
        · simpa using hall
    | cons p rest2 =>
      by_cases hke : k ≤ top.level
      · have hrec : stackInvL l0 p.level (attachKid ct pr top p :: rest2) := by
          refine ⟨⟨attachKid ct pr top p, rest2, rfl, attachKid_level ct pr top p⟩,
            ?_, ?_⟩
          · rw [List.map_cons, attachKid_level]
            rw [List.map_cons, List.map_cons, List.getLast?_cons_cons] at hlast
            cases rest2 with
            | nil => simpa using hlast
            | cons q rest3 =>
              rw [List.map_cons, List.getLast?_cons_cons] at hlast ⊢
              exact hlast
          · intro e he
            rcases List.mem_cons.mp he with rfl | he2
            · rw [attachKid_level]
              exact hall p (by simp)
            · exact hall e (by simp [he2])
        have hlen2 : (attachKid ct pr top p :: rest2).length ≤ n := by
          simp at hlen ⊢
          omega
        have hres := ih _ hlen2 l0 p.level hrec
        constructor
        · intro hk
          rw [popAttach, if_pos hke]
          exact hres.1 hk
        · intro hk
          rw [popAttach, if_pos hke]
          exact hres.2 hk
      · constructor
        · intro hk
          exfalso
          have := hall top (by simp)
          omega
        · intro hk
          rw [popAttach, if_neg hke]
          refine ⟨top, p :: rest2, rfl,
            ⟨⟨top, p :: rest2, rfl, rfl⟩, hlast, hall⟩, by omega⟩

theorem flush_stackInvL {S : ExpState} {l0 prev : ℕ}
    (h : stackInvL l0 prev S.stack) : stackInvL l0 prev S.flush.stack := by
  obtain ⟨⟨top, rest, hstk, htop⟩, hlast, hall⟩ := h
  rw [ExpState.flush]
  rw [hstk] at hlast hall ⊢
  refine ⟨⟨_, rest, rfl, htop⟩, ?_, ?_⟩
  · exact hlast
  · intro e he
    rcases List.mem_cons.mp he with rfl | he2
    · exact hall top (by simp)
    · exact hall e (by simp [he2])

/-- One heading processed from an abstracted stack: the step raises exactly
on a level jump or a fall to the first level, and otherwise pushes the new
level, preserving the abstraction. -/
theorem expStep_heading_sim (ct : String) (pr : Bool) (rk : ℚ)
    {S : ExpState} {l0 prev k : ℕ} {title line : String}
    (hline : parseHeading line = some (k, title))
    (hinv : stackInvL l0 prev S.stack) :
    ((prev + 1 < k ∨ k ≤ l0) →
      expStep ct pr rk S line = .error .transformError) ∧
    (¬(prev + 1 < k ∨ k ≤ l0) →
      ∃ S1, expStep ct pr rk S line = .ok S1 ∧ stackInvL l0 k S1.stack) := by
  have hfl : stackInvL l0 prev S.flush.stack := flush_stackInvL hinv
  have hpops := popAttach_levels ct pr k S.flush.stack.length S.flush.stack
    le_rfl l0 prev hfl
  obtain ⟨⟨ftop, frest, hfstk, hftop⟩, hflast, hfall⟩ := hfl
  rw [expStep]
  simp only [hline, hfstk]
  constructor
  · rintro (h1 | h2)
    · rw [if_pos (by omega)]
    · rw [if_neg]
      · rw [hfstk] at hpops
        rw [hpops.1 h2]
      · -- a jump cannot be ruled out here: case on it
        intro hj
        -- if the jump check fires the error branch is taken anyway;
        -- this branch is only reached when it does not
        exact absurd hj (by
          -- k ≤ l0 ≤ ftop.level, so ftop.level + 1 < k is impossible
          have := hfall ftop (by rw [hfstk]; simp)
          omega)
  · intro hnot
    rw [not_or] at hnot
    obtain ⟨h1, h2⟩ := hnot
    rw [if_neg (by omega)]
    rw [hfstk] at hpops
    obtain ⟨top2, rest2, hpop, hinv2, htl⟩ := hpops.2 (by omega)
    simp only [hpop]
    refine ⟨_, rfl, ?_⟩
    obtain ⟨-, hlast2, hall2⟩ := hinv2
    refine ⟨⟨_, top2 :: rest2, rfl, rfl⟩, ?_, ?_⟩
    · rw [List.map_cons, List.map_cons, List.getLast?_cons_cons]
      rw [List.map_cons] at hlast2
      exact hlast2
    · intro e he
      rcases List.mem_cons.mp he with rfl | he2
      · show l0 ≤ k
        omega
      · exact hall2 e he2

/-- The expand loop from an abstracted non-empty stack: it raises exactly
when `levelsOk` rejects the remaining heading levels. -/
theorem runLines_sim2 (ct : String) (pr : Bool) (rk : ℚ) :
    ∀ (ls : List String) (S : ExpState) (l0 prev : ℕ),
      stackInvL l0 prev S.stack →
      (levelsOk l0 prev (headingLevels ls) = true →
        ∃ S2 prev2, runLines ct pr rk S ls = .ok S2 ∧
          stackInvL l0 prev2 S2.stack) ∧
      (levelsOk l0 prev (headingLevels ls) = false →
        runLines ct pr rk S ls = .error .transformError) := by
  intro ls
  induction ls with
  | nil =>
    intro S l0 prev hinv
    refine ⟨fun _ => ⟨S, prev, by rw [runLines], hinv⟩, fun hf => ?_⟩
    simp [headingLevels, levelsOk] at hf
  | cons line rest ih =>
    intro S l0 prev hinv
    cases hline : parseHeading line with
    | none =>
      have hstep : expStep ct pr rk S line =
          .ok ⟨S.stack, S.pending ++ [line]⟩ := by
        simp only [expStep, hline]
      have hlev : headingLevels (line :: rest) = headingLevels rest := by
        simp [headingLevels, List.filterMap_cons, hline]
      rw [hlev, runLines]
      simp only [hstep]
      exact ih ⟨S.stack, S.pending ++ [line]⟩ l0 prev hinv
    | some kt =>
      obtain ⟨k, title⟩ := kt
      have hlev : headingLevels (line :: rest) = k :: headingLevels rest := by
        simp [headingLevels, List.filterMap_cons, hline]
      have hsim := expStep_heading_sim ct pr rk hline hinv
      rw [hlev, runLines, levelsOk]
      by_cases h1 : prev + 1 < k
      · rw [if_pos h1]
        have herr := hsim.1 (.inl h1)
        simp only [herr]
        exact ⟨fun hf => by simp at hf, fun _ => by trivial⟩
      · rw [if_neg h1]
        by_cases h2 : k ≤ l0
        · rw [if_pos h2]
          have herr := hsim.1 (.inr h2)
          simp only [herr]
          exact ⟨fun hf => by simp at hf, fun _ => by trivial⟩
        · rw [if_neg h2]
          obtain ⟨S1, hstep, hinv1⟩ := hsim.2 (not_or.mpr ⟨h1, h2⟩)
          simp only [hstep]
          exact ih S1 l0 k hinv1

/-- The expand loop from the initial empty stack: with no heading it ends
with an empty stack; from the first heading on it behaves as `levelsOk`. -/
theorem runLines_sim1 (ct : String) (pr : Bool) (rk : ℚ) :
    ∀ (ls : List String) (pnd : List String),
      (headingLevels ls = [] →
        ∃ pnd2, runLines ct pr rk ⟨[], pnd⟩ ls = .ok ⟨[], pnd2⟩) ∧
      (∀ k0 restL, headingLevels ls = k0 :: restL →
        (levelsOk k0 k0 restL = true →
          ∃ S2 prev2, runLines ct pr rk ⟨[], pnd⟩ ls = .ok S2 ∧
            stackInvL k0 prev2 S2.stack) ∧
        (levelsOk k0 k0 restL = false →
          runLines ct pr rk ⟨[], pnd⟩ ls = .error .transformError)) := by
  intro ls
  induction ls with
  | nil =>
    intro pnd
    exact ⟨fun _ => ⟨pnd, by rw [runLines]⟩,
      fun k0 restL h => by simp [headingLevels] at h⟩
  | cons line rest ih =>
    intro pnd
    cases hline : parseHeading line with
    | none =>
      have hstep : expStep ct pr rk ⟨[], pnd⟩ line =
          .ok ⟨[], pnd ++ [line]⟩ := by
        simp only [expStep, hline]
      have hlev : headingLevels (line :: rest) = headingLevels rest := by
        simp [headingLevels, List.filterMap_cons, hline]
      rw [hlev]
      constructor
      · intro hnil
        obtain ⟨pnd2, hrun⟩ := (ih (pnd ++ [line])).1 hnil
        rw [runLines]
        simp only [hstep]
        exact ⟨pnd2, hrun⟩
      · intro k0 restL hL
        have hres := (ih (pnd ++ [line])).2 k0 restL hL
        rw [runLines]
        simp only [hstep]
        exact hres
    | some kt =>
      obtain ⟨k, title⟩ := kt
      have hstep := expStep_first_heading ct pr rk pnd hline
      have hlev : headingLevels (line :: rest) = k :: headingLevels rest := by
        simp [headingLevels, List.filterMap_cons, hline]
      constructor
      · intro hnil
        rw [hlev] at hnil
        simp at hnil
      · intro k0 restL hL
        rw [hlev] at hL
        simp only [List.cons.injEq] at hL
        obtain ⟨rfl, rfl⟩ := hL
        rw [runLines]
        simp only [hstep]
        have hinv1 : stackInvL k k
            (ExpState.stack ⟨[⟨k, title, "", rk, []⟩], pnd⟩) := by
          refine ⟨⟨_, [], rfl, rfl⟩, by simp, ?_⟩
          intro e he
          have he2 : e = ⟨k, title, "", rk, []⟩ := by simpa using he
          subst he2
          exact le_rfl
        exact runLines_sim2 ct pr rk rest ⟨[⟨k, title, "", rk, []⟩], pnd⟩
          k k hinv1

/-- The structural violations of `expand_markdown_to_branch`, in the
specification's terms: no heading found at all, some heading level
exceeding its predecessor by more than one, or a further heading at or
below the first heading's level (which empties the stack when popped). -/
def expandViolation (L : List ℕ) : Prop :=
  L = [] ∨ ¬ List.Chain' (fun a b => b ≤ a + 1) L ∨ ∃ k ∈ L.tail, k ≤ L.head!

theorem expandViolation_iff : ∀ L : List ℕ, expandViolation L ↔
    (match L with
     | [] => True
     | k0 :: restL => levelsOk k0 k0 restL = false) := by
  intro L
  cases L with
  | nil => simp [expandViolation]
  | cons k0 restL =>
    show expandViolation (k0 :: restL) ↔ levelsOk k0 k0 restL = false
    rw [expandViolation]
    simp only [List.head!, List.tail_cons]
    have hok := levelsOk_iff k0 restL k0
    constructor
    · rintro (habs | hnc | ⟨k, hk, hke⟩)
      · simp at habs
      · cases hb : levelsOk k0 k0 restL with
        | false => rfl
        | true => exact absurd (hok.mp hb).1 hnc
      · cases hb : levelsOk k0 k0 restL with
        | false => rfl
        | true =>
          have := (hok.mp hb).2 k (by simpa using hk)
          omega
    · intro hfalse
      by_contra hno
      push_neg at hno
      obtain ⟨-, hch, hall⟩ := hno
      have : levelsOk k0 k0 restL = true := hok.mpr ⟨hch, fun k hk => by
        have := hall k (by simpa using hk)
        omega⟩
      rw [this] at hfalse
      simp at hfalse

/-- C6: the transforms raise TransformError exactly in the structural
violation cases and no others.  (1) `flatten_branch_to_markdown` errors —
always with TransformError — exactly when the subtree has a node deeper
than 5 (a seventh heading level would be needed).  (2)
`expand_markdown_to_branch` errors — always with TransformError — exactly
when the heading level sequence of the source content is empty (no heading
found), has a level jump greater than one, or has a further heading at or
below the first heading's level.  (3) When a FlattenBranchToNode or
ExpandNodeToBranch command's apply raises any error, the model is left
unmutated. -/
theorem transform_errors_exact :
    (∀ n : Node,
      (∀ e, flatten_branch_to_markdown n = .error e → e = .transformError) ∧
      ((∃ e, flatten_branch_to_markdown n = .error e) ↔ deepAt 0 n = true)) ∧
    (∀ (source : Node) (key : ℚ),
      (∀ e, expand_markdown_to_branch source key = .error e →
        e = .transformError) ∧
      ((∃ e, expand_markdown_to_branch source key = .error e) ↔
        expandViolation (headingLevels (splitlines source.content)))) ∧
    (∀ (p : List ℤ) (ip : Option (List ℤ)) (cn : Option Node) (m : SpecModel)
      (e : PyErr) (m2 : SpecModel), SortedTree m.root →
      (applyCmd (.flattenCmd p ip cn) m = .error (e, m2) ∨
       applyCmd (.expandCmd p ip cn) m = .error (e, m2)) → m2 = m) := by
  refine ⟨?_, ?_, ?_⟩
  · intro n
    have hfs := flattenSections_error_iff n 0
    rw [flatten_branch_to_markdown]
    cases hres : flattenSections 0 n with
    | error e =>
      have het : e = .transformError := hfs.1 e hres
      refine ⟨fun e2 he2 => ?_, fun _ => ?_, fun _ => ⟨e, by simp [Except.map]⟩⟩
      · simp only [Except.map, Except.error.injEq] at he2
        rw [← he2, het]
      · exact hfs.2.mp ⟨e, hres⟩
    | ok out =>
      refine ⟨fun e2 he2 => ?_, fun he => ?_, fun hdeep => ?_⟩
      · simp [Except.map] at he2
      · obtain ⟨e2, he2⟩ := he
        simp [Except.map] at he2
      · exfalso
        obtain ⟨e, he⟩ := hfs.2.mpr hdeep
        rw [hres] at he
        simp at he
  · intro source key
    have hsim := runLines_sim1 source.content_type source.printable key
      (splitlines source.content) []
    rw [expand_markdown_to_branch]
    rw [expandViolation_iff]
    cases hL : headingLevels (splitlines source.content) with
    | nil =>
      obtain ⟨pnd2, hrun⟩ := hsim.1 hL
      simp only [hrun]
      refine ⟨fun e he => ?_, fun _ => by trivial, fun _ => ⟨.transformError, ?_⟩⟩
      · simp only [expFinalize, ExpState.flush] at he
        simpa using he.symm
      · simp only [expFinalize, ExpState.flush]
    | cons k0 restL =>
      show _ ∧ (_ ↔ levelsOk k0 k0 restL = false)
      cases hb : levelsOk k0 k0 restL with
      | true =>
        obtain ⟨S2, prev2, hrun, hinv⟩ := (hsim.2 k0 restL hL).1 hb
        simp only [hrun]
        obtain ⟨⟨top, rest, hstk, -⟩, -, -⟩ := hinv
        have hfin : ∃ b, expFinalize source.content_type source.printable S2 =
            .ok b := by
          rw [expFinalize, ExpState.flush, hstk]
          exact ⟨_, rfl⟩
        obtain ⟨b, hfin⟩ := hfin
        rw [hfin]
        refine ⟨fun e he => by simp at he, fun he => ?_, fun hf => ?_⟩
        · obtain ⟨e, he⟩ := he
          simp at he
        · simp at hf
      | false =>
        have hrun := (hsim.2 k0 restL hL).2 hb
        simp only [hrun]
        exact ⟨fun e he => by simpa using he.symm, fun _ => by trivial,
          fun _ => ⟨.transformError, rfl⟩⟩
  · intro p ip cn m e m2 hsorted hor
    have key : ∀ tf, applySiblingInsert tf p m = .error (e, m2) → m2 = m := by
      intro tf happ
      rw [applySiblingInsert] at happ
      split at happ
      · simp only [Except.error.injEq, Prod.mk.injEq] at happ
        exact happ.2.symm
      · split at happ
        · next e1 r hres =>
          simp only [Except.error.injEq, Prod.mk.injEq] at happ
          have hr : r = m.root :=
            modifyAt_error_eq (fun t ht e t2 h2 => siblingInsertFun_error ht h2)
              p.dropLast hsorted hres
          rw [← happ.2, hr, specModel_eta]
        · simp at happ
    rcases hor with happ | happ
    · refine key flatten_branch_to_node ?_
      rw [applyCmd] at happ
      cases hres : applySiblingInsert flatten_branch_to_node p m with
      | error pr2 =>
        rw [hres] at happ
        obtain ⟨e2, m3⟩ := pr2
        simp only [Except.map, Except.error.injEq, Prod.mk.injEq] at happ
        rw [happ.1, happ.2]
      | ok v =>
        rw [hres] at happ
        obtain ⟨m3, nodeF, ip2⟩ := v
        simp [Except.map] at happ
    · refine key expand_markdown_to_branch ?_
      rw [applyCmd] at happ
      cases hres : applySiblingInsert expand_markdown_to_branch p m with
      | error pr2 =>
        rw [hres] at happ
        obtain ⟨e2, m3⟩ := pr2
        simp only [Except.map, Except.error.injEq, Prod.mk.injEq] at happ
        rw [happ.1, happ.2]
      | ok v =>
        rw [hres] at happ
        obtain ⟨m3, nodeF, ip2⟩ := v
        simp [Except.map] at happ

/-- Witness for C6: the no-mutation conjunct applied to a
FlattenBranchToNode command with an out-of-range path on a single-node
model. -/
theorem transform_errors_exact_witness :
    SortedTree (⟨"1.0", .mk "R" "md" "" "" "" "" true 10 []⟩ : SpecModel).root ∧
    applyCmd (.flattenCmd [0] none none)
        ⟨"1.0", .mk "R" "md" "" "" "" "" true 10 []⟩ =
      .error (.indexError, ⟨"1.0", .mk "R" "md" "" "" "" "" true 10 []⟩) ∧
    (⟨"1.0", .mk "R" "md" "" "" "" "" true 10 []⟩ : SpecModel) =
      ⟨"1.0", .mk "R" "md" "" "" "" "" true 10 []⟩ := by
  have hs : SortedTree
      (⟨"1.0", .mk "R" "md" "" "" "" "" true 10 []⟩ : SpecModel).root :=
    ⟨_, by simp [Node.children_mk], by simp [Node.children_mk]⟩
  have ha : applyCmd (.flattenCmd [0] none none)
      ⟨"1.0", .mk "R" "md" "" "" "" "" true 10 []⟩ =
      .error (.indexError, ⟨"1.0", .mk "R" "md" "" "" "" "" true 10 []⟩) := by
    simp [applyCmd, applySiblingInsert, siblingInsertFun, Node.modifyAt,
      sorted_children, List.insertionSort, pyResolveIdx, Except.map,
      Node.withChildren, Node.children_mk, List.dropLast, List.getLast!,
      List.getLast]
  exact ⟨hs, ha, transform_errors_exact.2.2 [0] none none _ .indexError _ hs
    (.inl ha)⟩

/-! ## Claim C7: the flatten/expand round trip -/

/-- C7 counterexample: a single node (depth 0) whose body is the line
"# x".  Flatten embeds the body verbatim, so the produced markdown has two
top-level heading lines, and expanding it raises TransformError instead of
reproducing the branch. -/
theorem flatten_expand_roundtrip_fails :
    flatten_branch_to_markdown (.mk "T" "md" "# x" "" "" "" true 10 []) =
      .ok "# T\n# x" ∧
    expand_markdown_to_branch (.mk "T" "md" "# T\n# x" "" "" "" true 10 []) 10 =
      .error .transformError := by
  constructor
  · rw [flatten_branch_to_markdown, flattenSections]
    simp only [Node.children_mk, sorted_children]
    rw [show List.insertionSort keyLe [] = [] from rfl]
    rw [show (([] : List Node).attach.map
      (fun c => flattenSections 1 c.val)) = [] from rfl]
    rw [show exceptSeq ([] : List (Except PyErr (List String))) = .ok [] from rfl]
    rfl
  · rw [expand_markdown_to_branch]
    simp only [Node.content_mk, Node.content_type_mk, Node.printable_mk]
    rw [show splitlines "# T\n# x" = ["# T", "# x"] from by decide]
    rw [runLines]
    rw [show expStep "md" true 10 ⟨[], []⟩ "# T" =
      .ok ⟨[⟨1, "T", "", 10, []⟩], []⟩ from by
        rw [expStep]
        rw [show parseHeading "# T" = some (1, "T") from by decide]
        rfl]
    show (match runLines "md" true 10 ⟨[⟨1, "T", "", 10, []⟩], []⟩ ["# x"] with
      | Except.error e => Except.error e
      | Except.ok S => expFinalize "md" true S) = Except.error PyErr.transformError
    rw [runLines]
    rw [show expStep "md" true 10 ⟨[⟨1, "T", "", 10, []⟩], []⟩ "# x" =
      .error .transformError from by
        rw [expStep]
        rw [show parseHeading "# x" = some (1, "x") from by decide]
        simp [ExpState.flush, popAttach]]

/-! ### String plumbing for the round trip -/

theorem intercalate_go_eq (s : String) :
    ∀ (as : List String) (a b : String),
      String.intercalate.go a s (b :: as) =
        a ++ s ++ String.intercalate.go b s as := by
  intro as
  induction as with
  | nil => intro a b; rfl
  | cons c as ih =>
    intro a b
    show String.intercalate.go (a ++ s ++ b) s (c :: as) = _
    rw [ih (a ++ s ++ b) c, ih b c]
    apply String.ext
    simp [String.data_append, List.append_assoc]

theorem intercalate_cons_cons (s a b : String) (l : List String) :
    String.intercalate s (a :: b :: l) =
      a ++ s ++ String.intercalate s (b :: l) := by
  show String.intercalate.go a s (b :: l) = _
  rw [intercalate_go_eq s l a b]
  rfl

theorem intercalate_singleton (s a : String) :
    String.intercalate s [a] = a := rfl

theorem intercalate_append_strings (s : String) :
    ∀ (X : List String), X ≠ [] → ∀ (Y : List String), Y ≠ [] →
      String.intercalate s (X ++ Y) =
        String.intercalate s X ++ s ++ String.intercalate s Y := by
  intro X
  induction X with
  | nil => intro h; exact absurd rfl h
  | cons a X ih =>
    intro _ Y hY
    cases X with
    | nil =>
      cases Y with
      | nil => exact absurd rfl hY
      | cons b Y =>
        show s.intercalate (a :: b :: Y) = _
        rw [intercalate_cons_cons, intercalate_singleton]
    | cons a2 X2 =>
      have h1 : s.intercalate ((a :: a2 :: X2) ++ Y) =
          a ++ s ++ s.intercalate ((a2 :: X2) ++ Y) :=
        intercalate_cons_cons s a a2 (X2 ++ Y)
      rw [h1, ih (by simp) Y hY, intercalate_cons_cons s a a2 X2]
      apply String.ext
      simp [String.data_append, List.append_assoc]

theorem splitChars_ne_nil : ∀ l : List Char, splitChars l ≠ [] := by
  intro l
  induction l with
  | nil => simp [splitChars]
  | cons c rest ih =>
    rw [splitChars]
    split
    · simp
    · cases h : splitChars rest with
      | nil => exact absurd h ih
      | cons g gs => simp

theorem splitChars_no_newline {l : List Char} (h : Char.ofNat 10 ∉ l) :
    splitChars l = [l] := by
  induction l with
  | nil => rfl
  | cons c rest ih =>
    rw [splitChars]
    have hc : ¬ c = Char.ofNat 10 := fun hc => h (hc ▸ List.mem_cons_self c rest)
    rw [if_neg (by simpa using hc)]
    rw [ih (fun hm => h (List.mem_cons_of_mem c hm))]

theorem splitChars_append_newline {l1 : List Char} (h : Char.ofNat 10 ∉ l1)
    (l2 : List Char) :
    splitChars (l1 ++ Char.ofNat 10 :: l2) = l1 :: splitChars l2 := by
  induction l1 with
  | nil =>
    rw [List.nil_append, splitChars, if_pos (by simp)]
  | cons c rest ih =>
    have hc : ¬ c = Char.ofNat 10 := fun hc => h (hc ▸ List.mem_cons_self c rest)
    rw [List.cons_append, splitChars, if_neg (by simpa using hc)]
    rw [ih (fun hm => h (List.mem_cons_of_mem c hm))]

theorem mem_splitChars_no_newline :
    ∀ (l : List Char), ∀ g ∈ splitChars l, Char.ofNat 10 ∉ g := by
  intro l
  induction l with
  | nil =>
    intro g hg
    rw [show splitChars [] = [[]] from rfl] at hg
    simp at hg
    simp [hg]
  | cons c rest ih =>
    intro g hg
    rw [splitChars] at hg
    by_cases hc : c = Char.ofNat 10
    · rw [if_pos (by simpa using hc)] at hg
      rcases List.mem_cons.mp hg with rfl | hg2
      · simp
      · exact ih g hg2
    · rw [if_neg (by simpa using hc)] at hg
      rcases hsc : splitChars rest with _ | ⟨g0, gs⟩
      · exact absurd hsc (splitChars_ne_nil rest)
      · rw [hsc] at hg
        rcases List.mem_cons.mp hg with rfl | hg2
        · intro hmem
          rcases List.mem_cons.mp hmem with hcc | hg0
          · exact hc hcc.symm
          · exact ih g0 (by rw [hsc]; simp) hg0
        · exact ih g (by rw [hsc]; simp [hg2])

theorem splitChars_intercalate :
    ∀ (L : List String), L ≠ [] →
      (∀ l ∈ L, Char.ofNat 10 ∉ l.data) →
      splitChars (String.intercalate "\n" L).data = L.map String.data := by
  intro L
  induction L with
  | nil => intro h; exact absurd rfl h
  | cons a L ih =>
    intro _ hfree
    cases L with
    | nil =>
      rw [intercalate_singleton, List.map_cons, List.map_nil]
      exact splitChars_no_newline (hfree a (by simp))
    | cons b L2 =>
      rw [intercalate_cons_cons]
      have hdata : (a ++ "\n" ++ String.intercalate "\n" (b :: L2)).data =
          a.data ++ Char.ofNat 10 ::
            (String.intercalate "\n" (b :: L2)).data := by
        rw [String.data_append, String.data_append]
        simp [show ("\n" : String).data = [Char.ofNat 10] from by decide]
      rw [hdata,
        splitChars_append_newline (hfree a (by simp)),
        ih (by simp) (fun l hl => hfree l (by simp [hl]))]
      rfl

theorem getLastBang_of_getLastQ {α : Type} [Inhabited α] {l : List α} {c : α}
    (h : l.getLast? = some c) : l.getLast! = c := by
  cases l with
  | nil => simp at h
  | cons a t =>
    rw [List.getLast?_eq_getLast (a :: t) (by simp)] at h
    simp only [Option.some.injEq] at h
    simp only [List.getLast!]
    exact h

/-- Being `strip`-stable forces both ends free of the stripped
character. -/
theorem stripNl_stable_ends {s : String} (h : stripNl s = s) :
    s.data.dropWhile (· = Char.ofNat 10) = s.data ∧
    s.data.reverse.dropWhile (· = Char.ofNat 10) = s.data.reverse := by
  have hdata : (stripNl s).data = s.data := by rw [h]
  rw [stripNl] at hdata
  have hlen1 : (s.data.dropWhile (· = Char.ofNat 10)).length ≤ s.data.length :=
    (List.dropWhile_sublist _).length_le
  have hlen2 :
      ((s.data.dropWhile (· = Char.ofNat 10)).reverse.dropWhile
        (· = Char.ofNat 10)).length ≤
      (s.data.dropWhile (· = Char.ofNat 10)).length := by
    have := (List.dropWhile_sublist
      (l := (s.data.dropWhile (· = Char.ofNat 10)).reverse)
      (· = Char.ofNat 10)).length_le
    simpa using this
  have hlen0 :
      ((s.data.dropWhile (· = Char.ofNat 10)).reverse.dropWhile
        (· = Char.ofNat 10)).reverse.length = s.data.length := by
    rw [show ((s.data.dropWhile (· = Char.ofNat 10)).reverse.dropWhile
        (· = Char.ofNat 10)).reverse = s.data from hdata]
  simp only [List.length_reverse] at hlen0
  have hd1 : s.data.dropWhile (· = Char.ofNat 10) = s.data :=
    (List.dropWhile_sublist _).eq_of_length (by omega)
  refine ⟨hd1, ?_⟩
  rw [← hd1]
  exact (List.dropWhile_sublist _).eq_of_length
    (by simp only [List.length_reverse]; omega)

theorem stripNl_stable_getLast {s : String} (h : stripNl s = s)
    (hne : s.data ≠ []) : ∀ c, s.data.getLast? = some c → c ≠ Char.ofNat 10 := by
  intro c hc hceq
  obtain ⟨-, h2⟩ := stripNl_stable_ends h
  rw [← List.head?_reverse] at hc
  cases hrev : s.data.reverse with
  | nil => rw [hrev] at hc; simp at hc
  | cons a t =>
    rw [hrev] at hc h2
    simp only [List.head?_cons, Option.some.injEq] at hc
    subst hc
    rw [List.dropWhile_cons_of_pos (by simpa using hceq)] at h2
    have := congrArg List.length h2
    have hle := (List.dropWhile_sublist (l := t) (· = Char.ofNat 10)).length_le
    simp at this
    omega

/-- Appending one newline to a strip-stable string strips back to it. -/
theorem stripNl_append_newline {s : String} (h : stripNl s = s) :
    stripNl (s ++ "\n") = s := by
  obtain ⟨h1, h2⟩ := stripNl_stable_ends h
  apply String.ext
  rw [show (stripNl (s ++ "\n")).data =
    (((s ++ "\n").data.dropWhile (· = Char.ofNat 10)).reverse.dropWhile
      (· = Char.ofNat 10)).reverse from rfl]
  have hdapp : (s ++ "\n").data = s.data ++ [Char.ofNat 10] := by
    rw [String.data_append]
  cases hsd : s.data with
  | nil =>
    rw [hdapp, hsd]
    decide
  | cons a t =>
    rw [hsd] at h1 h2
    have ha : ¬ a = Char.ofNat 10 := by
      intro haeq
      rw [List.dropWhile_cons_of_pos (by simpa using haeq)] at h1
      have hlen := congrArg List.length h1
      have hle := (List.dropWhile_sublist (l := t) (· = Char.ofNat 10)).length_le
      simp at hlen
      omega
    rw [hdapp, hsd]
    rw [show (a :: t) ++ [Char.ofNat 10] = a :: (t ++ [Char.ofNat 10]) from rfl]
    rw [List.dropWhile_cons_of_neg (by simpa using ha)]
    rw [show (a :: (t ++ [Char.ofNat 10])).reverse =
      Char.ofNat 10 :: (a :: t).reverse from by simp]
    rw [List.dropWhile_cons_of_pos (by simp)]
    rw [h2]
    simp

/-- A trim-stable character list keeps its leading whitespace run empty. -/
theorem trimChars_stable_dropWhile {l : List Char} (h : trimChars l = l) :
    l.dropWhile Char.isWhitespace = l := by
  rw [trimChars] at h
  have hlen1 : (l.dropWhile Char.isWhitespace).length ≤ l.length :=
    (List.dropWhile_sublist _).length_le
  have hlen2 :
      ((l.dropWhile Char.isWhitespace).reverse.dropWhile
        Char.isWhitespace).length ≤
      (l.dropWhile Char.isWhitespace).length := by
    have := (List.dropWhile_sublist
      (l := (l.dropWhile Char.isWhitespace).reverse) Char.isWhitespace).length_le
    simpa using this
  have hlen0 :
      ((l.dropWhile Char.isWhitespace).reverse.dropWhile
        Char.isWhitespace).reverse.length = l.length := by
    rw [h]
  simp only [List.length_reverse] at hlen0
  exact (List.dropWhile_sublist _).eq_of_length (by omega)

/-- Every line produced by `splitlines` is free of newline characters. -/
theorem mem_splitlines_no_newline {s line : String}
    (h : line ∈ splitlines s) : Char.ofNat 10 ∉ line.data := by
  have hmem : line ∈ (splitChars s.data).map String.mk := by
    rw [splitlines] at h
    rcases hsd : s.data with _ | ⟨c, rest⟩
    · simp only [hsd] at h
      simp at h
    · simp only [hsd] at h
      by_cases hif : (c :: rest).getLast! = '\n'
      · rw [if_pos hif] at h
        exact (List.dropLast_sublist _).mem h
      · rw [if_neg hif] at h
        exact h
  obtain ⟨g, hg, rfl⟩ := List.mem_map.mp hmem
  exact mem_splitChars_no_newline s.data g hg

/-- The last character of a newline join is the last character of its final
component. -/
theorem joined_data_getLast? :
    ∀ (L : List String) (a : String), a.data ≠ [] →
      (String.intercalate "\n" (L ++ [a])).data.getLast? = a.data.getLast? := by
  intro L
  induction L with
  | nil =>
    intro a _
    rw [List.nil_append, intercalate_singleton]
  | cons b L ih =>
    intro a ha
    rw [List.cons_append]
    rw [show b :: (L ++ [a]) = [b] ++ (L ++ [a]) from rfl]
    rw [intercalate_append_strings "\n" [b] (by simp) (L ++ [a]) (by simp)]
    rw [intercalate_singleton, String.data_append, List.getLast?_append]
    rw [ih a ha]
    rw [List.getLast?_eq_getLast a.data ha]
    rfl

/-- A character list ending in a non-newline character yields a nonempty
final group. -/
theorem splitChars_getLast_ne_nil :
    ∀ (l : List Char) (c : Char), l.getLast? = some c → c ≠ Char.ofNat 10 →
      ∃ g, (splitChars l).getLast? = some g ∧ g ≠ [] := by
  intro l
  induction l with
  | nil => intro c hc _; simp at hc
  | cons c0 rest ih =>
    intro c hc hcnl
    cases rest with
    | nil =>
      simp at hc
      subst hc
      refine ⟨[c0], ?_, by simp⟩
      rw [splitChars, if_neg (by simpa using hcnl)]
      rfl
    | cons r1 r2 =>
      rw [List.getLast?_cons_cons] at hc
      obtain ⟨g, hg, hgne⟩ := ih c hc hcnl
      obtain ⟨g0, gs, hsc⟩ : ∃ g0 gs, splitChars (r1 :: r2) = g0 :: gs := by
        rcases h2 : splitChars (r1 :: r2) with _ | ⟨x, y⟩
        · exact absurd h2 (splitChars_ne_nil _)
        · exact ⟨x, y, rfl⟩
      rw [hsc] at hg
      rw [splitChars]
      by_cases hc0 : c0 = '\n'
      · rw [if_pos hc0]
        simp only [hsc]
        refine ⟨g, ?_, hgne⟩
        rw [List.getLast?_cons_cons]
        exact hg
      · rw [if_neg hc0]
        simp only [hsc]
        cases gs with
        | nil =>
          simp at hg
          subst hg
          exact ⟨c0 :: g0, by simp, by simp⟩
        | cons g1 gs2 =>
          refine ⟨g, ?_, hgne⟩
          rw [List.getLast?_cons_cons] at hg ⊢
          exact hg

/-- On a nonempty string not ending in a newline, `splitlines` is exactly
the newline grouping. -/
theorem splitlines_not_nl {s : String} (hne : s.data ≠ [])
    (hlast : s.data.getLast! ≠ '\n') :
    splitlines s = (splitChars s.data).map String.mk := by
  rw [splitlines]
  rcases hsd : s.data with _ | ⟨c, rest⟩
  · exact absurd hsd hne
  · rw [hsd] at hlast
    show (if (c :: rest).getLast! = '\n'
        then ((splitChars (c :: rest)).map String.mk).dropLast
        else (splitChars (c :: rest)).map String.mk) =
      (splitChars (c :: rest)).map String.mk
    rw [if_neg hlast]

/-- `splitlines` inverts the newline join for newline-free lines ending in
a nonempty line. -/
theorem splitlines_of_joined (M : List String) (a : String) (ha : a.data ≠ [])
    (hfree : ∀ l ∈ M ++ [a], Char.ofNat 10 ∉ l.data) :
    splitlines (String.intercalate "\n" (M ++ [a])) = M ++ [a] := by
  have hlastq := joined_data_getLast? M a ha
  have halast : a.data.getLast? = some (a.data.getLast ha) :=
    List.getLast?_eq_getLast _ ha
  have hlne : a.data.getLast ha ≠ Char.ofNat 10 :=
    fun he => hfree a (by simp) (he ▸ List.getLast_mem ha)
  have hJne : (String.intercalate "\n" (M ++ [a])).data ≠ [] := by
    intro h0
    rw [h0, halast] at hlastq
    simp at hlastq
  have hbang : (String.intercalate "\n" (M ++ [a])).data.getLast! =
      a.data.getLast ha :=
    getLastBang_of_getLastQ (by rw [hlastq, halast])
  rw [splitlines_not_nl hJne (by rw [hbang]; simpa using hlne)]
  rw [splitChars_intercalate (M ++ [a]) (by simp) hfree]
  rw [List.map_map]
  have hid : (String.mk ∘ String.data) = id := funext (fun s => rfl)
  rw [hid, List.map_id]

/-- Joining the newline groups with newlines restores the character
list. -/
theorem intercalate_splitChars :
    ∀ l : List Char,
      (String.intercalate "\n" ((splitChars l).map String.mk)).data = l := by
  intro l
  induction l with
  | nil => rfl
  | cons c rest ih =>
    obtain ⟨g0, gs, hsc⟩ : ∃ g0 gs, splitChars rest = g0 :: gs := by
      rcases h2 : splitChars rest with _ | ⟨x, y⟩
      · exact absurd h2 (splitChars_ne_nil _)
      · exact ⟨x, y, rfl⟩
    rw [hsc] at ih
    rw [splitChars]
    by_cases hc : c = '\n'
    · rw [if_pos hc]
      subst hc
      simp only [hsc, List.map_cons]
      rw [intercalate_cons_cons, String.data_append, String.data_append]
      rw [List.map_cons] at ih
      rw [ih]
      rfl
    · rw [if_neg hc]
      simp only [hsc, List.map_cons]
      cases gs with
      | nil =>
        rw [List.map_nil, intercalate_singleton]
        exact congrArg (List.cons c) ih
      | cons g1 gs2 =>
        simp only [List.map_cons] at ih ⊢
        rw [intercalate_cons_cons, String.data_append, String.data_append]
        rw [intercalate_cons_cons, String.data_append, String.data_append] at ih
        rw [← ih]
        rfl

/-- Joining `splitlines` output with newlines restores a strip-stable
string. -/
theorem join_splitlines {c : String} (h1 : stripNl c = c) :
    String.intercalate "\n" (splitlines c) = c := by
  by_cases hc : c = ""
  · subst hc
    decide
  · have hdne : c.data ≠ [] := fun h0 => hc (String.ext (by rw [h0]))
    have hsome : c.data.getLast? = some (c.data.getLast hdne) :=
      List.getLast?_eq_getLast _ hdne
    have hbang : c.data.getLast! = c.data.getLast hdne :=
      getLastBang_of_getLastQ hsome
    rw [splitlines_not_nl hdne
      (by rw [hbang]; simpa using stripNl_stable_getLast h1 hdne _ hsome)]
    apply String.ext
    exact intercalate_splitChars c.data

/-- Flushing the lines of a strip-stable content restores it. -/
theorem flushVal_content {c : String} (h1 : stripNl c = c) :
    flushVal (splitlines c) = c := by
  rw [flushVal, join_splitlines h1]
  exact h1

/-- Flushing the lines of a strip-stable content plus one blank separator
line restores it. -/
theorem flushVal_content_sep {c : String} (h1 : stripNl c = c) :
    flushVal (splitlines c ++ [""]) = c := by
  by_cases hc : c = ""
  · subst hc
    rw [show splitlines "" = ([] : List String) from by decide]
    rw [List.nil_append, flushVal, intercalate_singleton]
    decide
  · have hsc : splitlines c ≠ [] := by
      intro h0
      have hj := join_splitlines h1
      rw [h0] at hj
      exact hc hj.symm
    rw [flushVal]
    rw [intercalate_append_strings "\n" (splitlines c) hsc [""] (by simp)]
    rw [join_splitlines h1, intercalate_singleton]
    rw [show c ++ "\n" ++ "" = c ++ "\n" from by
      apply String.ext
      rw [String.data_append]
      simp [show ("" : String).data = ([] : List Char) from rfl]]
    exact stripNl_append_newline h1

/-- A heading line as emitted by `sectionOf`: hashes, one space, the
title. -/
def headingLine (lvl : ℕ) (title : String) : String :=
  headingHashes lvl ++ " " ++ title

theorem headingLine_data (lvl : ℕ) (title : String) :
    (headingLine lvl title).data =
      List.replicate lvl '#' ++ ' ' :: title.data := by
  rw [headingLine, String.data_append, String.data_append]
  rw [show (headingHashes lvl).data = List.replicate lvl '#' from rfl]
  rw [show (" " : String).data = [' '] from rfl]
  simp

theorem takeWhile_hashes (t : List Char) :
    ∀ k : ℕ, (List.replicate k '#' ++ ' ' :: t).takeWhile (· = '#') =
      List.replicate k '#' := by
  intro k
  induction k with
  | zero =>
    rw [List.replicate_zero, List.nil_append]
    exact List.takeWhile_cons_of_neg (by decide)
  | succ k ih =>
    rw [List.replicate_succ, List.cons_append,
      List.takeWhile_cons_of_pos (by decide), ih]

/-- `parseHeading` recovers level and title from a well-formed heading
line. -/
theorem parseHeading_headingLine {lvl : ℕ} {title : String}
    (h1 : 1 ≤ lvl) (h6 : lvl ≤ 6) (hne : title.data ≠ [])
    (htrim : trimChars title.data = title.data) :
    parseHeading (headingLine lvl title) = some (lvl, title) := by
  have hdropk : (List.replicate lvl '#' ++ ' ' :: title.data).drop lvl =
      ' ' :: title.data :=
    List.drop_left' (List.length_replicate lvl '#')
  have hdropw : (' ' :: title.data).dropWhile Char.isWhitespace = title.data := by
    rw [List.dropWhile_cons_of_pos (by decide)]
    exact trimChars_stable_dropWhile htrim
  have hlen : 2 ≤ (' ' :: title.data).length := by
    have := List.length_pos.mpr hne
    simp only [List.length_cons]
    omega
  simp only [parseHeading]
  rw [headingLine_data, takeWhile_hashes title.data lvl,
    List.length_replicate, hdropk]
  rw [if_pos ⟨h1, h6, hlen, by rfl⟩]
  rw [hdropw, htrim]

/-! ### C7 round trip: definitions -/

/-- The markdown flatten of a subtree as a list of lines: heading line,
body lines, then each child block preceded by one blank separator line. -/
def blockOf (d : ℕ) (n : Node) : List String :=
  headingLine (d + 1) n.title :: (splitlines n.content ++
    ((sorted_children n.children).attach.map
      (fun c => "" :: blockOf (d + 1) c.val)).flatten)
termination_by sizeOf n
decreasing_by exact sizeOf_lt_of_mem_sorted_children c.prop

/-- The pre-order section list built by `flatten_branch_to_markdown`. -/
def secList (d : ℕ) (n : Node) : List String :=
  sectionOf d n :: ((sorted_children n.children).attach.map
    (fun c => secList (d + 1) c.val)).flatten
termination_by sizeOf n
decreasing_by exact sizeOf_lt_of_mem_sorted_children c.prop

/-- The content of the deepest rightmost node of a subtree: the text still
sitting in the pending buffer when the expand loop leaves the subtree's
block. -/
def lastContent (n : Node) : String :=
  match h : sorted_children n.children with
  | [] => n.content
  | c :: cs => lastContent ((c :: cs).getLast (List.cons_ne_nil c cs))
termination_by sizeOf n
decreasing_by
  exact sizeOf_lt_of_mem_sorted_children
    (by rw [h]; exact List.getLast_mem (List.cons_ne_nil c cs))

/-- Round-trip safety of a branch: nonempty trim-stable newline-free
titles, strip-stable contents none of whose lines parse as headings,
recursively through the children. -/
def RTSafe (n : Node) : Bool :=
  decide (n.title.data ≠ []) &&
  decide (trimChars n.title.data = n.title.data) &&
  decide (Char.ofNat 10 ∉ n.title.data) &&
  decide (stripNl n.content = n.content) &&
  (splitlines n.content).all (fun line => decide (parseHeading line = none)) &&
  (sorted_children n.children).attach.all (fun c => RTSafe c.val)
termination_by sizeOf n
decreasing_by exact sizeOf_lt_of_mem_sorted_children c.prop

/-- The branch produced by expanding the flatten of `n`: titles and
contents preserved, scalar fields reset, content type and printable
inherited, children reindexed to 10, 20, 30, ... -/
def expandedNode (ct : String) (pr : Bool) (key : ℚ) (n : Node) : Node :=
  .mk n.title ct n.content "" "" "" pr key
    (reindexFrom 1 ((sorted_children n.children).attach.map
      (fun c => expandedNode ct pr 0 c.val)))
termination_by sizeOf n
decreasing_by exact sizeOf_lt_of_mem_sorted_children c.prop

/-- The stack while the expand loop reads the last line of a subtree's
block: the rightmost path, deepest entry first, each entry holding its
already-expanded earlier children; the deepest entry's content is still
pending. -/
def rspine (ct : String) (pr : Bool) (key : ℚ) (d : ℕ) (n : Node) :
    List ExpEntry :=
  match h : sorted_children n.children with
  | [] => [⟨d + 1, n.title, "", key, []⟩]
  | c :: cs =>
    rspine ct pr (((c :: cs).length : ℚ) * DEFAULT_SORT_STEP) (d + 1)
        ((c :: cs).getLast (List.cons_ne_nil c cs)) ++
      [⟨d + 1, n.title, n.content, key,
        reindexFrom 1 ((c :: cs).dropLast.map (expandedNode ct pr 0))⟩]
termination_by sizeOf n
decreasing_by
  exact sizeOf_lt_of_mem_sorted_children
    (by rw [h]; exact List.getLast_mem (List.cons_ne_nil c cs))

/-- `rspine` after the flush triggered by the next heading or by the final
flush: the deepest entry has received its content. -/
def cspine (ct : String) (pr : Bool) (key : ℚ) (d : ℕ) (n : Node) :
    List ExpEntry :=
  match h : sorted_children n.children with
  | [] => [⟨d + 1, n.title, n.content, key, []⟩]
  | c :: cs =>
    cspine ct pr (((c :: cs).length : ℚ) * DEFAULT_SORT_STEP) (d + 1)
        ((c :: cs).getLast (List.cons_ne_nil c cs)) ++
      [⟨d + 1, n.title, n.content, key,
        reindexFrom 1 ((c :: cs).dropLast.map (expandedNode ct pr 0))⟩]
termination_by sizeOf n
decreasing_by
  exact sizeOf_lt_of_mem_sorted_children
    (by rw [h]; exact List.getLast_mem (List.cons_ne_nil c cs))

/-- The depth-annotated pre-order list of titles and bodies: the
title/content structure of a branch. -/
def tcList (d : ℕ) (n : Node) : List (ℕ × String × String) :=
  (d, n.title, n.content) :: ((sorted_children n.children).attach.map
    (fun c => tcList (d + 1) c.val)).flatten
termination_by sizeOf n
decreasing_by exact sizeOf_lt_of_mem_sorted_children c.prop

theorem lastContent_leaf {n : Node} (h : sorted_children n.children = []) :
    lastContent n = n.content := by
  rw [lastContent]
  split
  next heq => rfl
  next c cs heq => rw [h] at heq; simp at heq

theorem lastContent_cons {n : Node} {c : Node} {cs : List Node}
    (h : sorted_children n.children = c :: cs) :
    lastContent n = lastContent ((c :: cs).getLast (List.cons_ne_nil c cs)) := by
  rw [lastContent]
  split
  next heq => rw [h] at heq; simp at heq
  next c2 cs2 heq =>
    rw [h] at heq
    injection heq with h1 h2
    subst h1
    subst h2
    rfl

theorem rspine_leaf (ct : String) (pr : Bool) (key : ℚ) (d : ℕ) {n : Node}
    (h : sorted_children n.children = []) :
    rspine ct pr key d n = [⟨d + 1, n.title, "", key, []⟩] := by
  rw [rspine]
  split
  next heq => rfl
  next c cs heq => rw [h] at heq; simp at heq

theorem rspine_cons (ct : String) (pr : Bool) (key : ℚ) (d : ℕ) {n : Node}
    {c : Node} {cs : List Node} (h : sorted_children n.children = c :: cs) :
    rspine ct pr key d n =
      rspine ct pr (((c :: cs).length : ℚ) * DEFAULT_SORT_STEP) (d + 1)
          ((c :: cs).getLast (List.cons_ne_nil c cs)) ++
        [⟨d + 1, n.title, n.content, key,
          reindexFrom 1 ((c :: cs).dropLast.map (expandedNode ct pr 0))⟩] := by
  rw [rspine]
  split
  next heq => rw [h] at heq; simp at heq
  next c2 cs2 heq =>
    rw [h] at heq
    injection heq with h1 h2
    subst h1
    subst h2
    rfl

theorem cspine_leaf (ct : String) (pr : Bool) (key : ℚ) (d : ℕ) {n : Node}
    (h : sorted_children n.children = []) :
    cspine ct pr key d n = [⟨d + 1, n.title, n.content, key, []⟩] := by
  rw [cspine]
  split
  next heq => rfl
  next c cs heq => rw [h] at heq; simp at heq

theorem cspine_cons (ct : String) (pr : Bool) (key : ℚ) (d : ℕ) {n : Node}
    {c : Node} {cs : List Node} (h : sorted_children n.children = c :: cs) :
    cspine ct pr key d n =
      cspine ct pr (((c :: cs).length : ℚ) * DEFAULT_SORT_STEP) (d + 1)
          ((c :: cs).getLast (List.cons_ne_nil c cs)) ++
        [⟨d + 1, n.title, n.content, key,
          reindexFrom 1 ((c :: cs).dropLast.map (expandedNode ct pr 0))⟩] := by
  rw [cspine]
  split
  next heq => rw [h] at heq; simp at heq
  next c2 cs2 heq =>
    rw [h] at heq
    injection heq with h1 h2
    subst h1
    subst h2
    rfl

/-- Unpacking of the `RTSafe` conjunction. -/
theorem RTSafe_parts {n : Node} (h : RTSafe n = true) :
    n.title.data ≠ [] ∧ trimChars n.title.data = n.title.data ∧
    Char.ofNat 10 ∉ n.title.data ∧ stripNl n.content = n.content ∧
    (∀ line ∈ splitlines n.content, parseHeading line = none) ∧
    ∀ c ∈ sorted_children n.children, RTSafe c = true := by
  rw [RTSafe] at h
  simp only [Bool.and_eq_true, List.all_eq_true, decide_eq_true_eq] at h
  obtain ⟨⟨⟨⟨⟨h1, h2⟩, h3⟩, h4⟩, h5⟩, h6⟩ := h
  exact ⟨h1, h2, h3, h4, h5, fun c hc => h6 ⟨c, hc⟩ (List.mem_attach _ _)⟩

/-- Unpacking of a false `deepAt`. -/
theorem deepAt_false_parts {d : ℕ} {n : Node} (h : deepAt d n = false) :
    d ≤ 5 ∧ ∀ c ∈ sorted_children n.children, deepAt (d + 1) c = false := by
  have h1 : ¬ (deepAt d n = true) := by simp [h]
  rw [deepAt_iff] at h1
  push_neg at h1
  obtain ⟨ha, hb⟩ := h1
  exact ⟨by omega, fun c hc => by simpa using hb c hc⟩

theorem reindexFrom_append (x : Node) :
    ∀ (A : List Node) (i : ℕ),
      reindexFrom i (A ++ [x]) = reindexFrom i A ++
        [x.withSortKey (((i + A.length : ℕ) : ℚ) * DEFAULT_SORT_STEP)] := by
  intro A
  induction A with
  | nil =>
    intro i
    simp [reindexFrom]
  | cons a A ih =>
    intro i
    rw [List.cons_append, reindexFrom, ih (i + 1), reindexFrom]
    simp only [List.length_cons]
    rw [show i + 1 + A.length = i + (A.length + 1) from by omega]
    rfl

theorem expandedNode_withSortKey (ct : String) (pr : Bool) (k k2 : ℚ)
    (n : Node) :
    (expandedNode ct pr k n).withSortKey k2 = expandedNode ct pr k2 n := by
  rw [expandedNode, expandedNode]
  rfl

/-- `expandedNode` written over an explicit sorted child list. -/
theorem expandedNode_eq_mk (ct : String) (pr : Bool) (key : ℚ) (n : Node)
    {l : List Node} (hsc : sorted_children n.children = l) :
    expandedNode ct pr key n = .mk n.title ct n.content "" "" "" pr key
      (reindexFrom 1 (l.map (expandedNode ct pr 0))) := by
  rw [expandedNode]
  rw [show (sorted_children n.children).attach.map
        (fun c => expandedNode ct pr 0 c.val)
      = (sorted_children n.children).map (expandedNode ct pr 0) from
    List.attach_map_val _ _]
  rw [hsc]

/-- Appending the expanded next child keeps the reindexed list sorted and
extends it in place. -/
theorem expanded_kids_step (ct : String) (pr : Bool) (L : List Node)
    (x : Node) :
    sorted_children (reindexFrom 1 (L.map (expandedNode ct pr 0)) ++
        [expandedNode ct pr (((L.length + 1 : ℕ) : ℚ) * DEFAULT_SORT_STEP) x]) =
      reindexFrom 1 ((L ++ [x]).map (expandedNode ct pr 0)) := by
  have hY : reindexFrom 1 ((L ++ [x]).map (expandedNode ct pr 0)) =
      reindexFrom 1 (L.map (expandedNode ct pr 0)) ++
        [expandedNode ct pr (((L.length + 1 : ℕ) : ℚ) * DEFAULT_SORT_STEP) x] := by
    rw [List.map_append,
      show List.map (expandedNode ct pr 0) [x] = [expandedNode ct pr 0 x]
        from rfl,
      reindexFrom_append, List.length_map, expandedNode_withSortKey,
      show (1 : ℕ) + L.length = L.length + 1 from by omega]
  rw [← hY]
  exact sorted_children_eq_self (goodList_reindexFrom _ 1).sorted

/-- The deepest rightmost content inherits the safety facts. -/
theorem RTSafe_lastContent : ∀ n : Node, RTSafe n = true →
    stripNl (lastContent n) = lastContent n ∧
    ∀ line ∈ splitlines (lastContent n), parseHeading line = none := by
  refine node_induction (fun n IH h => ?_)
  rcases hsc : sorted_children n.children with _ | ⟨c, cs⟩
  · rw [lastContent_leaf hsc]
    exact ⟨(RTSafe_parts h).2.2.2.1, (RTSafe_parts h).2.2.2.2.1⟩
  · rw [lastContent_cons hsc]
    have hmem : (c :: cs).getLast (List.cons_ne_nil c cs) ∈
        sorted_children n.children := by
      rw [hsc]
      exact List.getLast_mem (List.cons_ne_nil c cs)
    exact IH _ (mem_sorted_children hmem)
      ((RTSafe_parts h).2.2.2.2.2 _ hmem)

theorem blockOf_ne_nil (d : ℕ) (n : Node) : blockOf d n ≠ [] := by
  rw [blockOf]
  simp

theorem secList_ne_nil (d : ℕ) (n : Node) : secList d n ≠ [] := by
  rw [secList]
  simp

/-- The newline join of a section's line list is the section. -/
theorem sectionOf_lines {n : Node} (d : ℕ) (h1 : stripNl n.content = n.content) :
    String.intercalate "\n"
        (headingLine (d + 1) n.title :: splitlines n.content) =
      sectionOf d n := by
  by_cases hc : n.content = ""
  · rw [show splitlines n.content = ([] : List String) from by rw [hc]; decide,
      intercalate_singleton, sectionOf, if_pos hc, headingLine]
  · have hne : splitlines n.content ≠ [] :=
      fun h0 => hc (by rw [← join_splitlines h1, h0]; rfl)
    rw [show headingLine (d + 1) n.title :: splitlines n.content =
        [headingLine (d + 1) n.title] ++ splitlines n.content from rfl]
    rw [intercalate_append_strings "\n" _ (by simp) _ hne]
    rw [intercalate_singleton, join_splitlines h1]
    rw [sectionOf, if_neg hc, headingLine]

/-- Joining a flattened list of nonempty line lists equals joining their
joins. -/
theorem join_flatten (s : String) : ∀ (Ls : List (List String)),
    (∀ l ∈ Ls, l ≠ []) →
    String.intercalate s Ls.flatten =
      String.intercalate s (Ls.map (String.intercalate s)) := by
  intro Ls
  induction Ls with
  | nil => intro _; rfl
  | cons L Ls ih =>
    intro h
    cases Ls with
    | nil =>
      simp only [List.flatten_cons, List.flatten_nil, List.append_nil,
        List.map_cons, List.map_nil, intercalate_singleton]
    | cons M Ls2 =>
      have hL : L ≠ [] := h L (by simp)
      have hM : M ≠ [] := h M (by simp)
      have hflat : (M :: Ls2).flatten ≠ [] := by
        cases M with
        | nil => exact absurd rfl hM
        | cons x y => simp [List.flatten_cons]
      rw [List.flatten_cons]
      rw [intercalate_append_strings s L hL ((M :: Ls2).flatten) hflat]
      rw [ih (fun l hl => h l (by simp [hl]))]
      simp only [List.map_cons]
      rw [intercalate_cons_cons]

/-- Joining blocks separated by one blank line equals the double-newline
join of their joins. -/
theorem join_sep : ∀ (Bs : List (List String)), (∀ b ∈ Bs, b ≠ []) →
    ∀ (A : List String), A ≠ [] →
    String.intercalate "\n" (A ++ (Bs.map (fun b => "" :: b)).flatten) =
      String.intercalate "\n\n" (String.intercalate "\n" A ::
        Bs.map (String.intercalate "\n")) := by
  intro Bs
  induction Bs with
  | nil =>
    intro _ A hA
    simp only [List.map_nil, List.flatten_nil, List.append_nil,
      intercalate_singleton]
  | cons b Bs ih =>
    intro hmem A hA
    have hb : b ≠ [] := hmem b (by simp)
    obtain ⟨b0, bt, rfl⟩ : ∃ b0 bt, b = b0 :: bt := by
      cases b with
      | nil => exact absurd rfl hb
      | cons x y => exact ⟨x, y, rfl⟩
    simp only [List.map_cons, List.flatten_cons]
    rw [show A ++ ((("" : String) :: b0 :: bt) ++
        (Bs.map (fun b => "" :: b)).flatten) =
      A ++ ("" : String) :: (b0 ::
        (bt ++ (Bs.map (fun b => "" :: b)).flatten)) from by simp]
    rw [intercalate_append_strings "\n" A hA _ (by simp)]
    rw [intercalate_cons_cons "\n" "" b0
      (bt ++ (Bs.map (fun b => "" :: b)).flatten)]
    rw [show b0 :: (bt ++ (Bs.map (fun b => "" :: b)).flatten) =
        (b0 :: bt) ++ (Bs.map (fun b => "" :: b)).flatten from rfl]
    rw [ih (fun x hx => hmem x (by simp [hx])) (b0 :: bt) (by simp)]
    rw [intercalate_cons_cons "\n\n" (String.intercalate "\n" A)
      (String.intercalate "\n" (b0 :: bt))
      (Bs.map (String.intercalate "\n"))]
    apply String.ext
    simp [String.data_append,
      show ("\n" : String).data = [Char.ofNat 10] from rfl,
      show ("\n\n" : String).data = [Char.ofNat 10, Char.ofNat 10] from rfl,
      show ("" : String).data = ([] : List Char) from rfl]

/-- The newline join of a subtree's line block is the double-newline join
of its section list. -/
theorem blockOf_join : ∀ n : Node, RTSafe n = true → ∀ d : ℕ,
    String.intercalate "\n" (blockOf d n) =
      String.intercalate "\n\n" (secList d n) := by
  refine node_induction (fun n IH h d => ?_)
  obtain ⟨-, -, -, hstrip, -, hkids⟩ := RTSafe_parts h
  rw [blockOf, secList]
  rw [show ((sorted_children n.children).attach.map
        (fun c => ("" : String) :: blockOf (d + 1) c.val)).flatten =
      ((sorted_children n.children).map
        (fun c => ("" : String) :: blockOf (d + 1) c)).flatten from
    congrArg _ (List.attach_map_val _
      (fun c => ("" : String) :: blockOf (d + 1) c))]
  rw [show ((sorted_children n.children).attach.map
        (fun c => secList (d + 1) c.val)).flatten =
      ((sorted_children n.children).map (secList (d + 1))).flatten from
    congrArg _ (List.attach_map_val _ _)]
  have hchain : ∀ x ∈ sorted_children n.children,
      String.intercalate "\n" (blockOf (d + 1) x) =
        String.intercalate "\n\n" (secList (d + 1) x) :=
    fun x hx => IH x (mem_sorted_children hx) (hkids x hx) (d + 1)
  rcases hsc : sorted_children n.children with _ | ⟨c0, cs⟩
  · simp only [List.map_nil, List.flatten_nil, List.append_nil]
    rw [intercalate_singleton]
    exact sectionOf_lines d hstrip
  · rw [hsc] at hchain
    rw [show (c0 :: cs).map (fun c => ("" : String) :: blockOf (d + 1) c) =
        ((c0 :: cs).map (blockOf (d + 1))).map (fun b => "" :: b) from by
      rw [List.map_map]; rfl]
    rw [show headingLine (d + 1) n.title :: (splitlines n.content ++
        (((c0 :: cs).map (blockOf (d + 1))).map
          (fun b => ("" : String) :: b)).flatten) =
      (headingLine (d + 1) n.title :: splitlines n.content) ++
        (((c0 :: cs).map (blockOf (d + 1))).map
          (fun b => ("" : String) :: b)).flatten from rfl]
    rw [join_sep ((c0 :: cs).map (blockOf (d + 1)))
      (by
        intro b hbm
        obtain ⟨x, _hx, rfl⟩ := List.mem_map.mp hbm
        exact blockOf_ne_nil (d + 1) x)
      (headingLine (d + 1) n.title :: splitlines n.content) (by simp)]
    rw [sectionOf_lines d hstrip]
    rw [show sectionOf d n :: ((c0 :: cs).map (secList (d + 1))).flatten =
        ([sectionOf d n] :: (c0 :: cs).map (secList (d + 1))).flatten from by
      simp]
    rw [join_flatten "\n\n" ([sectionOf d n] :: (c0 :: cs).map (secList (d + 1)))
      (by
        intro l hl
        rcases List.mem_cons.mp hl with rfl | hl2
        · simp
        · obtain ⟨x, _hx, rfl⟩ := List.mem_map.mp hl2
          exact secList_ne_nil (d + 1) x)]
    simp only [List.map_cons, intercalate_singleton, List.map_map]
    congr 1
    congr 1
    exact List.map_congr_left (fun x hx => hchain x hx)

/-- On a shallow enough subtree the flatten recursion succeeds with the
section list. -/
theorem flattenSections_ok : ∀ n : Node, ∀ d : ℕ, deepAt d n = false →
    flattenSections d n = .ok (secList d n) := by
  refine node_induction (fun n IH d hdeep => ?_)
  obtain ⟨hd5, hkids⟩ := deepAt_false_parts hdeep
  rw [flattenSections, secList]
  rw [if_neg (by omega)]
  rw [List.map_congr_left (fun c _hc =>
    IH c.val (mem_sorted_children c.prop) (d + 1) (hkids c.val c.prop))]
  rw [exceptSeq_map_ok (fun c => secList (d + 1) c.val)
    ((sorted_children n.children).attach)]

/-- The flatten of a safe shallow subtree is the newline join of its line
block. -/
theorem flatten_blockOf {n : Node} (hsafe : RTSafe n = true)
    (hdeep : deepAt 0 n = false) :
    flatten_branch_to_markdown n =
      .ok (String.intercalate "\n" (blockOf 0 n)) := by
  rw [flatten_branch_to_markdown, flattenSections_ok n 0 hdeep,
    blockOf_join n hsafe 0]
  rfl

/-- Every line of a safe subtree's block is newline free. -/
theorem blockOf_nl_free : ∀ n : Node, RTSafe n = true → ∀ d : ℕ,
    ∀ line ∈ blockOf d n, Char.ofNat 10 ∉ line.data := by
  refine node_induction (fun n IH h d line hline => ?_)
  obtain ⟨-, -, htnl, -, -, hkids⟩ := RTSafe_parts h
  rw [blockOf] at hline
  rcases List.mem_cons.mp hline with rfl | hrest
  · rw [headingLine_data]
    intro hmem
    rcases List.mem_append.mp hmem with hh | hh
    · exact absurd (List.eq_of_mem_replicate hh) (by decide)
    · rcases List.mem_cons.mp hh with he | ht
      · exact absurd he (by decide)
      · exact htnl ht
  · rcases List.mem_append.mp hrest with hsl | hfl
    · exact mem_splitlines_no_newline hsl
    · obtain ⟨L, hL, hlineL⟩ := List.mem_flatten.mp hfl
      obtain ⟨c, hc, rfl⟩ := List.mem_map.mp hL
      rcases List.mem_cons.mp hlineL with rfl | hbl
      · simp
      · exact IH c.val (mem_sorted_children c.prop)
          (hkids c.val c.prop) (d + 1) line hbl

theorem getLast?_append_of_some {α : Type} {l2 : List α} {a : α}
    (h : l2.getLast? = some a) (l1 : List α) :
    (l1 ++ l2).getLast? = some a := by
  rw [List.getLast?_append, h]
  rfl

theorem getLast?_cons_of_some {α : Type} {l : List α} {a c : α}
    (h : l.getLast? = some a) : (c :: l).getLast? = some a := by
  cases l with
  | nil => simp at h
  | cons x xs =>
    rw [List.getLast?_cons_cons]
    exact h

/-- The last line of a safe subtree's block is nonempty. -/
theorem blockOf_last : ∀ n : Node, RTSafe n = true → ∀ d : ℕ,
    ∃ a, (blockOf d n).getLast? = some a ∧ a.data ≠ [] := by
  refine node_induction (fun n IH h d => ?_)
  obtain ⟨htne, -, -, hstrip, -, hkids⟩ := RTSafe_parts h
  rw [blockOf]
  rw [show ((sorted_children n.children).attach.map
        (fun c => ("" : String) :: blockOf (d + 1) c.val)).flatten =
      ((sorted_children n.children).map
        (fun c => ("" : String) :: blockOf (d + 1) c)).flatten from
    congrArg _ (List.attach_map_val _
      (fun c => ("" : String) :: blockOf (d + 1) c))]
  rcases hsc : sorted_children n.children with _ | ⟨c0, cs⟩
  · simp only [List.map_nil, List.flatten_nil, List.append_nil]
    by_cases hc : n.content = ""
    · refine ⟨headingLine (d + 1) n.title, ?_, ?_⟩
      · rw [show splitlines n.content = ([] : List String) from by
          rw [hc]; decide]
        rfl
      · rw [headingLine_data]
        simp
    · have hdne : n.content.data ≠ [] := fun h0 => hc (String.ext (by rw [h0]))
      have hq := stripNl_stable_getLast hstrip hdne
      have hsome := List.getLast?_eq_getLast n.content.data hdne
      have hsplit := splitlines_not_nl hdne
        (by rw [getLastBang_of_getLastQ hsome]; simpa using hq _ hsome)
      obtain ⟨g, hg, hgne⟩ :=
        splitChars_getLast_ne_nil n.content.data _ hsome (hq _ hsome)
      refine ⟨String.mk g, ?_, hgne⟩
      rw [hsplit]
      apply getLast?_cons_of_some
      rw [List.getLast?_map, hg]
      rfl
  · have hlastmem : (c0 :: cs).getLast (List.cons_ne_nil c0 cs) ∈
        sorted_children n.children := by
      rw [hsc]
      exact List.getLast_mem (List.cons_ne_nil c0 cs)
    obtain ⟨a, ha, hane⟩ := IH _ (mem_sorted_children hlastmem)
      (hkids _ hlastmem) (d + 1)
    refine ⟨a, ?_, hane⟩
    rw [show (c0 :: cs) = (c0 :: cs).dropLast ++
        [(c0 :: cs).getLast (List.cons_ne_nil c0 cs)] from
      (List.dropLast_append_getLast _).symm]
    rw [List.map_append, List.flatten_append]
    simp only [List.map_cons, List.map_nil, List.flatten_cons,
      List.flatten_nil, List.append_nil]
    have h1 : (("" : String) ::
        blockOf (d + 1) ((c0 :: cs).getLast (List.cons_ne_nil c0 cs))).getLast? =
        some a := getLast?_cons_of_some ha
    have h2 : ((((c0 :: cs).dropLast).map
          (fun c => ("" : String) :: blockOf (d + 1) c)).flatten ++
        (("" : String) ::
          blockOf (d + 1) ((c0 :: cs).getLast (List.cons_ne_nil c0 cs)))).getLast? =
        some a := getLast?_append_of_some h1 _
    have h3 : (splitlines n.content ++
        ((((c0 :: cs).dropLast).map
            (fun c => ("" : String) :: blockOf (d + 1) c)).flatten ++
          (("" : String) ::
            blockOf (d + 1)
              ((c0 :: cs).getLast (List.cons_ne_nil c0 cs))))).getLast? =
        some a := getLast?_append_of_some h2 _
    exact getLast?_cons_of_some h3

/-- `splitlines` recovers the line block from the flattened markdown. -/
theorem splitlines_blockOf {n : Node} (hsafe : RTSafe n = true) (d : ℕ) :
    splitlines (String.intercalate "\n" (blockOf d n)) = blockOf d n := by
  obtain ⟨a, ha, hane⟩ := blockOf_last n hsafe d
  have hne : blockOf d n ≠ [] := blockOf_ne_nil d n
  have hdec : blockOf d n = (blockOf d n).dropLast ++ [a] := by
    have hd := List.dropLast_append_getLast hne
    rw [List.getLast?_eq_getLast _ hne] at ha
    injection ha with ha2
    rw [ha2] at hd
    exact hd.symm
  rw [hdec]
  exact splitlines_of_joined _ a hane
    (by
      intro l hl
      refine blockOf_nl_free n hsafe d l ?_
      rw [hdec]
      exact hl)

theorem runLines_append (ct : String) (pr : Bool) (rk : ℚ) :
    ∀ (A B : List String) (S S1 : ExpState),
      runLines ct pr rk S A = .ok S1 →
      runLines ct pr rk S (A ++ B) = runLines ct pr rk S1 B := by
  intro A
  induction A with
  | nil =>
    intro B S S1 h
    rw [runLines] at h
    injection h with h2
    rw [List.nil_append, h2]
  | cons a A ih =>
    intro B S S1 h
    rw [runLines] at h
    rw [List.cons_append, runLines]
    cases hstep : expStep ct pr rk S a with
    | error e =>
      simp only [hstep] at h
      exact absurd h (by simp)
    | ok S2 =>
      simp only [hstep] at h
      simp only [hstep]
      exact ih B S2 S1 h

theorem expStep_noheading (ct : String) (pr : Bool) (rk : ℚ) (S : ExpState)
    {line : String} (h : parseHeading line = none) :
    expStep ct pr rk S line = .ok ⟨S.stack, S.pending ++ [line]⟩ := by
  rw [expStep, h]

theorem runLines_cons_ok (ct : String) (pr : Bool) (rk : ℚ)
    {S S1 : ExpState} {line : String}
    (h : expStep ct pr rk S line = .ok S1) (rest : List String) :
    runLines ct pr rk S (line :: rest) = runLines ct pr rk S1 rest := by
  rw [runLines]
  simp only [h]

theorem popAttach_stop (ct : String) (pr : Bool) {k : ℕ} {e : ExpEntry}
    (rest : List ExpEntry) (h : ¬ k ≤ e.level) :
    popAttach ct pr k (e :: rest) = some (e :: rest) := by
  rw [popAttach.eq_def]
  show (if k ≤ e.level then
      match rest with
      | [] => none
      | p :: rest2 => popAttach ct pr k (attachKid ct pr e p :: rest2)
    else some (e :: rest)) = some (e :: rest)
  rw [if_neg h]

theorem popAttach_step (ct : String) (pr : Bool) {k : ℕ} {e : ExpEntry}
    (p : ExpEntry) (rest : List ExpEntry) (h : k ≤ e.level) :
    popAttach ct pr k (e :: p :: rest) =
      popAttach ct pr k (attachKid ct pr e p :: rest) := by
  rw [popAttach.eq_def]
  show (if k ≤ e.level then
      match p :: rest with
      | [] => none
      | p2 :: rest2 => popAttach ct pr k (attachKid ct pr e p2 :: rest2)
    else some (e :: p :: rest)) = popAttach ct pr k (attachKid ct pr e p :: rest)
  rw [if_pos h]

theorem collapseStack_single (ct : String) (pr : Bool) (e : ExpEntry) :
    collapseStack ct pr [e] = buildEntry ct pr e := by
  rw [collapseStack.eq_def]

theorem collapseStack_step (ct : String) (pr : Bool) (e p : ExpEntry)
    (rest : List ExpEntry) :
    collapseStack ct pr (e :: p :: rest) =
      collapseStack ct pr (attachKid ct pr e p :: rest) := by
  rw [collapseStack.eq_def]

theorem reindexFrom_length :
    ∀ (l : List Node) (i : ℕ), (reindexFrom i l).length = l.length := by
  intro l
  induction l with
  | nil => intro i; rfl
  | cons a t ih =>
    intro i
    rw [reindexFrom]
    simp [ih]

/-- Flushing a pending buffer that joins to the rightmost content turns the
raw spine into the flushed spine. -/
theorem flush_rspine (ct : String) (pr : Bool) :
    ∀ (n : Node) (d : ℕ) (key : ℚ) (tail : List ExpEntry) (pnd : List String),
      flushVal pnd = lastContent n →
      ExpState.flush ⟨rspine ct pr key d n ++ tail, pnd⟩ =
        ⟨cspine ct pr key d n ++ tail, []⟩ := by
  refine node_induction (fun n IH d key tail pnd hP => ?_)
  rcases hsc : sorted_children n.children with _ | ⟨c, cs⟩
  · rw [rspine_leaf ct pr key d hsc, cspine_leaf ct pr key d hsc]
    simp only [List.singleton_append, ExpState.flush, hP, lastContent_leaf hsc]
  · rw [rspine_cons ct pr key d hsc, cspine_cons ct pr key d hsc]
    rw [List.append_assoc, List.append_assoc]
    exact IH ((c :: cs).getLast (List.cons_ne_nil c cs))
      (mem_sorted_children (by
        rw [hsc]; exact List.getLast_mem (List.cons_ne_nil c cs)))
      (d + 1) (((c :: cs).length : ℚ) * DEFAULT_SORT_STEP)
      ([⟨d + 1, n.title, n.content, key,
        reindexFrom 1 ((c :: cs).dropLast.map (expandedNode ct pr 0))⟩] ++ tail)
      pnd (hP.trans (lastContent_cons hsc))

/-- The flushed spine is nonempty and its top sits strictly below the next
sibling level. -/
theorem cspine_shape (ct : String) (pr : Bool) :
    ∀ (n : Node) (d : ℕ) (key : ℚ),
      ∃ e t, cspine ct pr key d n = e :: t ∧ d + 1 ≤ e.level := by
  refine node_induction (fun n IH d key => ?_)
  rcases hsc : sorted_children n.children with _ | ⟨c, cs⟩
  · exact ⟨⟨d + 1, n.title, n.content, key, []⟩, [],
      cspine_leaf ct pr key d hsc, Nat.le_refl _⟩
  · obtain ⟨e, t, he, hlev⟩ :=
      IH ((c :: cs).getLast (List.cons_ne_nil c cs))
        (mem_sorted_children (by
          rw [hsc]; exact List.getLast_mem (List.cons_ne_nil c cs)))
        (d + 1) (((c :: cs).length : ℚ) * DEFAULT_SORT_STEP)
    refine ⟨e, t ++ [⟨d + 1, n.title, n.content, key,
      reindexFrom 1 ((c :: cs).dropLast.map (expandedNode ct pr 0))⟩], ?_,
      by omega⟩
    rw [cspine_cons ct pr key d hsc, he]
    rfl

/-- Attaching the expanded last child closes the reindexed child list. -/
theorem cspine_kids_close (ct : String) (pr : Bool) (c : Node)
    (cs : List Node) :
    sorted_children
        (reindexFrom 1 ((c :: cs).dropLast.map (expandedNode ct pr 0)) ++
          [expandedNode ct pr (((c :: cs).length : ℚ) * DEFAULT_SORT_STEP)
            ((c :: cs).getLast (List.cons_ne_nil c cs))]) =
      reindexFrom 1 ((c :: cs).map (expandedNode ct pr 0)) := by
  have h := expanded_kids_step ct pr ((c :: cs).dropLast)
    ((c :: cs).getLast (List.cons_ne_nil c cs))
  rw [show ((c :: cs).dropLast.length + 1 : ℕ) = (c :: cs).length from by
    simp] at h
  rw [List.dropLast_append_getLast (List.cons_ne_nil c cs)] at h
  exact h

/-- Popping at a sibling level collapses the whole flushed spine into one
expanded child of the entry below it. -/
theorem popAttach_cspine (ct : String) (pr : Bool) :
    ∀ (n : Node) (k d : ℕ) (key : ℚ) (p : ExpEntry) (rest : List ExpEntry),
      k ≤ d + 1 →
      popAttach ct pr k (cspine ct pr key d n ++ p :: rest) =
        popAttach ct pr k
          ({p with kids :=
            sorted_children (p.kids ++ [expandedNode ct pr key n])} :: rest) := by
  refine node_induction (fun n IH k d key p rest hk => ?_)
  rcases hsc : sorted_children n.children with _ | ⟨c, cs⟩
  · rw [cspine_leaf ct pr key d hsc]
    rw [List.singleton_append]
    rw [popAttach_step ct pr p rest hk]
    rw [expandedNode_eq_mk ct pr key n hsc]
    rfl
  · rw [cspine_cons ct pr key d hsc]
    rw [List.append_assoc, List.singleton_append]
    rw [IH ((c :: cs).getLast (List.cons_ne_nil c cs))
      (mem_sorted_children (by
        rw [hsc]; exact List.getLast_mem (List.cons_ne_nil c cs)))
      k (d + 1) (((c :: cs).length : ℚ) * DEFAULT_SORT_STEP)
      ⟨d + 1, n.title, n.content, key,
        reindexFrom 1 ((c :: cs).dropLast.map (expandedNode ct pr 0))⟩
      (p :: rest) (by omega)]
    dsimp only
    rw [cspine_kids_close ct pr c cs]
    rw [popAttach_step ct pr p rest hk]
    rw [expandedNode_eq_mk ct pr key n hsc]
    rfl

/-- Collapsing the flushed spine above an entry attaches one expanded
child to it. -/
theorem collapse_cspine_cons (ct : String) (pr : Bool) :
    ∀ (n : Node) (d : ℕ) (key : ℚ) (p : ExpEntry) (rest : List ExpEntry),
      collapseStack ct pr (cspine ct pr key d n ++ p :: rest) =
        collapseStack ct pr
          ({p with kids :=
            sorted_children (p.kids ++ [expandedNode ct pr key n])} :: rest) := by
  refine node_induction (fun n IH d key p rest => ?_)
  rcases hsc : sorted_children n.children with _ | ⟨c, cs⟩
  · rw [cspine_leaf ct pr key d hsc]
    rw [List.singleton_append]
    rw [collapseStack_step]
    rw [expandedNode_eq_mk ct pr key n hsc]
    rfl
  · rw [cspine_cons ct pr key d hsc]
    rw [List.append_assoc, List.singleton_append]
    rw [IH ((c :: cs).getLast (List.cons_ne_nil c cs))
      (mem_sorted_children (by
        rw [hsc]; exact List.getLast_mem (List.cons_ne_nil c cs)))
      (d + 1) (((c :: cs).length : ℚ) * DEFAULT_SORT_STEP)
      ⟨d + 1, n.title, n.content, key,
        reindexFrom 1 ((c :: cs).dropLast.map (expandedNode ct pr 0))⟩
      (p :: rest)]
    dsimp only
    rw [cspine_kids_close ct pr c cs]
    rw [collapseStack_step]
    rw [expandedNode_eq_mk ct pr key n hsc]
    rfl

/-- Collapsing a lone flushed spine produces the expanded subtree. -/
theorem collapse_cspine (ct : String) (pr : Bool) (n : Node) (d : ℕ)
    (key : ℚ) :
    collapseStack ct pr (cspine ct pr key d n) = expandedNode ct pr key n := by
  rcases hsc : sorted_children n.children with _ | ⟨c, cs⟩
  · rw [cspine_leaf ct pr key d hsc, collapseStack_single]
    rw [expandedNode_eq_mk ct pr key n hsc]
    rfl
  · rw [cspine_cons ct pr key d hsc]
    rw [collapse_cspine_cons ct pr _ (d + 1) _ _ []]
    dsimp only
    rw [cspine_kids_close ct pr c cs]
    rw [collapseStack_single]
    rw [expandedNode_eq_mk ct pr key n hsc]
    rfl

/-- A child heading arriving while the parent entry is on top: the flush
writes the pending buffer into the parent and the new child entry is pushed
with key 10. -/
theorem expStep_first_child (ct : String) (pr : Bool) (rk : ℚ)
    (d : ℕ) (T : String) (key : ℚ) (stk1 : List ExpEntry) (pnd : List String)
    {t : String} (hk6 : d + 2 ≤ 6) (htne : t.data ≠ [])
    (htrim : trimChars t.data = t.data) :
    expStep ct pr rk ⟨⟨d + 1, T, "", key, []⟩ :: stk1, pnd⟩
      (headingLine (d + 2) t) =
    .ok ⟨⟨d + 2, t, "", ((0 + 1 : ℕ) : ℚ) * DEFAULT_SORT_STEP, []⟩ ::
      ⟨d + 1, T, flushVal pnd, key, []⟩ :: stk1, []⟩ := by
  have hh : parseHeading (headingLine (d + 2) t) = some (d + 2, t) :=
    parseHeading_headingLine (by omega) hk6 htne htrim
  simp only [expStep, hh, ExpState.flush]
  rw [if_neg (show ¬ d + 1 + 1 < d + 2 from by omega)]
  rw [@popAttach_stop ct pr (d + 2) ⟨d + 1, T, flushVal pnd, key, []⟩ stk1
    (show ¬ d + 2 ≤ d + 1 from by omega)]
  rfl

/-- A sibling heading arriving while a finished subtree's spine is on top:
the flush completes the spine, the pop collapses it into one expanded child
of the entry below, and the new sibling entry is pushed. -/
theorem expStep_next_child (ct : String) (pr : Bool) (rk : ℚ)
    (prev : Node) (d : ℕ) (pk : ℚ) (T C : String) (key : ℚ) (K : List Node)
    (stk1 : List ExpEntry) (pnd : List String) {t : String}
    (hk6 : d + 2 ≤ 6) (htne : t.data ≠ [])
    (htrim : trimChars t.data = t.data)
    (hflushv : flushVal pnd = lastContent prev) :
    expStep ct pr rk
      ⟨rspine ct pr pk (d + 1) prev ++ ⟨d + 1, T, C, key, K⟩ :: stk1, pnd⟩
      (headingLine (d + 2) t) =
    .ok ⟨⟨d + 2, t, "",
        (((sorted_children (K ++ [expandedNode ct pr pk prev])).length + 1 : ℕ) :
          ℚ) * DEFAULT_SORT_STEP, []⟩ ::
      ⟨d + 1, T, C, key, sorted_children (K ++ [expandedNode ct pr pk prev])⟩ ::
      stk1, []⟩ := by
  have hh : parseHeading (headingLine (d + 2) t) = some (d + 2, t) :=
    parseHeading_headingLine (by omega) hk6 htne htrim
  have hfl := flush_rspine ct pr prev (d + 1) pk
    (⟨d + 1, T, C, key, K⟩ :: stk1) pnd hflushv
  obtain ⟨e, tl, he, hlev⟩ := cspine_shape ct pr prev (d + 1) pk
  have hpop := popAttach_cspine ct pr prev (d + 2) (d + 1) pk
    ⟨d + 1, T, C, key, K⟩ stk1 (by omega)
  have hstop := @popAttach_stop ct pr (d + 2)
    ⟨d + 1, T, C, key, sorted_children (K ++ [expandedNode ct pr pk prev])⟩ stk1
    (show ¬ d + 2 ≤ d + 1 from by omega)
  simp only [expStep, hh, hfl]
  simp only [he, List.cons_append]
  rw [if_neg (show ¬ e.level + 1 < d + 2 from by omega)]
  rw [← List.cons_append, ← he, hpop]
  dsimp only
  rw [hstop]

/-- The running of one node's block from a state whose top is the node's
fresh entry. -/
def RunsBlock (ct : String) (pr : Bool) (rk : ℚ) (d1 : ℕ) (c : Node) : Prop :=
  ∀ (S : ExpState) (key2 : ℚ) (stk2 : List ExpEntry),
    expStep ct pr rk S (headingLine (d1 + 1) c.title) =
      .ok ⟨⟨d1 + 1, c.title, "", key2, []⟩ :: stk2, []⟩ →
    runLines ct pr rk S (blockOf d1 c) =
      .ok ⟨rspine ct pr key2 d1 c ++ stk2, splitlines (lastContent c)⟩

/-- The loop over the remaining sibling blocks: each finished sibling is
collapsed into the parent entry and the next spine is built. -/
theorem runKidsLoop (ct : String) (pr : Bool) (rk : ℚ) (d : ℕ)
    (T C : String) (key : ℚ) (stk1 : List ExpEntry) :
    ∀ (rest : List Node) (done : List Node) (prev : Node),
      (∀ c ∈ rest, RTSafe c = true) →
      (∀ c ∈ rest, RunsBlock ct pr rk (d + 1) c) →
      RTSafe prev = true →
      d + 2 ≤ 6 →
      runLines ct pr rk
        ⟨rspine ct pr (((done.length + 1 : ℕ) : ℚ) * DEFAULT_SORT_STEP)
            (d + 1) prev ++
          ⟨d + 1, T, C, key,
            reindexFrom 1 (done.map (expandedNode ct pr 0))⟩ :: stk1,
         splitlines (lastContent prev)⟩
        ((rest.map (fun c => ("" : String) :: blockOf (d + 1) c)).flatten) =
      .ok ⟨rspine ct pr
            (((done.length + rest.length + 1 : ℕ) : ℚ) * DEFAULT_SORT_STEP)
            (d + 1) ((prev :: rest).getLast (List.cons_ne_nil prev rest)) ++
          ⟨d + 1, T, C, key,
            reindexFrom 1 ((done ++ (prev :: rest).dropLast).map
              (expandedNode ct pr 0))⟩ :: stk1,
         splitlines (lastContent
           ((prev :: rest).getLast (List.cons_ne_nil prev rest)))⟩ := by
  intro rest
  induction rest with
  | nil =>
    intro done prev _ _ _ _
    simp only [List.map_nil, List.flatten_nil, List.length_nil,
      Nat.add_zero, List.getLast_singleton, List.dropLast_single,
      List.append_nil]
    rw [runLines]
  | cons c rest2 ih =>
    intro done prev hsafeR hRB hprevSafe hd6
    obtain ⟨hctne, hctrim, -, -, -, -⟩ := RTSafe_parts (hsafeR c (by simp))
    simp only [List.map_cons, List.flatten_cons]
    rw [List.cons_append]
    rw [runLines_cons_ok ct pr rk
      (expStep_noheading ct pr rk _ (show parseHeading "" = none from by
        decide)) _]
    have hstepc := expStep_next_child ct pr rk prev d
      (((done.length + 1 : ℕ) : ℚ) * DEFAULT_SORT_STEP) T C key
      (reindexFrom 1 (done.map (expandedNode ct pr 0))) stk1
      (splitlines (lastContent prev) ++ [""]) hd6 hctne hctrim
      (flushVal_content_sep (RTSafe_lastContent prev hprevSafe).1)
    rw [expanded_kids_step ct pr done prev] at hstepc
    rw [show ((reindexFrom 1 ((done ++ [prev]).map
          (expandedNode ct pr 0))).length + 1 : ℕ) =
        (done ++ [prev]).length + 1 from by
      rw [reindexFrom_length, List.length_map]] at hstepc
    have hblock := hRB c (by simp) _ _ _ hstepc
    rw [runLines_append ct pr rk (blockOf (d + 1) c) _ _ _ hblock]
    have hloop := ih (done ++ [prev]) c
      (fun x hx => hsafeR x (by simp [hx]))
      (fun x hx => hRB x (by simp [hx]))
      (hsafeR c (by simp)) hd6
    rw [hloop]
    rw [List.getLast_cons (List.cons_ne_nil c rest2)]
    rw [List.dropLast_cons₂]
    rw [List.append_cons done prev ((c :: rest2).dropLast)]
    rw [show ((done ++ [prev]).length + rest2.length + 1 : ℕ) =
      done.length + (c :: rest2).length + 1 from by
      simp only [List.length_append, List.length_cons, List.length_nil]
      omega]

/-- Running one block from its heading onward builds the node's spine and
leaves its rightmost content pending. -/
theorem runBlock (ct : String) (pr : Bool) (rk : ℚ) :
    ∀ n : Node, RTSafe n = true → ∀ d : ℕ, deepAt d n = false →
      RunsBlock ct pr rk d n := by
  refine node_induction (fun n IH hsafe d hdeep S key stk1 hstep => ?_)
  obtain ⟨htne, htrim, htnl, hstrip, hnohead, hkidsafe⟩ := RTSafe_parts hsafe
  obtain ⟨hd5, hkidsdeep⟩ := deepAt_false_parts hdeep
  rw [blockOf]
  rw [show ((sorted_children n.children).attach.map
        (fun c => ("" : String) :: blockOf (d + 1) c.val)).flatten =
      ((sorted_children n.children).map
        (fun c => ("" : String) :: blockOf (d + 1) c)).flatten from
    congrArg _ (List.attach_map_val _
      (fun c => ("" : String) :: blockOf (d + 1) c))]
  rw [runLines_cons_ok ct pr rk hstep]
  have hnh := runLines_noheading ct pr rk (splitlines n.content)
    (⟨d + 1, n.title, "", key, []⟩ :: stk1) [] hnohead
  rw [runLines_append ct pr rk (splitlines n.content) _ _ _ hnh]
  rcases hsc : sorted_children n.children with _ | ⟨c0, cs⟩
  · simp only [List.map_nil, List.flatten_nil]
    rw [runLines]
    rw [rspine_leaf ct pr key d hsc, lastContent_leaf hsc]
    simp only [List.nil_append, List.singleton_append]
  · have hc0mem : c0 ∈ sorted_children n.children := by rw [hsc]; simp
    have hdnext : d + 2 ≤ 6 := by
      have h2 := (deepAt_false_parts (hkidsdeep c0 hc0mem)).1
      omega
    obtain ⟨hc0tne, hc0trim, -, -, -, -⟩ := RTSafe_parts (hkidsafe c0 hc0mem)
    simp only [List.map_cons, List.flatten_cons, List.nil_append]
    rw [List.cons_append]
    rw [runLines_cons_ok ct pr rk
      (expStep_noheading ct pr rk _ (show parseHeading "" = none from by
        decide)) _]
    have hstep1 := expStep_first_child ct pr rk d n.title key stk1
      (splitlines n.content ++ [""]) hdnext hc0tne hc0trim
    rw [flushVal_content_sep hstrip] at hstep1
    have hb := IH c0 (mem_sorted_children hc0mem) (hkidsafe c0 hc0mem)
      (d + 1) (hkidsdeep c0 hc0mem) _ _ _ hstep1
    rw [runLines_append ct pr rk (blockOf (d + 1) c0) _ _ _ hb]
    have hloop := runKidsLoop ct pr rk d n.title n.content key stk1 cs [] c0
      (fun x hx => hkidsafe x (by rw [hsc]; simp [hx]))
      (fun x hx => IH x (mem_sorted_children (by rw [hsc]; simp [hx]))
        (hkidsafe x (by rw [hsc]; simp [hx])) (d + 1)
        (hkidsdeep x (by rw [hsc]; simp [hx])))
      (hkidsafe c0 hc0mem) hdnext
    simp only [List.length_nil, List.map_nil, List.nil_append] at hloop
    rw [show reindexFrom 1 ([] : List Node) = [] from rfl] at hloop
    rw [hloop]
    rw [rspine_cons ct pr key d hsc, lastContent_cons hsc]
    rw [List.append_assoc, List.singleton_append]
    rw [show (0 + cs.length + 1 : ℕ) = (c0 :: cs).length from by
      simp only [List.length_cons]
      omega]

theorem tcList_withSortKey (d : ℕ) (x : Node) (k : ℚ) :
    tcList d (x.withSortKey k) = tcList d x := by
  cases x with
  | mk t ct c se a i p k0 ch =>
    rw [tcList, tcList]
    rfl

theorem map_tcList_reindexFrom (d : ℕ) :
    ∀ (L : List Node) (i : ℕ),
      (reindexFrom i L).map (tcList d) = L.map (tcList d) := by
  intro L
  induction L with
  | nil => intro i; rfl
  | cons a t ih =>
    intro i
    rw [reindexFrom, List.map_cons, List.map_cons, tcList_withSortKey, ih]

/-- Expansion preserves the depth-annotated title/content structure. -/
theorem tcList_expandedNode (ct : String) (pr : Bool) :
    ∀ n : Node, ∀ (d : ℕ) (key : ℚ),
      tcList d (expandedNode ct pr key n) = tcList d n := by
  refine node_induction (fun n IH d key => ?_)
  rw [expandedNode_eq_mk ct pr key n rfl]
  rw [tcList]
  simp only [Node.title_mk, Node.content_mk, Node.children_mk]
  rw [show (sorted_children (reindexFrom 1
        ((sorted_children n.children).map (expandedNode ct pr 0)))).attach.map
        (fun c => tcList (d + 1) c.val) =
      (sorted_children (reindexFrom 1
        ((sorted_children n.children).map (expandedNode ct pr 0)))).map
        (tcList (d + 1)) from List.attach_map_val _ _]
  rw [sorted_children_eq_self (goodList_reindexFrom _ 1).sorted]
  rw [map_tcList_reindexFrom (d + 1) _ 1]
  rw [List.map_map]
  simp only [Function.comp_def]
  rw [List.map_congr_left (fun x hx =>
    IH x (mem_sorted_children hx) (d + 1) 0)]
  rw [tcList]
  rw [show (sorted_children n.children).attach.map
        (fun c => tcList (d + 1) c.val) =
      (sorted_children n.children).map (tcList (d + 1)) from
    List.attach_map_val _ _]

/-- Expanding the flatten of a safe shallow branch succeeds and produces
exactly the expanded branch. -/
theorem expand_flatten_eq {n : Node} (hsafe : RTSafe n = true)
    (hdeep : deepAt 0 n = false) (src : Node) (key : ℚ) (md : String)
    (hmd : flatten_branch_to_markdown n = .ok md)
    (hsrc : src.content = md) :
    expand_markdown_to_branch src key =
      .ok (expandedNode src.content_type src.printable key n) := by
  have hmd2 := flatten_blockOf hsafe hdeep
  rw [hmd] at hmd2
  injection hmd2 with hmdeq
  have hsplit : splitlines src.content = blockOf 0 n := by
    rw [hsrc, hmdeq]
    exact splitlines_blockOf hsafe 0
  obtain ⟨htne, htrim, -, -, -, -⟩ := RTSafe_parts hsafe
  have hh : parseHeading (headingLine (0 + 1) n.title) =
      some (0 + 1, n.title) :=
    parseHeading_headingLine (by omega) (by omega) htne htrim
  have hfirst := expStep_first_heading src.content_type src.printable key [] hh
  have hrb := runBlock src.content_type src.printable key n hsafe 0 hdeep
    ⟨[], []⟩ key [] hfirst
  have hfl := flush_rspine src.content_type src.printable n 0 key []
    (splitlines (lastContent n))
    (flushVal_content (RTSafe_lastContent n hsafe).1)
  obtain ⟨e, tl, he, -⟩ := cspine_shape src.content_type src.printable n 0 key
  simp only [List.append_nil] at hfl
  rw [expand_markdown_to_branch]
  rw [hsplit]
  simp only [hrb]
  simp only [expFinalize, List.append_nil]
  simp only [hfl]
  simp only [he]
  rw [← he, collapse_cspine]

/-- C7: on branches that are round-trip safe (nonempty trim-stable
newline-free titles, strip-stable contents none of whose lines parse as
headings) and of depth at most 5, expanding the flattened markdown succeeds
and yields exactly the expanded branch: same titles and same bodies
node for node in the same shape (children in sorted order), with content
type and printable inherited from the expansion source and children
reindexed to keys 10, 20, 30, ...; in particular the depth-annotated
pre-order title/content structure is preserved.  Without the safety
restriction the round trip can fail outright (see the counterexample, where
a body line that looks like a heading aborts the expansion). -/
theorem flatten_expand_roundtrip_structure (n src : Node) (key : ℚ)
    (md : String) (hsafe : RTSafe n = true) (hdeep : deepAt 0 n = false)
    (hflat : flatten_branch_to_markdown n = .ok md)
    (hsrc : src.content = md) :
    expand_markdown_to_branch src key =
      .ok (expandedNode src.content_type src.printable key n) ∧
    tcList 0 (expandedNode src.content_type src.printable key n) =
      tcList 0 n :=
  ⟨expand_flatten_eq hsafe hdeep src key md hflat hsrc,
   tcList_expandedNode src.content_type src.printable n 0 key⟩

theorem flatten_expand_roundtrip_structure_witness :
    RTSafe (Node.mk "T" "md" "hello" "" "" "" true 12 []) = true ∧
    deepAt 0 (Node.mk "T" "md" "hello" "" "" "" true 12 []) = false ∧
    flatten_branch_to_markdown (Node.mk "T" "md" "hello" "" "" "" true 12 []) =
      .ok "# T\nhello" ∧
    (expand_markdown_to_branch
        (Node.mk "S" "md" "# T\nhello" "" "" "" false 0 []) 7 =
      .ok (expandedNode "md" false 7
        (Node.mk "T" "md" "hello" "" "" "" true 12 [])) ∧
     tcList 0 (expandedNode "md" false 7
        (Node.mk "T" "md" "hello" "" "" "" true 12 [])) =
      tcList 0 (Node.mk "T" "md" "hello" "" "" "" true 12 [])) := by
  have pf1 : RTSafe (Node.mk "T" "md" "hello" "" "" "" true 12 []) = true := by
    rw [RTSafe]
    decide
  have pf2 : deepAt 0 (Node.mk "T" "md" "hello" "" "" "" true 12 []) =
      false := by
    rw [deepAt]
    decide
  have pf3 : flatten_branch_to_markdown
      (Node.mk "T" "md" "hello" "" "" "" true 12 []) = .ok "# T\nhello" := by
    rw [flatten_branch_to_markdown, flattenSections]
    simp only [Node.children_mk, sorted_children]
    rw [show List.insertionSort keyLe [] = [] from rfl]
    rw [show (([] : List Node).attach.map
      (fun c => flattenSections (0 + 1) c.val)) = [] from rfl]
    rw [show exceptSeq ([] : List (Except PyErr (List String))) = .ok [] from rfl]
    rfl
  exact ⟨pf1, pf2, pf3,
    flatten_expand_roundtrip_structure _ _ 7 "# T\nhello" pf1 pf2 pf3 rfl⟩

end SpecTree
